import Mathlib

/-!
Verification of the Chord/Pastry DHT laboratory (`src/dht/`).

The development shallowly embeds the Python sources:
* `dht/common.py` — identifier arithmetic (`hash_key` is kept abstract as a
  parameter `hashFn` with the range bound `hashFn k < 2^m` that
  `SHA-1(k) mod 2^m` guarantees; everything else is embedded directly);
* `dht/local_index.py` — the `BPlusTree` / `LocalStorage` pair;
* `dht/network.py` — the hop-counting message bus, modelled by threading an
  explicit hop count through every routed call;
* `dht/chord.py` — `ChordNode` / `Chord`;
* `dht/pastry.py` — `PastryNode` / `Pastry`.

Machine integers are `Nat` with explicit `% 2^m`.  Python dictionaries are
association lists in insertion order (`insert-or-overwrite` keeps the original
position, deletion removes the entry, re-insertion appends at the end), which
is exactly CPython's documented behaviour.  Recursions that in Python run over
the message bus (Chord `find_successor` forwarding, Pastry `route`) take an
explicit fuel argument and return `Option`/a result variant so that fuel
exhaustion is distinguishable; theorems prove the fuel bounds sufficient.
-/

namespace DHTLab

/-! ## Identifier space (`dht/common.py`, `ChordNode._in_range`) -/

/-- Embedding of `common.distance_clockwise(start, end, max_val)`:
clockwise distance in the circular identifier space. -/
def distanceClockwise (start endv maxVal : Nat) : Nat :=
  if endv ≥ start then endv - start else maxVal - start + endv

/-- Embedding of `ChordNode._in_range(val, start, end, inclusive_start,
inclusive_end)` from `dht/chord.py`: circular range membership test. -/
def inRange (val start endv : Nat) (incStart incEnd : Bool) : Bool :=
  if start = endv then incStart || incEnd
  else if start < endv then
    if incStart && incEnd then start ≤ val && val ≤ endv
    else if incStart then start ≤ val && val < endv
    else if incEnd then start < val && val ≤ endv
    else start < val && val < endv
  else
    if incStart && incEnd then val ≥ start || val ≤ endv
    else if incStart then val ≥ start || val < endv
    else if incEnd then val > start || val ≤ endv
    else val > start || val < endv

/-- Modelled from the spec: membership of `v` in the arc walked clockwise from
`lo` to `hi` (inclusivity of the two endpoints given by the flags), phrased via
the clockwise distance of `dht/common.py`.  When `lo = hi` the spec prescribes
`incLo ∨ incHi`, independent of `v`. -/
def arcMember (maxVal v lo hi : Nat) (incLo incHi : Bool) : Prop :=
  if lo = hi then incLo ∨ incHi
  else
    (0 < distanceClockwise lo v maxVal ∧
      distanceClockwise lo v maxVal < distanceClockwise lo hi maxVal) ∨
    (incLo = true ∧ distanceClockwise lo v maxVal = 0) ∨
    (incHi = true ∧ distanceClockwise lo v maxVal = distanceClockwise lo hi maxVal)

instance (maxVal v lo hi : Nat) (incLo incHi : Bool) :
    Decidable (arcMember maxVal v lo hi incLo incHi) := by
  unfold arcMember; infer_instance

/-! ## Local Index (`dht/local_index.py`)

Python keys are strings compared with `<` / `==` only, so the key type is kept
abstract as a linear order `K` (Python's lexicographic string order is one
instance).  Values are an arbitrary type `V` with decidable equality.

Python's mutable tree (nodes with `parent` back-pointers, splits that mutate a
leaf into the left half and allocate the right half) is rendered functionally:
an insertion into a subtree returns either the updated subtree or the pair of
subtrees plus the promoted key, which the caller places exactly where
`_insert_in_parent` does (at `_find_insert_position(parent.keys, key)`).
Because splits are the only operation that changes the depth and they keep all
leaves at equal depth (deletion never removes nodes), the tree is indexed by
its height.  The `next_leaf` sibling chain always enumerates the leaves in
left-to-right order (a split links the new right half directly after the old
leaf), so `get_all_keys`' chain walk is rendered as the in-order leaf
traversal. -/

variable {K V : Type}

/-- A B+ tree node of height `h` (`BPlusTreeNode` in `dht/local_index.py`):
a leaf (height 0) holds `(key, value-list)` pairs; an internal node holds
separator keys and children of height `h`. -/
@[reducible] def BTree (K V : Type) : Nat → Type
  | 0 => List (K × List V)
  | h + 1 => List K × List (BTree K V h)

/-- Inhabitant used as the (never hit) default for positional child access. -/
def nilTree (K V : Type) : (h : Nat) → BTree K V h
  | 0 => []
  | h + 1 => ([], [nilTree K V h])

/-- Embedding of `BPlusTree._find_child_index(keys, key)`: index of the first
separator greater than `key`, else `len(keys)`. -/
def findChildIndex [LinearOrder K] (keys : List K) (k : K) : Nat :=
  match keys with
  | [] => 0
  | k0 :: rest => if k < k0 then 0 else findChildIndex rest k + 1

/-- Embedding of `BPlusTree._find_insert_position(keys, key)`; its Python body
is identical to `_find_child_index`. -/
def findInsertPosition [LinearOrder K] (keys : List K) (k : K) : Nat :=
  findChildIndex keys k

/-- Appends `v` to the value list of the first entry with key `k`
(`leaf.values[idx].append(value)` after `idx = leaf.keys.index(key)`). -/
def appendAtKey [DecidableEq K] : List (K × List V) → K → V → List (K × List V)
  | [], _, _ => []
  | e :: rest, k, v =>
    if e.1 = k then (e.1, e.2 ++ [v]) :: rest else e :: appendAtKey rest k v

/-- Replaces the value list of the first entry with key `k`
(`leaf.values[idx] = new_values`). -/
def setValuesAtKey [DecidableEq K] :
    List (K × List V) → K → List V → List (K × List V)
  | [], _, _ => []
  | e :: rest, k, vs =>
    if e.1 = k then (e.1, vs) :: rest else e :: setValuesAtKey rest k vs

/-- Result of inserting into a subtree: the updated subtree, or the two
subtrees and the promoted separator produced by a split. -/
inductive InsRes (K V : Type) (h : Nat) where
  | one (t : BTree K V h)
  | split (l : BTree K V h) (sep : K) (r : BTree K V h)

/-- The B+ tree order used by `LocalStorage` (`BPlusTree(order=4)`). -/
def btOrder : Nat := 4

/-- Embedding of `BPlusTree.insert` (with `_split_leaf`, `_split_internal` and
`_insert_in_parent`): descend via `_find_child_index`, append to an existing
key's value list or insert a fresh `(key, [value])` entry, then split any node
that reaches `order` keys at its midpoint, promoting `keys[mid]`'s first right
key (leaf) resp. `keys[mid]` (internal node). -/
def insertB [LinearOrder K] :
    (h : Nat) → BTree K V h → K → V → InsRes K V h
  | 0, es, k, v =>
    if (es.map Prod.fst).contains k then
      .one (appendAtKey es k v)
    else
      let es' := List.insertIdx (findInsertPosition (es.map Prod.fst) k) (k, [v]) es
      if btOrder ≤ es'.length then
        let mid := es'.length / 2
        let right := es'.drop mid
        .split (es'.take mid) ((right.map Prod.fst).headD k) right
      else .one es'
  | h + 1, t, k, v =>
    let keys := t.1
    let children := t.2
    let i := findChildIndex keys k
    match insertB h (children.getD i (nilTree K V h)) k v with
    | .one c => .one (keys, children.set i c)
    | .split l sep r =>
      let p := findInsertPosition keys sep
      let keys' := List.insertIdx p sep keys
      let children' := List.insertIdx (p + 1) r (children.set i l)
      if btOrder ≤ keys'.length then
        let mid := keys'.length / 2
        let promote := keys'.getD mid sep
        .split (keys'.take mid, children'.take (mid + 1))
          promote
          (keys'.drop (mid + 1), children'.drop (mid + 1))
      else .one (keys', children')

/-- Embedding of `BPlusTree.search` composed with `_find_leaf`: descend, then
return the found leaf entry's value list, or `[]`. -/
def searchB [LinearOrder K] : (h : Nat) → BTree K V h → K → List V
  | 0, es, k =>
    match es.find? (fun e => e.1 = k) with
    | some e => e.2
    | none => []
  | h + 1, t, k =>
    searchB h (t.2.getD (findChildIndex t.1 k) (nilTree K V h)) k

/-- Whether `key in leaf.keys` holds at the leaf found by `_find_leaf`. -/
def containsB [LinearOrder K] : (h : Nat) → BTree K V h → K → Bool
  | 0, es, k => (es.map Prod.fst).contains k
  | h + 1, t, k =>
    containsB h (t.2.getD (findChildIndex t.1 k) (nilTree K V h)) k

/-- Embedding of `BPlusTree.delete(key)` with `value = None`: remove the
entry for `key` (if any) from the leaf found by `_find_leaf`; no rebalancing. -/
def deleteB [LinearOrder K] : (h : Nat) → BTree K V h → K → BTree K V h
  | 0, es, k => es.eraseP (fun e => e.1 = k)
  | h + 1, t, k =>
    let i := findChildIndex t.1 k
    (t.1, t.2.set i (deleteB h (t.2.getD i (nilTree K V h)) k))

/-- In-place value replacement at the leaf found by `_find_leaf` (the
key-present branch of `BPlusTree.update`). -/
def setValuesB [LinearOrder K] :
    (h : Nat) → BTree K V h → K → List V → BTree K V h
  | 0, es, k, vs => setValuesAtKey es k vs
  | h + 1, t, k, vs =>
    let i := findChildIndex t.1 k
    (t.1, t.2.set i (setValuesB h (t.2.getD i (nilTree K V h)) k vs))

/-- In-order concatenation of the leaf entries; by the `next_leaf` chain
discipline this is what `BPlusTree.get_all_keys` walks. -/
def entriesB : (h : Nat) → BTree K V h → List (K × List V)
  | 0, es => es
  | h + 1, t => (t.2.map (entriesB h)).flatten

/-- Embedding of the `BPlusTree` root wrapper: the height together with the
root node. -/
structure BPlusTree (K V : Type) where
  height : Nat
  root : BTree K V height

/-- Fresh tree: a single empty leaf (`BPlusTree.__init__`). -/
def BPlusTree.empty (K V : Type) : BPlusTree K V := ⟨0, ([] : List (K × List V))⟩

/-- Root-level `insert`: grow a new root when the old root splits. -/
def BPlusTree.insert [LinearOrder K] (t : BPlusTree K V) (k : K) (v : V) :
    BPlusTree K V :=
  match insertB t.height t.root k v with
  | .one r => ⟨t.height, r⟩
  | .split l sep r => ⟨t.height + 1, ([sep], [l, r])⟩

/-- Root-level `delete` (whole key). -/
def BPlusTree.del [LinearOrder K] (t : BPlusTree K V) (k : K) : BPlusTree K V :=
  ⟨t.height, deleteB t.height t.root k⟩

/-- Embedding of `BPlusTree.update(key, new_values)`: replace the value list
in place when the found leaf holds `key`, otherwise insert every value of
`new_values` via the ordinary `insert`. -/
def BPlusTree.update [LinearOrder K] (t : BPlusTree K V) (k : K)
    (vs : List V) : BPlusTree K V :=
  if containsB t.height t.root k then ⟨t.height, setValuesB t.height t.root k vs⟩
  else vs.foldl (fun acc v => acc.insert k v) t

/-- Embedding of `BPlusTree.get_all_keys`: all keys, by the leaf chain. -/
def BPlusTree.allKeys (t : BPlusTree K V) : List K :=
  (entriesB t.height t.root).map Prod.fst

/-- Root-level `search`. -/
def BPlusTree.search [LinearOrder K] (t : BPlusTree K V) (k : K) : List V :=
  searchB t.height t.root k

/-! ### The Python dictionary half of `LocalStorage`

`self.data` is a CPython dict: an insertion-ordered association list where
overwriting keeps the original position and deleting removes the entry. -/

/-- Python `data.get(key, [])`. -/
def dictGetD [DecidableEq K] (d : List (K × List V)) (k : K) : List V :=
  match d.find? (fun e => e.1 = k) with
  | some e => e.2
  | none => []

/-- Python `data[key] = vs`: overwrite in place, or append a new entry. -/
def dictSet [DecidableEq K] (d : List (K × List V)) (k : K) (vs : List V) :
    List (K × List V) :=
  if d.any (fun e => e.1 = k) then
    d.map (fun e => if e.1 = k then (k, vs) else e)
  else d ++ [(k, vs)]

/-- Python `if key in data: del data[key]`. -/
def dictDelete [DecidableEq K] (d : List (K × List V)) (k : K) :
    List (K × List V) :=
  d.eraseP (fun e => e.1 = k)

/-- Embedding of `LocalStorage` with `use_btree=True` (the only instantiation
in `chord.py` / `pastry.py`): the dict and the B+ tree side by side. -/
structure LocalStorage (K V : Type) where
  data : List (K × List V)
  btree : BPlusTree K V

/-- `LocalStorage()` with empty dict and fresh tree. -/
def LocalStorage.empty (K V : Type) : LocalStorage K V :=
  ⟨[], BPlusTree.empty K V⟩

/-- `LocalStorage.get`: reads the B+ tree (`use_btree` is true). -/
def LocalStorage.get [LinearOrder K] (s : LocalStorage K V) (k : K) : List V :=
  s.btree.search k

/-- `LocalStorage.put(key, value)`: append to the dict's list (creating it if
absent) and insert into the tree. -/
def LocalStorage.put [LinearOrder K] (s : LocalStorage K V) (k : K) (v : V) :
    LocalStorage K V :=
  ⟨dictSet s.data k (dictGetD s.data k ++ [v]), s.btree.insert k v⟩

/-- `LocalStorage.delete(key)`: drop the key from dict and tree. -/
def LocalStorage.del [LinearOrder K] (s : LocalStorage K V) (k : K) :
    LocalStorage K V :=
  ⟨dictDelete s.data k, s.btree.del k⟩

/-- `LocalStorage.update(key, values)`: overwrite in dict and tree. -/
def LocalStorage.update [LinearOrder K] (s : LocalStorage K V) (k : K)
    (vs : List V) : LocalStorage K V :=
  ⟨dictSet s.data k vs, s.btree.update k vs⟩

/-- `LocalStorage.get_all_keys`: the dict's keys, in insertion order. -/
def LocalStorage.getAllKeys (s : LocalStorage K V) : List K :=
  s.data.map Prod.fst

/-- `LocalStorage.get_all_items`: the dict's items, in insertion order. -/
def LocalStorage.getAllItems (s : LocalStorage K V) : List (K × List V) :=
  s.data

/-! ### Well-formedness of reachable B+ trees

Trees reachable from the empty tree keep their leaf entries globally sorted
and their separator keys consistent with the descent of `_find_child_index`.
`okLo` is inclusive (the promoted key stays in the right half of a split) and
`okHi` exclusive; separator keys sit strictly between the bounds. -/

/-- Inclusive lower bound. -/
def okLo [LinearOrder K] : Option K → K → Prop
  | none, _ => True
  | some l, k => l ≤ k

/-- Strict lower bound (for separator keys). -/
def okLoS [LinearOrder K] : Option K → K → Prop
  | none, _ => True
  | some l, k => l < k

/-- Exclusive upper bound. -/
def okHi [LinearOrder K] : Option K → K → Prop
  | none, _ => True
  | some u, k => k < u

mutual

/-- Well-formedness of a node of height `h` between optional bounds. -/
def wfB [LinearOrder K] : (h : Nat) → Option K → Option K → BTree K V h → Prop
  | 0, lo, hi, es =>
    List.Pairwise (· < ·) (es.map Prod.fst) ∧ ∀ e ∈ es, okLo lo e.1 ∧ okHi hi e.1
  | h + 1, lo, hi, t => wfIn h lo hi t.1 t.2

/-- Well-formedness of the (separator keys, children) lists of an internal
node: one more child than keys, each child well-formed between the adjacent
separators, separators strictly ascending within the bounds. -/
def wfIn [LinearOrder K] (h : Nat) :
    Option K → Option K → List K → List (BTree K V h) → Prop
  | lo, hi, [], cs => ∃ c, cs = [c] ∧ wfB h lo hi c
  | lo, hi, k0 :: ks, cs =>
    ∃ c0 crest, cs = c0 :: crest ∧ okLoS lo k0 ∧ okHi hi k0 ∧
      wfB h lo (some k0) c0 ∧ wfIn h (some k0) hi ks crest

end

/-- Canonical sorted-association insertion, the abstract effect of one
`BPlusTree.insert` on the in-order entry list. -/
def insEntry [LinearOrder K] : List (K × List V) → K → V → List (K × List V)
  | [], k, v => [(k, [v])]
  | e :: rest, k, v =>
    if e.1 = k then (e.1, e.2 ++ [v]) :: rest
    else if k < e.1 then (k, [v]) :: e :: rest
    else e :: insEntry rest k v

/-- Entry list of an insertion result (for a split: left ++ right, which is
how the two halves appear in the parent). -/
def entriesRes : (h : Nat) → InsRes K V h → List (K × List V)
  | h, .one t => entriesB h t
  | h, .split l _ r => entriesB h l ++ entriesB h r

/-- Well-formedness of an insertion result between bounds: a split yields two
nodes well-formed on either side of the promoted key, which lies strictly
inside the bounds. -/
def wfRes [LinearOrder K] (h : Nat) (lo hi : Option K) : InsRes K V h → Prop
  | .one t => wfB h lo hi t
  | .split l sep r =>
    wfB h lo (some sep) l ∧ wfB h (some sep) hi r ∧ okLoS lo sep ∧ okHi hi sep

/-- In-order entry list of a whole tree. -/
def entriesT (t : BPlusTree K V) : List (K × List V) :=
  entriesB t.height t.root

/-- Well-formedness of a whole tree (no outer bounds). -/
def wfT [LinearOrder K] (t : BPlusTree K V) : Prop :=
  wfB t.height none none t.root

/-- One mutating `LocalStorage` operation: `put`, `delete` or `update`. -/
inductive StOp (K V : Type) where
  | put (k : K) (v : V)
  | del (k : K)
  | upd (k : K) (vs : List V)

/-- Apply one operation to a `LocalStorage`. -/
def applyStOp [LinearOrder K] (s : LocalStorage K V) : StOp K V → LocalStorage K V
  | .put k v => s.put k v
  | .del k => s.del k
  | .upd k vs => s.update k vs

/-- Apply a sequence of operations, left to right. -/
def applyStOps [LinearOrder K] (s : LocalStorage K V) (ops : List (StOp K V)) :
    LocalStorage K V :=
  ops.foldl applyStOp s

/-- Invariant tying the two halves of `LocalStorage` together: distinct dict
keys, a well-formed tree, pointwise agreement of the lookups, and every tree
key present among the dict keys. -/
def SInv [LinearOrder K] (s : LocalStorage K V) : Prop :=
  (s.data.map Prod.fst).Nodup ∧ wfT s.btree ∧
  (∀ k, dictGetD (entriesT s.btree) k = dictGetD s.data k) ∧
  (∀ k, k ∈ (entriesT s.btree).map Prod.fst → k ∈ s.data.map Prod.fst)

/-! ## Chord (`dht/chord.py`)

The `NetworkSimulator` registry and the `Chord.nodes` dict always hold the
same node set (a node registers its message handler in its constructor and is
entered into `Chord.nodes` immediately afterwards), so both are modelled by
the single insertion-ordered association list `ChordSt.nodes`.  During
`Chord.join` the freshly constructed node is registered with the network
before it is added to `Chord.nodes`; the model appends it at registration
time, and the two dictionary accesses Python performs on `Chord.nodes` in
that window (`self.nodes[predecessor]`, `self.nodes[successor]`) are guarded
so that they fail exactly when Python's would raise `KeyError`.

`hash_key(key, m) = sha1(key) mod 2^m`: the SHA-1 integer is abstracted as a
function `hashK : K → Nat` and the `mod 2^m` is applied explicitly
(`hashId`).  A Python exception (send to an unregistered peer, arithmetic on
a `None` successor, `KeyError`) is modelled as `none`; message-loop
recursion carries fuel, and the fuel bound is proved sufficient. -/

/-- Python `d[k]` on an insertion-ordered int-keyed dict (`None` on miss). -/
def assocFind {A : Type} (d : List (Nat × A)) (k : Nat) : Option A :=
  (d.find? (fun e => decide (e.1 = k))).map (fun e => e.2)

/-- Python `k in d`. -/
def assocHas {A : Type} (d : List (Nat × A)) (k : Nat) : Bool :=
  d.any (fun e => decide (e.1 = k))

/-- Python `d[k] = v`: overwrite keeps the original position, a new key is
appended at the end. -/
def assocSet {A : Type} (d : List (Nat × A)) (k : Nat) (v : A) :
    List (Nat × A) :=
  if assocHas d k then d.map (fun e => if e.1 = k then (k, v) else e)
  else d ++ [(k, v)]

/-- Python `del d[k]` (guarded by membership at every call site). -/
def assocErase {A : Type} (d : List (Nat × A)) (k : Nat) : List (Nat × A) :=
  d.eraseP (fun e => decide (e.1 = k))

/-- Python `next(iter(d))` / `list(d.keys())[0]`. -/
def firstKey {A : Type} (d : List (Nat × A)) : Nat :=
  (d.map Prod.fst).headD 0

/-- `hash_key(key, m)`. -/
def hashId (hashK : K → Nat) (m : Nat) (key : K) : Nat := hashK key % 2 ^ m

/-- `FingerEntry` of `dht/chord.py`. -/
structure FingerEntry where
  start : Nat
  node : Option Nat
  deriving DecidableEq

/-- State of a `ChordNode`. -/
structure ChordNodeSt (K V : Type) where
  nodeId : Nat
  successor : Option Nat
  predecessor : Option Nat
  fingerTable : List FingerEntry
  storage : LocalStorage K V

/-- `ChordNode.__init__(node_id, m, network)`: no ring pointers yet, finger
starts `(n + 2^k) mod 2^m` with empty nodes, empty storage. -/
def mkChordNode (K V : Type) (nodeId m : Nat) : ChordNodeSt K V :=
  { nodeId := nodeId
    successor := none
    predecessor := none
    fingerTable :=
      (List.range m).map (fun k => ⟨(nodeId + 2 ^ k) % 2 ^ m, none⟩)
    storage := LocalStorage.empty K V }

/-- State of the whole `Chord` object (`m` plus the node registry). -/
structure ChordSt (K V : Type) where
  m : Nat
  nodes : List (Nat × ChordNodeSt K V)

/-- `sorted(self.nodes.keys())`. -/
def sortedIds (st : ChordSt K V) : List Nat :=
  List.insertionSort (· ≤ ·) (st.nodes.map Prod.fst)

/-- `Chord._find_successor_static(target_id, sorted_nodes)`: first id that is
`≥ target_id`, wrapping around to the head of the sorted list. -/
def findSuccessorStatic (targetId : Nat) (sortedNodes : List Nat) : Nat :=
  match sortedNodes.find? (fun nid => decide (targetId ≤ nid)) with
  | some nid => nid
  | none => sortedNodes.headD 0

/-- `sorted_nodes[(i + 1) % n]` for the position `i` of `nid` (used by
`Chord.build` to assign successors). -/
def ringSuccOf (sorted : List Nat) (nid : Nat) : Nat :=
  sorted.getD ((sorted.indexOf nid + 1) % sorted.length) 0

/-- `sorted_nodes[(i - 1) % n]` with Python's nonnegative modulo, i.e.
`(i + n - 1) % n`. -/
def ringPredOf (sorted : List Nat) (nid : Nat) : Nat :=
  sorted.getD ((sorted.indexOf nid + (sorted.length - 1)) % sorted.length) 0

/-- The scan of `ChordNode._closest_preceding_node`: fingers are examined
from index `m-1` down to `0` (here: over the reversed finger list); the first
live finger strictly inside `(node_id, target_id)` wins, else `node_id`. -/
def cpnScan (nodeId targetId : Nat) : List FingerEntry → Nat
  | [] => nodeId
  | f :: rest =>
    match f.node with
    | some fn =>
      if inRange fn nodeId targetId false false then fn
      else cpnScan nodeId targetId rest
    | none => cpnScan nodeId targetId rest

/-- `ChordNode._closest_preceding_node(target_id)`. -/
def closestPrecedingNode (node : ChordNodeSt K V) (targetId : Nat) : Nat :=
  cpnScan node.nodeId targetId node.fingerTable.reverse

/-- `ChordNode._find_successor_handler(target_id)`, fuelled.  Returns
`some (result, hops)` where `hops` counts the hop-counted sends issued while
serving the request (the forward to `closest` counts one hop each time);
`none` models a Python exception (`None` successor compared with an int,
forward to an unregistered peer) or fuel exhaustion. -/
def findSuccessorHandler (st : ChordSt K V) :
    Nat → ChordNodeSt K V → Nat → Option (Nat × Nat)
  | 0, _, _ => none
  | fuel + 1, node, targetId =>
    match node.successor with
    | none => none
    | some succ =>
      if inRange targetId node.nodeId succ false true then some (succ, 0)
      else
        let closest := closestPrecedingNode node targetId
        if closest = node.nodeId then some (succ, 0)
        else
          match assocFind st.nodes closest with
          | none => none
          | some nextNode =>
            match findSuccessorHandler st fuel nextNode targetId with
            | none => none
            | some (res, h) => some (res, h + 1)

/-- The chain of forward destinations taken by the handler (same recursion as
`findSuccessorHandler`, recording the peers the request is forwarded to). -/
def chordRoutePath (st : ChordSt K V) :
    Nat → ChordNodeSt K V → Nat → Option (List Nat)
  | 0, _, _ => none
  | fuel + 1, node, targetId =>
    match node.successor with
    | none => none
    | some succ =>
      if inRange targetId node.nodeId succ false true then some []
      else
        let closest := closestPrecedingNode node targetId
        if closest = node.nodeId then some []
        else
          match assocFind st.nodes closest with
          | none => none
          | some nextNode =>
            match chordRoutePath st fuel nextNode targetId with
            | none => none
            | some p => some (closest :: p)

/-- `Chord._find_successor(target_id, source_node)`: the request is delivered
to the source peer itself by a hop-counted send (`NetworkSimulator.send`
checks the registry, then counts the hop, then runs the handler), so the
total is one more than the handler's own count. -/
def chordFindSuccessor (st : ChordSt K V) (fuel srcId targetId : Nat) :
    Option (Nat × Nat) :=
  match assocFind st.nodes srcId with
  | none => none
  | some node =>
    match findSuccessorHandler st fuel node targetId with
    | none => none
    | some (res, h) => some (res, h + 1)

/-- Fuel that the termination theorems prove sufficient for any lookup: the
clockwise distance to the target strictly decreases at every forward, so
`2^m` handler activations always suffice. -/
def chordFuel (st : ChordSt K V) : Nat := 2 ^ st.m + 1

/-- `Chord.lookup(key, source_node)`: route to the responsible peer (counting
hops), then fetch its stored list with an uncounted `lookup` message.  An
empty registry short-circuits to `(None, 0)`. -/
def chordLookup [LinearOrder K] (hashK : K → Nat) (st : ChordSt K V)
    (key : K) (srcOpt : Option Nat) : Option (Option (List V) × Nat) :=
  if st.nodes.isEmpty then some (none, 0)
  else
    let src := srcOpt.getD (firstKey st.nodes)
    match chordFindSuccessor st (chordFuel st) src (hashId hashK st.m key) with
    | none => none
    | some (owner, hops) =>
      match assocFind st.nodes owner with
      | none => none
      | some onode => some (some (onode.storage.get key), hops)

/-- `Chord.insert(key, value, source_node)`: route, then store at the
responsible peer with an uncounted `insert` message; returns the hop count. -/
def chordInsert [LinearOrder K] (hashK : K → Nat) (st : ChordSt K V)
    (key : K) (v : V) (srcOpt : Option Nat) : Option (ChordSt K V × Nat) :=
  if st.nodes.isEmpty then some (st, 0)
  else
    let src := srcOpt.getD (firstKey st.nodes)
    match chordFindSuccessor st (chordFuel st) src (hashId hashK st.m key) with
    | none => none
    | some (owner, hops) =>
      match assocFind st.nodes owner with
      | none => none
      | some onode =>
        let onode' := { onode with storage := onode.storage.put key v }
        some ({ st with nodes := assocSet st.nodes owner onode' }, hops)

/-- `Chord.delete(key, source_node)`. -/
def chordDelete [LinearOrder K] (hashK : K → Nat) (st : ChordSt K V)
    (key : K) (srcOpt : Option Nat) : Option (ChordSt K V × Nat) :=
  if st.nodes.isEmpty then some (st, 0)
  else
    let src := srcOpt.getD (firstKey st.nodes)
    match chordFindSuccessor st (chordFuel st) src (hashId hashK st.m key) with
    | none => none
    | some (owner, hops) =>
      match assocFind st.nodes owner with
      | none => none
      | some onode =>
        let onode' := { onode with storage := onode.storage.del key }
        some ({ st with nodes := assocSet st.nodes owner onode' }, hops)

/-- `Chord.update(key, value, source_node)` (the harness passes a list as the
new value, which `LocalStorage.update` stores verbatim). -/
def chordUpdate [LinearOrder K] (hashK : K → Nat) (st : ChordSt K V)
    (key : K) (vs : List V) (srcOpt : Option Nat) :
    Option (ChordSt K V × Nat) :=
  if st.nodes.isEmpty then some (st, 0)
  else
    let src := srcOpt.getD (firstKey st.nodes)
    match chordFindSuccessor st (chordFuel st) src (hashId hashK st.m key) with
    | none => none
    | some (owner, hops) =>
      match assocFind st.nodes owner with
      | none => none
      | some onode =>
        let onode' := { onode with storage := onode.storage.update key vs }
        some ({ st with nodes := assocSet st.nodes owner onode' }, hops)

/-- `ChordNode._transfer_keys(start, end)`: collect the stored items whose
hashed key lies in the arc `(start, end]` (values read before any deletion),
then delete those keys; returns the items and the remaining storage. -/
def transferKeys [LinearOrder K] (hashK : K → Nat) (m : Nat)
    (storage : LocalStorage K V) (start endv : Nat) :
    List (K × List V) × LocalStorage K V :=
  let moveKeys := storage.getAllKeys.filter
    (fun key => inRange (hashId hashK m key) start endv false true)
  (moveKeys.map (fun key => (key, storage.get key)),
   moveKeys.foldl (fun s key => s.del key) storage)

/-- `for key, values in items: for value in values: storage.put(key, value)`. -/
def storePutItems [LinearOrder K] (s : LocalStorage K V)
    (items : List (K × List V)) : LocalStorage K V :=
  items.foldl (fun acc kv => kv.2.foldl (fun a v => a.put kv.1 v) acc) s

/-- The per-node body of `Chord._rebuild_fingers` (also the finger loop of
`Chord.build`, which is textually identical): every finger keeps its start
and gets `_find_successor_static(start, sorted_nodes)` as its node. -/
def setFingersTo (sorted : List Nat)
    (nodes : List (Nat × ChordNodeSt K V)) : List (Nat × ChordNodeSt K V) :=
  nodes.map (fun e =>
    let ft := e.2.fingerTable.map
      (fun f => ⟨f.start, some (findSuccessorStatic f.start sorted)⟩)
    (e.1, { e.2 with fingerTable := ft }))

/-- `Chord._rebuild_fingers()`. -/
def rebuildFingers (st : ChordSt K V) : ChordSt K V :=
  { st with nodes := setFingersTo (sortedIds st) st.nodes }

/-- The successor/predecessor assignment loop of `Chord.build` (every
registry key occurs exactly once in the sorted list, so the per-index loop is
a per-node update). -/
def setRingPointersTo (sorted : List Nat)
    (nodes : List (Nat × ChordNodeSt K V)) : List (Nat × ChordNodeSt K V) :=
  nodes.map (fun e => (e.1, { e.2 with
    successor := some (ringSuccOf sorted e.1)
    predecessor := some (ringPredOf sorted e.1) }))

/-- The node-creation loop of `Chord.build`: ids normalised mod `2^m`, a
duplicate replaces the node object but keeps the dict position. -/
def chordBuildNodes (K V : Type) (m : Nat) (ids : List Nat) :
    List (Nat × ChordNodeSt K V) :=
  ids.foldl
    (fun acc nid => assocSet acc (nid % 2 ^ m) (mkChordNode K V (nid % 2 ^ m) m))
    []

/-- `Chord.build(node_ids, items)`: create the nodes, wire successors and
predecessors from the sorted id list, build every finger table, then insert
the initial items through the normal client path.  An empty id list raises
`ValueError`. -/
def chordBuild [LinearOrder K] (hashK : K → Nat) (m : Nat) (ids : List Nat)
    (items : List (K × V)) : Option (ChordSt K V) :=
  if ids.isEmpty then none
  else
    let nodes0 := chordBuildNodes K V m ids
    let st0 : ChordSt K V := ⟨m, nodes0⟩
    let st1 : ChordSt K V := ⟨m, setRingPointersTo (sortedIds st0) nodes0⟩
    items.foldlM
      (fun s kv => (chordInsert hashK s kv.1 kv.2 none).map Prod.fst)
      (rebuildFingers st1)

/-- `Chord.join(new_node_id)`.  The new node is registered (appended) before
routing; the guard `predId = newId ∨ succId = newId` reproduces the
`KeyError` Python raises if `self.nodes[predecessor]` / `self.nodes[successor]`
were the not-yet-inserted id. -/
def chordJoin [LinearOrder K] (hashK : K → Nat) (st : ChordSt K V)
    (newId0 : Nat) : Option (ChordSt K V × Nat) :=
  let newId := newId0 % 2 ^ st.m
  if assocHas st.nodes newId then some (st, 0)
  else
    let newNode := mkChordNode K V newId st.m
    if st.nodes.isEmpty then
      let firstNode := { newNode with successor := some newId, predecessor := some newId }
      some ({ st with nodes := [(newId, firstNode)] }, 0)
    else
      let arb := firstKey st.nodes
      let stReg : ChordSt K V := { st with nodes := st.nodes ++ [(newId, newNode)] }
      match chordFindSuccessor stReg (chordFuel stReg) arb newId with
      | none => none
      | some (succId, hops) =>
        match assocFind stReg.nodes succId with
        | none => none
        | some succNode =>
          match succNode.predecessor with
          | none => none
          | some predId =>
            if predId = newId ∨ succId = newId then none
            else
              let n1 := assocSet stReg.nodes newId
                { newNode with successor := some succId, predecessor := some predId }
              match assocFind n1 predId with
              | none => none
              | some predN =>
                let n2 := assocSet n1 predId { predN with successor := some newId }
                match assocFind n2 succId with
                | none => none
                | some succN2 =>
                  let n3 := assocSet n2 succId { succN2 with predecessor := some newId }
                  let st3 := rebuildFingers { st with nodes := n3 }
                  match assocFind st3.nodes succId with
                  | none => none
                  | some succN3 =>
                    let moved := transferKeys hashK st3.m succN3.storage predId newId
                    let succN4 := { succN3 with storage := moved.2 }
                    let st4 : ChordSt K V :=
                      { st3 with nodes := assocSet st3.nodes succId succN4 }
                    match assocFind st4.nodes newId with
                    | none => none
                    | some newN4 =>
                      let newN5 :=
                        { newN4 with storage := storePutItems newN4.storage moved.1 }
                      some ({ st4 with nodes := assocSet st4.nodes newId newN5 },
                        hops)

/-- `Chord.leave(node_id, graceful)`: move the departing peer's items to its
successor (possibly itself), splice the neighbours' pointers using the
departing node's own pointers, remove the node, and rebuild fingers if any
peer remains.  No hop-counted send is issued. -/
def chordLeave [LinearOrder K] (st : ChordSt K V) (nid0 : Nat)
    (graceful : Bool) : Option (ChordSt K V × Nat) :=
  let nid := nid0 % 2 ^ st.m
  match assocFind st.nodes nid with
  | none => some (st, 0)
  | some node =>
    let afterMove : Option (List (Nat × ChordNodeSt K V)) :=
      if graceful then
        match node.successor with
        | none => none
        | some succId =>
          match assocFind st.nodes succId with
          | none => none
          | some succNode =>
            some (assocSet st.nodes succId { succNode with
              storage := storePutItems succNode.storage node.storage.getAllItems })
      else some st.nodes
    match afterMove with
    | none => none
    | some ns1 =>
      let ns2 := match node.predecessor with
        | some p =>
          match assocFind ns1 p with
          | some pN => assocSet ns1 p { pN with successor := node.successor }
          | none => ns1
        | none => ns1
      let ns3 := match node.successor with
        | some s2 =>
          match assocFind ns2 s2 with
          | some sN => assocSet ns2 s2 { sN with predecessor := node.predecessor }
          | none => ns2
        | none => ns2
      let ns4 := assocErase ns3 nid
      some (if ns4.isEmpty then (⟨st.m, ns4⟩, 0)
            else (rebuildFingers ⟨st.m, ns4⟩, 0))

/-- One churn operation on a Chord ring. -/
inductive ChordOp where
  | join (nid : Nat)
  | leave (nid : Nat) (graceful : Bool)

/-- Apply one churn operation (dropping the returned hop count). -/
def chordApplyOp [LinearOrder K] (hashK : K → Nat) (st : ChordSt K V) :
    ChordOp → Option (ChordSt K V)
  | ChordOp.join nid => (chordJoin hashK st nid).map Prod.fst
  | ChordOp.leave nid g => (chordLeave st nid g).map Prod.fst

/-- Apply a sequence of churn operations, left to right. -/
def chordApplyOps [LinearOrder K] (hashK : K → Nat) (st : ChordSt K V) :
    List ChordOp → Option (ChordSt K V)
  | [] => some st
  | op :: rest =>
    match chordApplyOp hashK st op with
    | none => none
    | some st' => chordApplyOps hashK st' rest

/-- Decides that every `join` in the sequence is performed while at least one
peer is live (the side condition of the amended finger-invariant claim). -/
def joinsOnNonemptyB [LinearOrder K] (hashK : K → Nat) (st : ChordSt K V) :
    List ChordOp → Bool
  | [] => true
  | op :: rest =>
    (match op with
     | ChordOp.join _ => !st.nodes.isEmpty
     | ChordOp.leave _ _ => true) &&
    (match chordApplyOp hashK st op with
     | some st' => joinsOnNonemptyB hashK st' rest
     | none => true)

/-- Modelled from the spec: the successor of `t` in a live id set — the
smallest live id `≥ t`, wrapping around to the smallest live id overall. -/
def succInSorted (t : Nat) (ids : List Nat) : Nat :=
  match (ids.filter (fun nid => decide (t ≤ nid))).min? with
  | some y => y
  | none =>
    match ids.min? with
    | some y => y
    | none => 0

/-- Modelled from the spec (claim C5): every live peer's finger `i` has start
`(n + 2^i) mod 2^m` and node the successor of that start in the live id
set. -/
def fingerInvariant (st : ChordSt K V) : Prop :=
  ∀ p ∈ st.nodes, ∀ i < st.m,
    (p.2.fingerTable.getD i ⟨0, none⟩).start = (p.1 + 2 ^ i) % 2 ^ st.m ∧
    (p.2.fingerTable.getD i ⟨0, none⟩).node =
      some (succInSorted ((p.1 + 2 ^ i) % 2 ^ st.m) (st.nodes.map Prod.fst))

instance (st : ChordSt K V) : Decidable (fingerInvariant st) := by
  unfold fingerInvariant; infer_instance

/-- The peer a Chord routing request from `src` for target `t` resolves to on
a consistent ring: the static successor of `t`, except that a request whose
target equals the source id itself is answered with the source's ring
successor (the refuted corner of the ownership claim). -/
def chordOwnerOf (sorted : List Nat) (src t : Nat) : Nat :=
  if t = src then ringSuccOf sorted src else findSuccessorStatic t sorted

/-- The peer that owns `key` for client operations with the default source
(the first created peer), per `chordOwnerOf`. -/
def chordKeyOwner [LinearOrder K] (hashK : K → Nat) (st : ChordSt K V)
    (key : K) : Nat :=
  chordOwnerOf (sortedIds st) (firstKey st.nodes) (hashId hashK st.m key)

/-- The finger table `_rebuild_fingers` produces for node `n`. -/
def chordFingers (m n : Nat) (sorted : List Nat) : List FingerEntry :=
  (List.range m).map
    (fun k => ⟨(n + 2 ^ k) % 2 ^ m,
               some (findSuccessorStatic ((n + 2 ^ k) % 2 ^ m) sorted)⟩)

/-- Clockwise distance with the full loop for the node itself (the order in
which `ring_succ` ranks candidates). -/
def dPos (M n y : Nat) : Nat := if y = n then M else distanceClockwise n y M

/-- Every node's finger starts are the constructor's `(n + 2^k) mod 2^m`
(finger node values unconstrained). -/
def startsOk (st : ChordSt K V) : Prop :=
  ∀ p ∈ st.nodes,
    p.2.fingerTable.map FingerEntry.start =
      (List.range st.m).map (fun k => (p.1 + 2 ^ k) % 2 ^ st.m)

/-- Fingers of every node are exactly what `_rebuild_fingers` yields for the
current registry. -/
def fingersRebuilt (st : ChordSt K V) : Prop :=
  ∀ p ∈ st.nodes, p.2.fingerTable = chordFingers st.m p.1 (sortedIds st)

/-- Consistency of a built Chord ring: a nonempty duplicate-free registry of
in-range ids, every node keyed by its own id, successors assigned from the
sorted ring, fingers as rebuilt, and internally consistent storage. -/
def RC [LinearOrder K] (st : ChordSt K V) : Prop :=
  st.nodes ≠ [] ∧
  (st.nodes.map Prod.fst).Nodup ∧
  (∀ i ∈ st.nodes.map Prod.fst, i < 2 ^ st.m) ∧
  ∀ p ∈ st.nodes,
    p.2.nodeId = p.1 ∧
    p.2.successor = some (ringSuccOf (sortedIds st) p.1) ∧
    p.2.fingerTable = chordFingers st.m p.1 (sortedIds st) ∧
    SInv p.2.storage

/-! ## Pastry (`dht/pastry.py`)

As for Chord, the network registry and `Pastry.nodes` always hold the same
node set and are modelled by one association list.  `build` iterates over a
CPython `set` of normalised small-integer ids; for small ints CPython's set
iteration is ascending, which the model renders as the sorted deduplicated
id list.  The `visited` set carried by `_route` is used only through
membership tests, so it is modelled as a list of ids. -/

/-- State of a `PastryNode`. -/
structure PastryNodeSt (K V : Type) where
  nodeId : Nat
  leafSmaller : List Nat
  leafLarger : List Nat
  routingTable : List (List (Option Nat))
  storage : LocalStorage K V

/-- State of the whole `Pastry` object. -/
structure PastrySt (K V : Type) where
  m : Nat
  b : Nat
  nodes : List (Nat × PastryNodeSt K V)

/-- `num_digits = (m + b - 1) // b`. -/
def numDigitsOf (m b : Nat) : Nat := (m + b - 1) / b

/-- `Pastry._to_digits(node_id)`: base-`2^b` digits, most significant first;
when `b` does not divide `m` the last digit is masked to the remaining bits
(Python's negative-shift branch). -/
def toDigits (m b nid : Nat) : List Nat :=
  (List.range (numDigitsOf m b)).map (fun i =>
    if m < (i + 1) * b then
      if 0 < m - i * b then nid % 2 ^ (m - i * b) else 0
    else (nid / 2 ^ (m - (i + 1) * b)) % 2 ^ b)

/-- The zip-and-count loop of `Pastry._shared_prefix_length`. -/
def sharedLen : List Nat → List Nat → Nat
  | a :: as, c :: cs => if a = c then sharedLen as cs + 1 else 0
  | _, _ => 0

/-- `Pastry._shared_prefix_length(id1, id2)`. -/
def sharedPrefixLen (m b id1 id2 : Nat) : Nat :=
  sharedLen (toDigits m b id1) (toDigits m b id2)

/-- `Pastry._get_digit(node_id, position)` (`0` past the end). -/
def getDigit (m b nid pos : Nat) : Nat :=
  (toDigits m b nid).getD pos 0

/-- `Pastry._circular_distance(a, b) = min(|a-b|, max_id - |a-b|)`. -/
def circularDistance (M a c : Nat) : Nat :=
  min (max a c - min a c) (M - (max a c - min a c))

/-- `Pastry._circular_between(x, lo, hi)`. -/
def circularBetween (x lo hi : Nat) : Bool :=
  if lo ≤ hi then lo ≤ x && x ≤ hi else x ≥ lo || x ≤ hi

/-- `Pastry._find_closest_in(key, candidates)`: Python `min` with key
`(circular_distance, id)` — the fold replaces the best only on a strictly
smaller key, keeping the earliest minimum like `min` does. -/
def findClosestIn (M key : Nat) : List Nat → Option Nat
  | [] => none
  | c :: cs => some (cs.foldl (fun best n =>
      if circularDistance M key n < circularDistance M key best ∨
         (circularDistance M key n = circularDistance M key best ∧ n < best)
      then n else best) c)

/-- `PastryNode.leaf_set = leaf_smaller + leaf_larger`. -/
def leafSet (node : PastryNodeSt K V) : List Nat :=
  node.leafSmaller ++ node.leafLarger

/-- `Pastry._leaf_set_min`: `leaf_smaller[-1]`, else the node itself. -/
def leafSetMin (node : PastryNodeSt K V) : Nat :=
  node.leafSmaller.getLast?.getD node.nodeId

/-- `Pastry._leaf_set_max`: `leaf_larger[-1]`, else the node itself. -/
def leafSetMax (node : PastryNodeSt K V) : Nat :=
  node.leafLarger.getLast?.getD node.nodeId

/-- `Pastry._is_in_leaf_set_range(node, key)`. -/
def isInLeafSetRange (node : PastryNodeSt K V) (key : Nat) : Bool :=
  if node.leafSmaller.isEmpty && node.leafLarger.isEmpty then true
  else circularBetween key (leafSetMin node) (leafSetMax node)

/-- `L/2` (`Pastry.LEAF_HALF`). -/
def leafHalf : Nat := 4

/-- `Pastry._add_to_leaf_set(node, other_id)`: pick the half by comparing the
clockwise and counter-clockwise distances, insert keeping the half sorted by
distance from the node, and drop the farthest entry beyond `LEAF_HALF`
(distinct ids have distinct distances within a half, so the stable
append-and-sort is an ordered insert). -/
def addToLeafSet (M : Nat) (node : PastryNodeSt K V) (otherId : Nat) :
    PastryNodeSt K V :=
  if otherId = node.nodeId then node
  else
    let cw := (otherId + M - node.nodeId) % M
    let ccw := (node.nodeId + M - otherId) % M
    if cw ≤ ccw then
      if otherId ∈ node.leafLarger then node
      else
        let ll := List.insertionSort
          (fun x y => (x + M - node.nodeId) % M ≤ (y + M - node.nodeId) % M)
          (node.leafLarger ++ [otherId])
        { node with leafLarger := if leafHalf < ll.length then ll.dropLast else ll }
    else
      if otherId ∈ node.leafSmaller then node
      else
        let ls := List.insertionSort
          (fun x y => (node.nodeId + M - x) % M ≤ (node.nodeId + M - y) % M)
          (node.leafSmaller ++ [otherId])
      { node with leafSmaller := if leafHalf < ls.length then ls.dropLast else ls }

/-- `Pastry._build_leaf_set(node, all_nodes)`. -/
def buildLeafSet (M : Nat) (node : PastryNodeSt K V) (allNodes : List Nat) :
    PastryNodeSt K V :=
  allNodes.foldl
    (fun nd nid => if nid ≠ nd.nodeId then addToLeafSet M nd nid else nd)
    { node with leafSmaller := [], leafLarger := [] }

/-- Cell read `routing_table[row][col]`. -/
def rtGet (rt : List (List (Option Nat))) (row col : Nat) : Option Nat :=
  (rt.getD row []).getD col none

/-- Cell write `routing_table[row][col] = v`. -/
def rtSet (rt : List (List (Option Nat))) (row col : Nat) (v : Option Nat) :
    List (List (Option Nat)) :=
  rt.set row ((rt.getD row []).set col v)

/-- The all-`None` routing table of `PastryNode.__init__`. -/
def emptyRT (m b : Nat) : List (List (Option Nat)) :=
  List.replicate (numDigitsOf m b) (List.replicate (2 ^ b) none)

/-- `Pastry._add_to_routing_table(node, other_id)`: first-comer keeps the
cell. -/
def addToRoutingTable (m b : Nat) (node : PastryNodeSt K V) (otherId : Nat) :
    PastryNodeSt K V :=
  if otherId = node.nodeId then node
  else
    let spl := sharedPrefixLen m b node.nodeId otherId
    if numDigitsOf m b ≤ spl then node
    else
      let col := getDigit m b otherId spl
      if rtGet node.routingTable spl col = none then
        { node with routingTable := rtSet node.routingTable spl col (some otherId) }
      else node

/-- `Pastry._build_routing_table(node, all_nodes)`. -/
def buildRoutingTable (m b : Nat) (node : PastryNodeSt K V)
    (allNodes : List Nat) : PastryNodeSt K V :=
  allNodes.foldl (fun nd nid => addToRoutingTable m b nd nid)
    { node with routingTable := emptyRT m b }

/-- `PastryNode.__init__(node_id, m, b)`. -/
def mkPastryNode (K V : Type) (nodeId m b : Nat) : PastryNodeSt K V :=
  ⟨nodeId, [], [], emptyRT m b, LocalStorage.empty K V⟩

/-- Result of a fuelled `_route`: the owner plus the number of hop-counted
forwards, or a crash (forward to an unregistered peer — `send` raises before
counting). -/
inductive RouteRes where
  | ok (owner forwards : Nat)
  | crashed (forwards : Nat)
  deriving DecidableEq

/-- Forward count of a route result. -/
def RouteRes.forwards : RouteRes → Nat
  | RouteRes.ok _ f => f
  | RouteRes.crashed f => f

/-- The candidate stream of `_rare_case_routing`'s `iterate_known_nodes`:
the leaf set, then every populated routing-table cell row by row. -/
def rareCandidates (node : PastryNodeSt K V) : List Nat :=
  leafSet node ++ (node.routingTable.map (fun row => row.filterMap id)).flatten

/-- The best-candidate fold of `_rare_case_routing`: strictly longer shared
prefix wins, an equal prefix needs strictly smaller circular distance. -/
def rareBest (M m b key selfId : Nat) (visited : List Nat)
    (cands : List Nat) (startSpl startDist : Nat) : Option Nat :=
  (cands.foldl (fun acc c =>
    if c = selfId ∨ c ∈ visited then acc
    else
      let cs := sharedPrefixLen m b c key
      let cd := circularDistance M c key
      if acc.2.1 < cs then (some c, cs, cd)
      else if cs = acc.2.1 ∧ cd < acc.2.2 then (some c, acc.2.1, cd)
      else acc)
    ((none : Option Nat), startSpl, startDist)).1

/-- `Pastry._route(node, key, visited)`, fuelled.  A visited node returns
itself; otherwise the leaf-set phase answers directly, the routing-table
phase forwards on a matching unvisited entry, and the rare case forwards to
the best candidate — guarded by Python's truthiness test `if best_node:`,
under which the node id `0` falls through to returning the current node.
Forwards resolve the registry first (a miss is `RouteRes.crashed`), then
count one hop. -/
def pastryRoute (st : PastrySt K V) :
    Nat → PastryNodeSt K V → Nat → List Nat → Option RouteRes
  | 0, _, _, _ => none
  | fuel + 1, node, key, visited =>
    if node.nodeId ∈ visited then some (RouteRes.ok node.nodeId 0)
    else
      let visited' := node.nodeId :: visited
      let fwd : Nat → Option RouteRes := fun nextHop =>
        match assocFind st.nodes nextHop with
        | none => some (RouteRes.crashed 0)
        | some nx =>
          match pastryRoute st fuel nx key visited' with
          | none => none
          | some (RouteRes.ok o f) => some (RouteRes.ok o (f + 1))
          | some (RouteRes.crashed f) => some (RouteRes.crashed (f + 1))
      if isInLeafSetRange node key then
        match findClosestIn (2 ^ st.m) key (leafSet node ++ [node.nodeId]) with
        | some c => some (RouteRes.ok c 0)
        | none => some (RouteRes.ok node.nodeId 0)
      else
        let spl := sharedPrefixLen st.m st.b node.nodeId key
        let rtHop : Option Nat :=
          if spl < numDigitsOf st.m st.b then
            match rtGet node.routingTable spl (getDigit st.m st.b key spl) with
            | some entry =>
              if entry ≠ node.nodeId ∧ entry ∉ visited' then some entry else none
            | none => none
          else none
        match rtHop with
        | some entry => fwd entry
        | none =>
          match rareBest (2 ^ st.m) st.m st.b key node.nodeId visited'
              (rareCandidates node) spl
              (circularDistance (2 ^ st.m) node.nodeId key) with
          | some bn =>
            if bn ≠ 0 then fwd bn else some (RouteRes.ok node.nodeId 0)
          | none => some (RouteRes.ok node.nodeId 0)

/-- The chain of forward destinations of `pastryRoute` (same recursion,
recording forwards; `none` on crash or fuel exhaustion). -/
def pastryRoutePath (st : PastrySt K V) :
    Nat → PastryNodeSt K V → Nat → List Nat → Option (List Nat)
  | 0, _, _, _ => none
  | fuel + 1, node, key, visited =>
    if node.nodeId ∈ visited then some []
    else
      let visited' := node.nodeId :: visited
      let fwd : Nat → Option (List Nat) := fun nextHop =>
        match assocFind st.nodes nextHop with
        | none => none
        | some nx =>
          match pastryRoutePath st fuel nx key visited' with
          | none => none
          | some p => some (nextHop :: p)
      if isInLeafSetRange node key then some []
      else
        let spl := sharedPrefixLen st.m st.b node.nodeId key
        let rtHop : Option Nat :=
          if spl < numDigitsOf st.m st.b then
            match rtGet node.routingTable spl (getDigit st.m st.b key spl) with
            | some entry =>
              if entry ≠ node.nodeId ∧ entry ∉ visited' then some entry else none
            | none => none
          else none
        match rtHop with
        | some entry => fwd entry
        | none =>
          match rareBest (2 ^ st.m) st.m st.b key node.nodeId visited'
              (rareCandidates node) spl
              (circularDistance (2 ^ st.m) node.nodeId key) with
          | some bn => if bn ≠ 0 then fwd bn else some []
          | none => some []

/-- Fuel the termination theorem proves sufficient: one more than the number
of registered peers. -/
def pastryFuel (st : PastrySt K V) : Nat := st.nodes.length + 1

/-- The routing part shared by `Pastry._dht_op`: resolve the source (default
`next(iter(self.nodes))`), route from it, resolve the owner.  Returns owner
id, hop count and owner node; `none` models both the `None` early return on
an empty registry and a raised exception. -/
def pastryOpCore [LinearOrder K] (hashK : K → Nat) (st : PastrySt K V)
    (key : K) (srcOpt : Option Nat) : Option (Nat × Nat × PastryNodeSt K V) :=
  if st.nodes.isEmpty then none
  else
    let src := srcOpt.getD (firstKey st.nodes)
    match assocFind st.nodes src with
    | none => none
    | some node =>
      match pastryRoute st (pastryFuel st) node (hashId hashK st.m key) [] with
      | some (RouteRes.ok owner hops) =>
        match assocFind st.nodes owner with
        | none => none
        | some onode => some (owner, hops, onode)
      | _ => none

/-- `Pastry.lookup(key, source_node)`: `(values, hops)`; the terminal
`lookup` message is not hop-counted. -/
def pastryLookup [LinearOrder K] (hashK : K → Nat) (st : PastrySt K V)
    (key : K) (srcOpt : Option Nat) : Option (List V × Nat) :=
  (pastryOpCore hashK st key srcOpt).map
    (fun r => (r.2.2.storage.get key, r.2.1))

/-- `Pastry.insert(key, value, source_node)`. -/
def pastryInsert [LinearOrder K] (hashK : K → Nat) (st : PastrySt K V)
    (key : K) (v : V) (srcOpt : Option Nat) : Option (PastrySt K V × Nat) :=
  match pastryOpCore hashK st key srcOpt with
  | none => none
  | some (owner, hops, onode) =>
    let onode' := { onode with storage := onode.storage.put key v }
    some ({ st with nodes := assocSet st.nodes owner onode' }, hops)

/-- `Pastry.delete(key, source_node)`. -/
def pastryDelete [LinearOrder K] (hashK : K → Nat) (st : PastrySt K V)
    (key : K) (srcOpt : Option Nat) : Option (PastrySt K V × Nat) :=
  match pastryOpCore hashK st key srcOpt with
  | none => none
  | some (owner, hops, onode) =>
    let onode' := { onode with storage := onode.storage.del key }
    some ({ st with nodes := assocSet st.nodes owner onode' }, hops)

/-- `Pastry.update(key, value, source_node)`. -/
def pastryUpdate [LinearOrder K] (hashK : K → Nat) (st : PastrySt K V)
    (key : K) (vs : List V) (srcOpt : Option Nat) :
    Option (PastrySt K V × Nat) :=
  match pastryOpCore hashK st key srcOpt with
  | none => none
  | some (owner, hops, onode) =>
    let onode' := { onode with storage := onode.storage.update key vs }
    some ({ st with nodes := assocSet st.nodes owner onode' }, hops)

/-- `Pastry.build(node_ids, items)`: normalise the ids into a set (ascending
for CPython small ints), create and register the nodes, build every leaf set
and routing table from full knowledge, then insert the items through the
client path. -/
def pastryBuild [LinearOrder K] (hashK : K → Nat) (m b : Nat)
    (ids : List Nat) (items : List (K × V)) : Option (PastrySt K V) :=
  if ids.isEmpty then none
  else
    let normSet := List.insertionSort (· ≤ ·) ((ids.map (· % 2 ^ m)).dedup)
    let nodes1 := normSet.map (fun nid =>
      (nid, buildRoutingTable m b
        (buildLeafSet (2 ^ m) (mkPastryNode K V nid m b) normSet) normSet))
    items.foldlM
      (fun s kv => (pastryInsert hashK s kv.1 kv.2 none).map Prod.fst)
      ⟨m, b, nodes1⟩

/-- Remove a departed id from one node's leaf halves (first occurrence, as
`list.remove`) and blank every routing cell holding it. -/
def scrubNode (gone : Nat) (node : PastryNodeSt K V) : PastryNodeSt K V :=
  { node with
    leafSmaller := node.leafSmaller.erase gone
    leafLarger := node.leafLarger.erase gone
    routingTable := node.routingTable.map (fun row =>
      row.map (fun c => if c = some gone then none else c)) }

/-- The best-recipient fold of `Pastry.leave` for one key: smallest circular
distance wins, ties to the lower id. -/
def leaveBest (M keyId nid : Nat) (nodeKeys : List Nat) (cands : List Nat) :
    Option Nat × Nat :=
  cands.foldl (fun acc c =>
    if c ∈ nodeKeys ∧ c ≠ nid then
      let d := circularDistance M keyId c
      if d < acc.2 ∨ (d = acc.2 ∧
          (match acc.1 with | none => true | some bv => decide (c < bv)) = true)
      then (some c, d)
      else acc
    else acc) ((none : Option Nat), M)

/-- `Pastry.leave(node_id, graceful)`: per stored key, hand the values to the
closest live leaf-set neighbour — Python's `if best_node and best_node in
self.nodes:` drops the hand-off when the recipient id is `0` — then remove
the node and scrub it from every survivor.  No hop-counted send occurs. -/
def pastryLeave [LinearOrder K] (hashK : K → Nat) (st : PastrySt K V)
    (nid0 : Nat) (graceful : Bool) : Option (PastrySt K V × Nat) :=
  let nid := nid0 % 2 ^ st.m
  match assocFind st.nodes nid with
  | none => some (st, 0)
  | some departing =>
    let nodeKeys := st.nodes.map Prod.fst
    let nodes1 :=
      if graceful then
        departing.storage.getAllItems.foldl (fun ns kv =>
          let keyId := hashId hashK st.m kv.1
          match (leaveBest (2 ^ st.m) keyId nid nodeKeys (leafSet departing)).1 with
          | some bn =>
            if bn ≠ 0 ∧ assocHas st.nodes bn then
              match assocFind ns bn with
              | some bnode =>
                let bnode' := { bnode with
                  storage := kv.2.foldl (fun s v => s.put kv.1 v) bnode.storage }
                assocSet ns bn bnode'
              | none => ns
            else ns
          | none => ns) st.nodes
      else st.nodes
    let nodes2 := assocErase nodes1 nid
    some (⟨st.m, st.b, nodes2.map (fun e => (e.1, scrubNode nid e.2))⟩, 0)

/-- Modelled from the spec: the live peer numerically closest to `key`
(smallest circular distance, ties to the lower id). -/
def numericallyClosest (M key : Nat) (ids : List Nat) : Option Nat :=
  ids.foldl (fun acc c =>
    match acc with
    | none => some c
    | some bv =>
      if circularDistance M key c < circularDistance M key bv ∨
         (circularDistance M key c = circularDistance M key bv ∧ c < bv)
      then some c else some bv) none

/-- All `(key, value)` bindings held by a set of Pastry peers, in peer and
insertion order (the conservation claim compares these as multisets). -/
def liveBindings (nodes : List (Nat × PastryNodeSt K V)) : List (K × V) :=
  (nodes.map (fun e =>
    (e.2.storage.getAllItems.map (fun kv => kv.2.map (fun v => (kv.1, v)))).flatten)).flatten

/-- Number of registered peers not yet visited. -/
def unvisitedCount (st : PastrySt K V) (visited : List Nat) : Nat :=
  ((st.nodes.map Prod.fst).filter (fun i => decide (i ∉ visited))).length

/-! ## Theorems -/

section StorageProofs

variable [LinearOrder K]

theorem okLoS.toOkLo {lo : Option K} {k : K} (h : okLoS lo k) : okLo lo k := by
  cases lo <;> simp_all [okLo, okLoS] <;> exact le_of_lt h

theorem okLo_mono {lo : Option K} {a b : K} (h : okLo lo a) (hab : a ≤ b) :
    okLo lo b := by
  cases lo <;> simp_all [okLo] <;> exact le_trans h hab

theorem okLoS_mono {lo : Option K} {a b : K} (h : okLoS lo a) (hab : a ≤ b) :
    okLoS lo b := by
  cases lo <;> simp_all [okLoS] <;> exact lt_of_lt_of_le h hab

theorem okHi_mono {hi : Option K} {a b : K} (h : okHi hi a) (hab : b ≤ a) :
    okHi hi b := by
  cases hi <;> simp_all [okHi] <;> exact lt_of_le_of_lt hab h

theorem okLo_some {a k : K} (h : okLo (some a) k) : a ≤ k := h

theorem okHi_some {a k : K} (h : okHi (some a) k) : k < a := h

/-- Every separator key of a well-formed internal zip lies strictly inside the
bounds. -/
theorem wfIn_keys_bounds {h : Nat} :
    ∀ {keys : List K} {cs : List (BTree K V h)} {lo hi : Option K},
      wfIn h lo hi keys cs → ∀ x ∈ keys, okLoS lo x ∧ okHi hi x := by
  intro keys
  induction keys with
  | nil => intro cs lo hi _ x hx; simp at hx
  | cons k0 ks ih =>
    intro cs lo hi hwf x hx
    simp only [wfIn] at hwf
    obtain ⟨c0, crest, rfl, hk0lo, hk0hi, hc0, hrest⟩ := hwf
    rcases List.mem_cons.mp hx with rfl | hx
    · exact ⟨hk0lo, hk0hi⟩
    · obtain ⟨h1, h2⟩ := ih hrest x hx
      exact ⟨okLoS_mono hk0lo (le_of_lt h1), h2⟩

/-- Entry bounds for the children of an internal zip, given the same fact one
level down. -/
theorem entriesIn_bounds {h : Nat}
    (IH : ∀ (lo hi : Option K) (t : BTree K V h), wfB h lo hi t →
      ∀ e ∈ entriesB h t, okLo lo e.1 ∧ okHi hi e.1) :
    ∀ {keys : List K} {cs : List (BTree K V h)} {lo hi : Option K},
      wfIn h lo hi keys cs →
      ∀ e ∈ (cs.map (entriesB h)).flatten, okLo lo e.1 ∧ okHi hi e.1 := by
  intro keys
  induction keys with
  | nil =>
    intro cs lo hi hwf e he
    simp only [wfIn] at hwf
    obtain ⟨c, rfl, hc⟩ := hwf
    simp only [List.map_cons, List.map_nil, List.flatten_cons, List.flatten_nil,
      List.append_nil] at he
    exact IH _ _ _ hc e he
  | cons k0 ks ih =>
    intro cs lo hi hwf e he
    simp only [wfIn] at hwf
    obtain ⟨c0, crest, rfl, hk0lo, hk0hi, hc0, hrest⟩ := hwf
    simp only [List.map_cons, List.flatten_cons, List.mem_append] at he
    rcases he with he | he
    · obtain ⟨h1, h2⟩ := IH _ _ _ hc0 e he
      exact ⟨h1, okHi_mono hk0hi (le_of_lt h2)⟩
    · obtain ⟨h1, h2⟩ := ih hrest e he
      exact ⟨okLo_mono hk0lo.toOkLo h1, h2⟩

/-- All entries of a well-formed node lie within its bounds. -/
theorem entriesB_bounds : ∀ (h : Nat) (lo hi : Option K) (t : BTree K V h),
    wfB h lo hi t → ∀ e ∈ entriesB h t, okLo lo e.1 ∧ okHi hi e.1 := by
  intro h
  induction h with
  | zero =>
    intro lo hi t hwf e he
    simp only [entriesB] at he
    simp only [wfB] at hwf
    exact hwf.2 e he
  | succ h ih =>
    intro lo hi t hwf e he
    simp only [wfB] at hwf
    simp only [entriesB] at he
    exact entriesIn_bounds ih hwf e he

/-- Sortedness of the concatenated entries of an internal zip, given the same
fact one level down. -/
theorem entriesIn_sorted {h : Nat}
    (IHb : ∀ (lo hi : Option K) (t : BTree K V h), wfB h lo hi t →
      ∀ e ∈ entriesB h t, okLo lo e.1 ∧ okHi hi e.1)
    (IHs : ∀ (lo hi : Option K) (t : BTree K V h), wfB h lo hi t →
      List.Pairwise (· < ·) ((entriesB h t).map Prod.fst)) :
    ∀ {keys : List K} {cs : List (BTree K V h)} {lo hi : Option K},
      wfIn h lo hi keys cs →
      List.Pairwise (· < ·) (((cs.map (entriesB h)).flatten).map Prod.fst) := by
  intro keys
  induction keys with
  | nil =>
    intro cs lo hi hwf
    simp only [wfIn] at hwf
    obtain ⟨c, rfl, hc⟩ := hwf
    simpa using IHs _ _ _ hc
  | cons k0 ks ih =>
    intro cs lo hi hwf
    simp only [wfIn] at hwf
    obtain ⟨c0, crest, rfl, hk0lo, hk0hi, hc0, hrest⟩ := hwf
    simp only [List.map_cons, List.flatten_cons, List.map_append]
    rw [List.pairwise_append]
    refine ⟨IHs _ _ _ hc0, ih hrest, ?_⟩
    intro a ha b hb
    obtain ⟨ea, hea, rfl⟩ := List.mem_map.mp ha
    obtain ⟨eb, heb, rfl⟩ := List.mem_map.mp hb
    have h1 := (IHb _ _ _ hc0 ea hea).2
    have h2 := (entriesIn_bounds IHb hrest eb heb).1
    exact lt_of_lt_of_le h1 h2

/-- The in-order entry keys of a well-formed node are strictly ascending. -/
theorem entriesB_sorted : ∀ (h : Nat) (lo hi : Option K) (t : BTree K V h),
    wfB h lo hi t → List.Pairwise (· < ·) ((entriesB h t).map Prod.fst) := by
  intro h
  induction h with
  | zero =>
    intro lo hi t hwf
    simp only [wfB] at hwf
    simpa [entriesB] using hwf.1
  | succ h ih =>
    intro lo hi t hwf
    simp only [wfB] at hwf
    exact entriesIn_sorted (entriesB_bounds h) ih hwf

/-- Prefix entries that miss the key do not affect the association lookup. -/
theorem dictGetD_append_left {a b : List (K × List V)} {k : K}
    (hfree : ∀ e ∈ a, e.1 ≠ k) : dictGetD (a ++ b) k = dictGetD b k := by
  have ha : a.find? (fun e => e.1 = k) = none := by
    rw [List.find?_eq_none]
    intro e he
    simpa using hfree e he
  simp only [dictGetD, List.find?_append, ha, Option.none_or]

/-- Suffix entries that miss the key do not affect the association lookup. -/
theorem dictGetD_append_right {a b : List (K × List V)} {k : K}
    (hfree : ∀ e ∈ b, e.1 ≠ k) : dictGetD (a ++ b) k = dictGetD a k := by
  have hb : b.find? (fun e => e.1 = k) = none := by
    rw [List.find?_eq_none]
    intro e he
    simpa using hfree e he
  simp only [dictGetD, List.find?_append, hb, Option.or_none]

/-- Entries left of the descent child are below the searched key. -/
theorem left_entries_ne {h : Nat} {lo : Option K} {k0 k : K} {c0 : BTree K V h}
    (hc0 : wfB h lo (some k0) c0) (hk : k0 ≤ k) :
    ∀ e ∈ entriesB h c0, e.1 ≠ k := by
  intro e he heq
  have h2 := (entriesB_bounds h _ _ _ hc0 e he).2
  rw [heq] at h2
  exact absurd (lt_of_lt_of_le h2 hk) (lt_irrefl k)

/-- Entries right of the descent child are above the searched key. -/
theorem right_entries_ne {h : Nat} {hi : Option K} {k0 k : K} {ks : List K}
    {crest : List (BTree K V h)} (hrest : wfIn h (some k0) hi ks crest)
    (hk : k < k0) : ∀ e ∈ (crest.map (entriesB h)).flatten, e.1 ≠ k := by
  intro e he heq
  have h1 := (entriesIn_bounds (entriesB_bounds h) hrest e he).1
  rw [heq] at h1
  exact absurd (lt_of_lt_of_le hk h1) (lt_irrefl k)

/-- Descending through an internal zip finds the same value list as the
association lookup over the concatenated entries. -/
theorem searchIn_eq {h : Nat}
    (IH : ∀ (lo hi : Option K) (t : BTree K V h), wfB h lo hi t →
      ∀ k, searchB h t k = dictGetD (entriesB h t) k) :
    ∀ {keys : List K} {cs : List (BTree K V h)} {lo hi : Option K},
      wfIn h lo hi keys cs → ∀ k,
      searchB h (cs.getD (findChildIndex keys k) (nilTree K V h)) k
        = dictGetD ((cs.map (entriesB h)).flatten) k := by
  intro keys
  induction keys with
  | nil =>
    intro cs lo hi hwf k
    simp only [wfIn] at hwf
    obtain ⟨c, rfl, hc⟩ := hwf
    simp only [findChildIndex, List.getD_cons_zero, List.map_cons, List.map_nil,
      List.flatten_cons, List.flatten_nil, List.append_nil]
    exact IH _ _ _ hc k
  | cons k0 ks ih =>
    intro cs lo hi hwf k
    simp only [wfIn] at hwf
    obtain ⟨c0, crest, rfl, hk0lo, hk0hi, hc0, hrest⟩ := hwf
    simp only [findChildIndex, List.map_cons, List.flatten_cons]
    by_cases hk : k < k0
    · rw [if_pos hk]
      simp only [List.getD_cons_zero]
      rw [dictGetD_append_right (right_entries_ne hrest hk)]
      exact IH _ _ _ hc0 k
    · rw [if_neg hk]
      simp only [List.getD_cons_succ]
      rw [dictGetD_append_left (left_entries_ne hc0 (le_of_not_lt hk))]
      exact ih hrest k

/-- C10 helper: `search` on a well-formed tree equals the association lookup
over the in-order entries. -/
theorem searchB_eq : ∀ (h : Nat) (lo hi : Option K) (t : BTree K V h),
    wfB h lo hi t → ∀ k, searchB h t k = dictGetD (entriesB h t) k := by
  intro h
  induction h with
  | zero => intro lo hi t hwf k; rfl
  | succ h ih =>
    intro lo hi t hwf k
    simp only [wfB] at hwf
    simp only [searchB, entriesB]
    exact searchIn_eq ih hwf k

/-- Key membership at the descent leaf equals global key membership
(zip version). -/
theorem containsIn_iff {h : Nat}
    (IH : ∀ (lo hi : Option K) (t : BTree K V h), wfB h lo hi t →
      ∀ k, containsB h t k = true ↔ k ∈ (entriesB h t).map Prod.fst) :
    ∀ {keys : List K} {cs : List (BTree K V h)} {lo hi : Option K},
      wfIn h lo hi keys cs → ∀ k,
      (containsB h (cs.getD (findChildIndex keys k) (nilTree K V h)) k = true
        ↔ k ∈ ((cs.map (entriesB h)).flatten).map Prod.fst) := by
  intro keys
  induction keys with
  | nil =>
    intro cs lo hi hwf k
    simp only [wfIn] at hwf
    obtain ⟨c, rfl, hc⟩ := hwf
    simp only [findChildIndex, List.getD_cons_zero, List.map_cons, List.map_nil,
      List.flatten_cons, List.flatten_nil, List.append_nil]
    exact IH _ _ _ hc k
  | cons k0 ks ih =>
    intro cs lo hi hwf k
    simp only [wfIn] at hwf
    obtain ⟨c0, crest, rfl, hk0lo, hk0hi, hc0, hrest⟩ := hwf
    simp only [findChildIndex, List.map_cons, List.flatten_cons, List.map_append,
      List.mem_append]
    by_cases hk : k < k0
    · rw [if_pos hk]
      simp only [List.getD_cons_zero]
      rw [IH _ _ _ hc0 k]
      constructor
      · exact fun hmem => Or.inl hmem
      · rintro (hmem | hmem)
        · exact hmem
        · obtain ⟨e, he, rfl⟩ := List.mem_map.mp hmem
          exact absurd rfl (right_entries_ne hrest hk e he)
    · rw [if_neg hk]
      simp only [List.getD_cons_succ]
      rw [ih hrest k]
      constructor
      · exact fun hmem => Or.inr hmem
      · rintro (hmem | hmem)
        · obtain ⟨e, he, rfl⟩ := List.mem_map.mp hmem
          exact absurd rfl (left_entries_ne hc0 (le_of_not_lt hk) e he)
        · exact hmem

/-- `key in leaf.keys` at the descent leaf decides global key membership. -/
theorem containsB_iff : ∀ (h : Nat) (lo hi : Option K) (t : BTree K V h),
    wfB h lo hi t →
    ∀ k, containsB h t k = true ↔ k ∈ (entriesB h t).map Prod.fst := by
  intro h
  induction h with
  | zero =>
    intro lo hi t hwf k
    simp [containsB, entriesB]
  | succ h ih =>
    intro lo hi t hwf k
    simp only [wfB] at hwf
    simp only [containsB, entriesB]
    exact containsIn_iff ih hwf k

/-- `eraseP` ignores a suffix on which the predicate never holds. -/
theorem erasePAppendFreeRight {α : Type} {p : α → Bool} {a b : List α}
    (hfree : ∀ e ∈ b, ¬ p e = true) :
    (a ++ b).eraseP p = a.eraseP p ++ b := by
  induction a with
  | nil =>
    simpa using List.eraseP_of_forall_not hfree
  | cons e a ih =>
    simp only [List.cons_append, List.eraseP_cons]
    cases hpe : p e
    · simp [ih]
    · simp

/-- Deletion at the descent child removes exactly the first matching entry
from the concatenation (zip version), preserving well-formedness. -/
theorem deleteIn_ok {h : Nat}
    (IH : ∀ (lo hi : Option K) (t : BTree K V h), wfB h lo hi t → ∀ k,
      wfB h lo hi (deleteB h t k) ∧
      entriesB h (deleteB h t k) = (entriesB h t).eraseP (fun e => e.1 = k)) :
    ∀ {keys : List K} {cs : List (BTree K V h)} {lo hi : Option K},
      wfIn h lo hi keys cs → ∀ k,
      wfIn h lo hi keys (cs.set (findChildIndex keys k)
        (deleteB h (cs.getD (findChildIndex keys k) (nilTree K V h)) k)) ∧
      ((cs.set (findChildIndex keys k)
        (deleteB h (cs.getD (findChildIndex keys k) (nilTree K V h)) k)).map
          (entriesB h)).flatten
        = ((cs.map (entriesB h)).flatten).eraseP (fun e => e.1 = k) := by
  intro keys
  induction keys with
  | nil =>
    intro cs lo hi hwf k
    simp only [wfIn] at hwf
    obtain ⟨c, rfl, hc⟩ := hwf
    obtain ⟨hw, he⟩ := IH _ _ _ hc k
    simp only [findChildIndex, List.getD_cons_zero, List.set_cons_zero, wfIn,
      List.map_cons, List.map_nil, List.flatten_cons, List.flatten_nil,
      List.append_nil]
    exact ⟨⟨_, rfl, hw⟩, he⟩
  | cons k0 ks ih =>
    intro cs lo hi hwf k
    simp only [wfIn] at hwf
    obtain ⟨c0, crest, rfl, hk0lo, hk0hi, hc0, hrest⟩ := hwf
    simp only [findChildIndex]
    by_cases hk : k < k0
    · rw [if_pos hk]
      simp only [List.getD_cons_zero, List.set_cons_zero, List.map_cons,
        List.flatten_cons]
      obtain ⟨hw, he⟩ := IH _ _ _ hc0 k
      constructor
      · simp only [wfIn]
        exact ⟨_, _, rfl, hk0lo, hk0hi, hw, hrest⟩
      · rw [he, erasePAppendFreeRight]
        intro e hee
        simpa using right_entries_ne hrest hk e hee
    · rw [if_neg hk]
      simp only [List.getD_cons_succ, List.set_cons_succ, List.map_cons,
        List.flatten_cons]
      obtain ⟨hw, he⟩ := ih hrest k
      constructor
      · simp only [wfIn]
        exact ⟨_, _, rfl, hk0lo, hk0hi, hc0, hw⟩
      · rw [he, List.eraseP_append_right]
        intro e hee
        simpa using left_entries_ne hc0 (le_of_not_lt hk) e hee

/-- `delete` removes exactly the (unique) entry of the key and keeps the tree
well-formed. -/
theorem deleteB_ok : ∀ (h : Nat) (lo hi : Option K) (t : BTree K V h),
    wfB h lo hi t → ∀ k,
    wfB h lo hi (deleteB h t k) ∧
    entriesB h (deleteB h t k) = (entriesB h t).eraseP (fun e => e.1 = k) := by
  intro h
  induction h with
  | zero =>
    intro lo hi t hwf k
    simp only [wfB] at hwf
    constructor
    · simp only [wfB, deleteB]
      constructor
      · exact hwf.1.sublist (List.Sublist.map _ (List.eraseP_sublist _))
      · intro e he
        exact hwf.2 e (List.mem_of_mem_eraseP he)
    · rfl
  | succ h ih =>
    intro lo hi t hwf k
    simp only [wfB] at hwf ⊢
    simp only [deleteB, entriesB]
    exact deleteIn_ok ih hwf k

/-- Unfolding of `insEntry` at a matching head. -/
theorem insEntry_cons_found {e : K × List V} {rest : List (K × List V)}
    {k : K} {v : V} (h1 : e.1 = k) :
    insEntry (e :: rest) k v = (e.1, e.2 ++ [v]) :: rest := by
  simp [insEntry, h1]

/-- Unfolding of `insEntry` when the new key precedes the head. -/
theorem insEntry_cons_before {e : K × List V} {rest : List (K × List V)}
    {k : K} {v : V} (h1 : ¬ e.1 = k) (h2 : k < e.1) :
    insEntry (e :: rest) k v = (k, [v]) :: e :: rest := by
  simp [insEntry, h1, h2]

/-- Unfolding of `insEntry` when the head precedes the new key. -/
theorem insEntry_cons_skip {e : K × List V} {rest : List (K × List V)}
    {k : K} {v : V} (h1 : ¬ e.1 = k) (h2 : ¬ k < e.1) :
    insEntry (e :: rest) k v = e :: insEntry rest k v := by
  simp [insEntry, h1, h2]

/-- Association lookup at a matching head. -/
theorem dictGetD_cons_self {e : K × List V} {rest : List (K × List V)} {k : K}
    (he : e.1 = k) : dictGetD (e :: rest) k = e.2 := by
  simp [dictGetD, List.find?_cons_of_pos, he]

/-- Association lookup skips a mismatching head. -/
theorem dictGetD_cons_other {e : K × List V} {rest : List (K × List V)} {k : K}
    (he : ¬ e.1 = k) : dictGetD (e :: rest) k = dictGetD rest k := by
  simp only [dictGetD]
  rw [List.find?_cons_of_neg _ (by simpa using he)]

/-- On a sorted entry list containing the key, appending to the key's value
list is the canonical association insertion. -/
theorem appendAtKey_eq_insEntry {es : List (K × List V)} {k : K} {v : V}
    (hsort : List.Pairwise (· < ·) (es.map Prod.fst))
    (hmem : k ∈ es.map Prod.fst) :
    appendAtKey es k v = insEntry es k v := by
  induction es with
  | nil => simp at hmem
  | cons e rest ih =>
    by_cases he : e.1 = k
    · simp [appendAtKey, insEntry, he]
    · have hk : k ∈ rest.map Prod.fst := by
        rcases List.mem_cons.mp hmem with h | h
        · exact absurd h.symm he
        · exact h
      have helt : e.1 < k := by
        have := (List.pairwise_cons.mp hsort).1
        exact this k hk
      simp only [appendAtKey, insEntry, if_neg he, if_neg (not_lt.mpr (le_of_lt helt))]
      rw [ih (List.pairwise_cons.mp hsort).2 hk]

/-- On an entry list missing the key, inserting `(k, [v])` at
`_find_insert_position` is the canonical association insertion. -/
theorem insertIdx_eq_insEntry {es : List (K × List V)} {k : K} {v : V}
    (hmem : k ∉ es.map Prod.fst) :
    List.insertIdx (findInsertPosition (es.map Prod.fst) k) (k, [v]) es
      = insEntry es k v := by
  induction es with
  | nil => rfl
  | cons e rest ih =>
    have he : ¬ (e.1 = k) := fun h => hmem (by simp [h])
    simp only [findInsertPosition, findChildIndex, List.map_cons] at *
    by_cases hk : k < e.1
    · simp [insEntry, if_pos hk, if_neg he, List.insertIdx_zero]
    · simp only [if_neg hk, List.insertIdx_succ_cons, insEntry, if_neg he]
      rw [ih (fun h => hmem (List.mem_cons_of_mem _ h))]

/-- Key set of the canonical insertion. -/
theorem insEntry_fst_subset {es : List (K × List V)} {k x : K} {v : V}
    (hx : x ∈ (insEntry es k v).map Prod.fst) :
    x ∈ es.map Prod.fst ∨ x = k := by
  induction es with
  | nil =>
    simp [insEntry] at hx
    exact Or.inr hx
  | cons e rest ih =>
    simp only [insEntry] at hx
    split_ifs at hx with h1 h2
    · simp only [List.map_cons, List.mem_cons] at hx ⊢
      tauto
    · simp only [List.map_cons, List.mem_cons] at hx ⊢
      tauto
    · simp only [List.map_cons, List.mem_cons] at hx ⊢
      rcases hx with hx | hx
      · exact Or.inl (Or.inl hx)
      · rcases ih hx with h | h
        · exact Or.inl (Or.inr h)
        · exact Or.inr h

/-- The canonical insertion keeps the entry keys sorted and inside bounds. -/
theorem insEntry_wf {es : List (K × List V)} {k : K} {v : V}
    {lo hi : Option K}
    (hsort : List.Pairwise (· < ·) (es.map Prod.fst))
    (hbnd : ∀ e ∈ es, okLo lo e.1 ∧ okHi hi e.1)
    (hklo : okLo lo k) (hkhi : okHi hi k) :
    List.Pairwise (· < ·) ((insEntry es k v).map Prod.fst)
      ∧ ∀ e ∈ insEntry es k v, okLo lo e.1 ∧ okHi hi e.1 := by
  induction es with
  | nil =>
    refine ⟨by simp [insEntry], ?_⟩
    intro e he
    simp only [insEntry, List.mem_singleton] at he
    subst he
    exact ⟨hklo, hkhi⟩
  | cons e rest ih =>
    have hrec := ih (List.pairwise_cons.mp hsort).2
      (fun e' h' => hbnd e' (List.mem_cons_of_mem _ h'))
    simp only [insEntry]
    split_ifs with h1 h2
    · constructor
      · simpa using hsort
      · intro e' he'
        rcases List.mem_cons.mp he' with rfl | he'
        · exact hbnd e (by simp)
        · exact hbnd e' (List.mem_cons_of_mem _ he')
    · constructor
      · simp only [List.map_cons, List.pairwise_cons] at hsort ⊢
        refine ⟨?_, hsort⟩
        intro a ha
        rcases List.mem_cons.mp ha with rfl | ha
        · exact h2
        · exact lt_trans h2 (hsort.1 a ha)
      · intro e' he'
        rcases List.mem_cons.mp he' with rfl | he'
        · exact ⟨hklo, hkhi⟩
        · rcases List.mem_cons.mp he' with rfl | he''
          · exact hbnd _ (by simp)
          · exact hbnd e' (List.mem_cons_of_mem _ he'')
    · have hek : e.1 < k := lt_of_le_of_ne (not_lt.mp h2) h1
      constructor
      · simp only [List.map_cons, List.pairwise_cons]
        refine ⟨?_, hrec.1⟩
        intro a ha
        rcases insEntry_fst_subset ha with h | rfl
        · exact (List.pairwise_cons.mp hsort).1 a h
        · exact hek
      · intro e' he'
        rcases List.mem_cons.mp he' with rfl | he''
        · exact hbnd _ (by simp)
        · exact hrec.2 e' he''

/-- Association lookup at the inserted key appends the value (sorted list). -/
theorem dictGetD_insEntry_self {es : List (K × List V)} {k : K} {v : V}
    (hsort : List.Pairwise (· < ·) (es.map Prod.fst)) :
    dictGetD (insEntry es k v) k = dictGetD es k ++ [v] := by
  induction es with
  | nil => simp [insEntry, dictGetD]
  | cons e rest ih =>
    by_cases h1 : e.1 = k
    · rw [insEntry_cons_found h1]
      have l1 : dictGetD ((e.1, e.2 ++ [v]) :: rest) k = e.2 ++ [v] :=
        dictGetD_cons_self h1
      have l2 : dictGetD (e :: rest) k = e.2 := dictGetD_cons_self h1
      rw [l1, l2]
    · by_cases h2 : k < e.1
      · rw [insEntry_cons_before h1 h2]
        have hnk : k ∉ rest.map Prod.fst := by
          intro hmem
          have := (List.pairwise_cons.mp hsort).1 k hmem
          exact absurd (lt_trans h2 this) (lt_irrefl _)
        have hrest : dictGetD (e :: rest) k = [] := by
          rw [dictGetD_cons_other h1]
          have hnone : rest.find? (fun e' => e'.1 = k) = none := by
            rw [List.find?_eq_none]
            intro x hx heq
            exact hnk ((by simpa using heq : x.1 = k) ▸ List.mem_map_of_mem Prod.fst hx)
          simp [dictGetD, hnone]
        rw [hrest]
        have l1 : dictGetD ((k, [v]) :: e :: rest) k = [v] := dictGetD_cons_self rfl
        rw [l1]
        rfl
      · rw [insEntry_cons_skip h1 h2, dictGetD_cons_other h1, dictGetD_cons_other h1]
        exact ih (List.pairwise_cons.mp hsort).2

/-- Association lookup at other keys is unchanged by the insertion. -/
theorem dictGetD_insEntry_other {es : List (K × List V)} {k k' : K} {v : V}
    (hne : k' ≠ k) : dictGetD (insEntry es k v) k' = dictGetD es k' := by
  induction es with
  | nil => simp [insEntry, dictGetD, List.find?, hne.symm]
  | cons e rest ih =>
    by_cases h1 : e.1 = k
    · rw [insEntry_cons_found h1]
      by_cases he : e.1 = k'
      · exact absurd (he.symm.trans h1) hne
      · have l1 : dictGetD ((e.1, e.2 ++ [v]) :: rest) k' = dictGetD rest k' :=
          dictGetD_cons_other he
        rw [l1, dictGetD_cons_other he]
    · by_cases h2 : k < e.1
      · rw [insEntry_cons_before h1 h2]
        have l1 : dictGetD ((k, [v]) :: e :: rest) k' = dictGetD (e :: rest) k' :=
          dictGetD_cons_other (fun h => hne h.symm)
        rw [l1]
      · rw [insEntry_cons_skip h1 h2]
        by_cases he : e.1 = k'
        · rw [dictGetD_cons_self he, dictGetD_cons_self he]
        · rw [dictGetD_cons_other he, dictGetD_cons_other he]
          exact ih

/-- The canonical insertion ignores a suffix whose keys all exceed `k`. -/
theorem insEntry_append_right {a b : List (K × List V)} {k : K} {v : V}
    (hb : ∀ e ∈ b, k < e.1) :
    insEntry (a ++ b) k v = insEntry a k v ++ b := by
  induction a with
  | nil =>
    cases b with
    | nil => rfl
    | cons e rest =>
      have := hb e (by simp)
      simp [insEntry, this, ne_of_gt this]
  | cons e a ih =>
    simp only [List.cons_append, insEntry]
    split_ifs <;> simp [ih]

/-- The canonical insertion ignores a prefix whose keys are all below `k`. -/
theorem insEntry_append_left {a b : List (K × List V)} {k : K} {v : V}
    (ha : ∀ e ∈ a, e.1 < k) :
    insEntry (a ++ b) k v = a ++ insEntry b k v := by
  induction a with
  | nil => rfl
  | cons e a ih =>
    have he := ha e (by simp)
    rw [List.cons_append, insEntry_cons_skip (ne_of_lt he) (not_lt.mpr (le_of_lt he)),
      ih (fun e' h' => ha e' (List.mem_cons_of_mem _ h')), List.cons_append]

/-- Value replacement does not change the key sequence. -/
theorem setValuesAtKey_fst {es : List (K × List V)} {k : K} {vs : List V} :
    (setValuesAtKey es k vs).map Prod.fst = es.map Prod.fst := by
  induction es with
  | nil => rfl
  | cons e rest ih =>
    by_cases he : e.1 = k
    · simp [setValuesAtKey, he]
    · simp [setValuesAtKey, he, ih]

/-- Value replacement is a no-op when the key is absent. -/
theorem setValuesAtKey_free {es : List (K × List V)} {k : K} {vs : List V}
    (hfree : ∀ e ∈ es, ¬ e.1 = k) : setValuesAtKey es k vs = es := by
  induction es with
  | nil => rfl
  | cons e rest ih =>
    rw [setValuesAtKey, if_neg (hfree e (by simp)),
      ih (fun e' h' => hfree e' (List.mem_cons_of_mem _ h'))]

/-- Value replacement skips a prefix missing the key. -/
theorem setValuesAtKey_append_left {a b : List (K × List V)} {k : K}
    {vs : List V} (ha : ∀ e ∈ a, ¬ e.1 = k) :
    setValuesAtKey (a ++ b) k vs = a ++ setValuesAtKey b k vs := by
  induction a with
  | nil => rfl
  | cons e a ih =>
    rw [List.cons_append, setValuesAtKey, if_neg (ha e (by simp)),
      ih (fun e' h' => ha e' (List.mem_cons_of_mem _ h')), List.cons_append]

/-- Value replacement ignores a suffix missing the key. -/
theorem setValuesAtKey_append_right {a b : List (K × List V)} {k : K}
    {vs : List V} (hb : ∀ e ∈ b, ¬ e.1 = k) :
    setValuesAtKey (a ++ b) k vs = setValuesAtKey a k vs ++ b := by
  induction a with
  | nil =>
    simpa using setValuesAtKey_free hb
  | cons e a ih =>
    by_cases he : e.1 = k
    · rw [List.cons_append, setValuesAtKey, if_pos he, setValuesAtKey, if_pos he,
        List.cons_append]
    · rw [List.cons_append, setValuesAtKey, if_neg he, setValuesAtKey, if_neg he,
        ih, List.cons_append]

/-- Association lookup at the replaced key yields the new values. -/
theorem dictGetD_setValuesAtKey_self {es : List (K × List V)} {k : K}
    {vs : List V} (hmem : k ∈ es.map Prod.fst) :
    dictGetD (setValuesAtKey es k vs) k = vs := by
  induction es with
  | nil => simp at hmem
  | cons e rest ih =>
    by_cases he : e.1 = k
    · rw [setValuesAtKey, if_pos he]
      exact dictGetD_cons_self he
    · rw [setValuesAtKey, if_neg he, dictGetD_cons_other he]
      refine ih ?_
      rw [List.map_cons] at hmem
      rcases List.mem_cons.mp hmem with h | h
      · exact absurd h.symm he
      · exact h

/-- Association lookup at other keys is unchanged by value replacement. -/
theorem dictGetD_setValuesAtKey_other {es : List (K × List V)} {k k' : K}
    {vs : List V} (hne : ¬ k' = k) :
    dictGetD (setValuesAtKey es k vs) k' = dictGetD es k' := by
  induction es with
  | nil => rfl
  | cons e rest ih =>
    by_cases he : e.1 = k
    · rw [setValuesAtKey, if_pos he]
      have h' : ¬ e.1 = k' := fun h => hne (h.symm.trans he)
      have l1 : dictGetD ((e.1, vs) :: rest) k' = dictGetD rest k' :=
        dictGetD_cons_other h'
      rw [l1, dictGetD_cons_other h']
    · rw [setValuesAtKey, if_neg he]
      by_cases h' : e.1 = k'
      · rw [dictGetD_cons_self h', dictGetD_cons_self h']
      · rw [dictGetD_cons_other h', dictGetD_cons_other h']
        exact ih

/-- Every entry after value replacement has a key of the original list. -/
theorem setValuesAtKey_key_mem {es : List (K × List V)} {k : K} {vs : List V}
    {e : K × List V} (he : e ∈ setValuesAtKey es k vs) :
    e.1 ∈ es.map Prod.fst := by
  have : e.1 ∈ (setValuesAtKey es k vs).map Prod.fst := List.mem_map_of_mem _ he
  rwa [setValuesAtKey_fst] at this

/-- Value replacement at the descent child replaces exactly the entry of the
key in the concatenation (zip version), preserving well-formedness. -/
theorem setValuesIn_ok {h : Nat}
    (IH : ∀ (lo hi : Option K) (t : BTree K V h), wfB h lo hi t → ∀ k vs,
      wfB h lo hi (setValuesB h t k vs) ∧
      entriesB h (setValuesB h t k vs) = setValuesAtKey (entriesB h t) k vs) :
    ∀ {keys : List K} {cs : List (BTree K V h)} {lo hi : Option K},
      wfIn h lo hi keys cs → ∀ k vs,
      wfIn h lo hi keys (cs.set (findChildIndex keys k)
        (setValuesB h (cs.getD (findChildIndex keys k) (nilTree K V h)) k vs)) ∧
      ((cs.set (findChildIndex keys k)
        (setValuesB h (cs.getD (findChildIndex keys k) (nilTree K V h)) k vs)).map
          (entriesB h)).flatten
        = setValuesAtKey ((cs.map (entriesB h)).flatten) k vs := by
  intro keys
  induction keys with
  | nil =>
    intro cs lo hi hwf k vs
    simp only [wfIn] at hwf
    obtain ⟨c, rfl, hc⟩ := hwf
    obtain ⟨hw, he⟩ := IH _ _ _ hc k vs
    simp only [findChildIndex, List.getD_cons_zero, List.set_cons_zero, wfIn,
      List.map_cons, List.map_nil, List.flatten_cons, List.flatten_nil,
      List.append_nil]
    exact ⟨⟨_, rfl, hw⟩, he⟩
  | cons k0 ks ih =>
    intro cs lo hi hwf k vs
    simp only [wfIn] at hwf
    obtain ⟨c0, crest, rfl, hk0lo, hk0hi, hc0, hrest⟩ := hwf
    simp only [findChildIndex]
    by_cases hk : k < k0
    · rw [if_pos hk]
      simp only [List.getD_cons_zero, List.set_cons_zero, List.map_cons,
        List.flatten_cons]
      obtain ⟨hw, he⟩ := IH _ _ _ hc0 k vs
      constructor
      · simp only [wfIn]
        exact ⟨_, _, rfl, hk0lo, hk0hi, hw, hrest⟩
      · rw [he, setValuesAtKey_append_right (right_entries_ne hrest hk)]
    · rw [if_neg hk]
      simp only [List.getD_cons_succ, List.set_cons_succ, List.map_cons,
        List.flatten_cons]
      obtain ⟨hw, he⟩ := ih hrest k vs
      constructor
      · simp only [wfIn]
        exact ⟨_, _, rfl, hk0lo, hk0hi, hc0, hw⟩
      · rw [he, setValuesAtKey_append_left (left_entries_ne hc0 (le_of_not_lt hk))]

/-- `update`'s in-place branch replaces exactly the entry of the key and keeps
the tree well-formed. -/
theorem setValuesB_ok : ∀ (h : Nat) (lo hi : Option K) (t : BTree K V h),
    wfB h lo hi t → ∀ k vs,
    wfB h lo hi (setValuesB h t k vs) ∧
    entriesB h (setValuesB h t k vs) = setValuesAtKey (entriesB h t) k vs := by
  intro h
  induction h with
  | zero =>
    intro lo hi t hwf k vs
    simp only [wfB] at hwf
    constructor
    · simp only [wfB, setValuesB]
      constructor
      · rw [setValuesAtKey_fst]
        exact hwf.1
      · intro e he
        obtain ⟨e', he', heq⟩ := List.mem_map.mp (setValuesAtKey_key_mem he)
        have := hwf.2 e' he'
        rw [heq] at this
        exact this
    · rfl
  | succ h ih =>
    intro lo hi t hwf k vs
    simp only [wfB] at hwf ⊢
    simp only [setValuesB, entriesB]
    exact setValuesIn_ok ih hwf k vs

/-- An element read by `getD` inside the range is a member. -/
theorem getD_mem_of_lt {α : Type} {l : List α} {m : Nat} {d : α}
    (hm : m < l.length) : l.getD m d ∈ l := by
  rw [List.getD_eq_getElem?_getD, List.getElem?_eq_getElem hm]
  simpa using List.getElem_mem hm

/-- Splitting a well-formed internal zip at separator index `m` yields two
well-formed zips on either side of that separator. -/
theorem wfIn_split {h : Nat} {d : K} :
    ∀ {keys : List K} {cs : List (BTree K V h)} {lo hi : Option K},
      wfIn h lo hi keys cs → ∀ m, m < keys.length →
      wfIn h lo (some (keys.getD m d)) (keys.take m) (cs.take (m + 1)) ∧
      wfIn h (some (keys.getD m d)) hi (keys.drop (m + 1)) (cs.drop (m + 1)) ∧
      okLoS lo (keys.getD m d) ∧ okHi hi (keys.getD m d) ∧
      (cs.map (entriesB h)).flatten
        = ((cs.take (m + 1)).map (entriesB h)).flatten
          ++ ((cs.drop (m + 1)).map (entriesB h)).flatten := by
  intro keys cs lo hi hwf m hm
  induction m generalizing keys cs lo with
  | zero =>
    cases keys with
    | nil => simp at hm
    | cons k0 ks =>
      simp only [wfIn] at hwf
      obtain ⟨c0, crest, rfl, hk0lo, hk0hi, hc0, hrest⟩ := hwf
      simp only [List.getD_cons_zero, List.take_zero, List.take_succ_cons,
        List.take_zero, List.drop_succ_cons, List.drop_zero, List.map_cons,
        List.flatten_cons, List.map_nil, List.flatten_nil, List.append_nil]
      refine ⟨?_, hrest, hk0lo, hk0hi, by trivial⟩
      simp only [wfIn]
      exact ⟨c0, rfl, hc0⟩
  | succ m ih =>
    cases keys with
    | nil => simp at hm
    | cons k0 ks =>
      simp only [wfIn] at hwf
      obtain ⟨c0, crest, rfl, hk0lo, hk0hi, hc0, hrest⟩ := hwf
      have hm' : m < ks.length := by simpa using hm
      obtain ⟨ih1, ih2, ih3, ih4, ih5⟩ := ih hrest hm'
      have hkm : ks.getD m d ∈ ks := getD_mem_of_lt hm'
      have hk0km : k0 < ks.getD m d := (wfIn_keys_bounds hrest _ hkm).1
      simp only [List.getD_cons_succ, List.take_succ_cons, List.drop_succ_cons,
        List.map_cons, List.flatten_cons]
      refine ⟨?_, ih2, okLoS_mono hk0lo (le_of_lt hk0km), ih4, ?_⟩
      · simp only [wfIn]
        exact ⟨c0, _, rfl, hk0lo, hk0km, hc0, ih1⟩
      · rw [ih5, List.append_assoc]

/-- Effect of one insertion through an internal zip: after descending into the
`_find_child_index` child, re-assembling the node (and, on a child split,
inserting the promoted key at `_find_insert_position` and the right node just
after it) preserves well-formedness and performs the canonical insertion on
the concatenated entry list. -/
theorem insIn_ok {h : Nat}
    (IH : ∀ (lo hi : Option K) (t : BTree K V h), wfB h lo hi t → ∀ k v,
      okLo lo k → okHi hi k →
      wfRes h lo hi (insertB h t k v) ∧
      entriesRes h (insertB h t k v) = insEntry (entriesB h t) k v) :
    ∀ {keys : List K} {cs : List (BTree K V h)} {lo hi : Option K},
      wfIn h lo hi keys cs → ∀ (k : K) (v : V), okLo lo k → okHi hi k →
      (∀ c, insertB h (cs.getD (findChildIndex keys k) (nilTree K V h)) k v
          = .one c →
        wfIn h lo hi keys (cs.set (findChildIndex keys k) c) ∧
        ((cs.set (findChildIndex keys k) c).map (entriesB h)).flatten
          = insEntry ((cs.map (entriesB h)).flatten) k v) ∧
      (∀ l sep r,
        insertB h (cs.getD (findChildIndex keys k) (nilTree K V h)) k v
          = .split l sep r →
        okLoS lo sep ∧ okHi hi sep ∧
        wfIn h lo hi (List.insertIdx (findInsertPosition keys sep) sep keys)
          (List.insertIdx (findInsertPosition keys sep + 1) r
            (cs.set (findChildIndex keys k) l)) ∧
        ((List.insertIdx (findInsertPosition keys sep + 1) r
            (cs.set (findChildIndex keys k) l)).map (entriesB h)).flatten
          = insEntry ((cs.map (entriesB h)).flatten) k v) := by
  intro keys
  induction keys with
  | nil =>
    intro cs lo hi hwf k v hklo hkhi
    simp only [wfIn] at hwf
    obtain ⟨c, rfl, hc⟩ := hwf
    obtain ⟨hres, hent⟩ := IH _ _ _ hc k v hklo hkhi
    constructor
    · intro c' hone
      simp only [findChildIndex, List.getD_cons_zero] at hone
      rw [hone] at hres hent
      simp only [wfRes] at hres
      simp only [entriesRes] at hent
      simp only [findChildIndex, List.set_cons_zero, List.map_cons, List.map_nil,
        List.flatten_cons, List.flatten_nil, List.append_nil]
      refine ⟨?_, hent⟩
      simp only [wfIn]
      exact ⟨c', rfl, hres⟩
    · intro l sep r hsplit
      simp only [findChildIndex, List.getD_cons_zero] at hsplit
      rw [hsplit] at hres hent
      obtain ⟨hl, hr, hsl, hsh⟩ := hres
      simp only [entriesRes] at hent
      simp only [findChildIndex, findInsertPosition, List.set_cons_zero,
        List.insertIdx_zero, List.insertIdx_succ_cons, List.map_cons,
        List.map_nil, List.flatten_cons, List.flatten_nil, List.append_nil]
      refine ⟨hsl, hsh, ?_, ?_⟩
      · simp only [wfIn]
        exact ⟨l, [r], rfl, hsl, hsh, hl, r, rfl, hr⟩
      · exact hent
  | cons k0 ks ih =>
    intro cs lo hi hwf k v hklo hkhi
    simp only [wfIn] at hwf
    obtain ⟨c0, crest, rfl, hk0lo, hk0hi, hc0, hrest⟩ := hwf
    by_cases hk : k < k0
    · have hfci : findChildIndex (k0 :: ks) k = 0 := by
        simp [findChildIndex, hk]
      obtain ⟨hres, hent⟩ := IH _ _ _ hc0 k v hklo hk
      have hfree : ∀ e ∈ (crest.map (entriesB h)).flatten, k < e.1 := by
        intro e he
        exact lt_of_lt_of_le hk (entriesIn_bounds (entriesB_bounds h) hrest e he).1
      constructor
      · intro c' hone
        rw [hfci] at hone ⊢
        simp only [List.getD_cons_zero] at hone
        rw [hone] at hres hent
        simp only [wfRes] at hres
        simp only [entriesRes] at hent
        simp only [List.set_cons_zero, List.map_cons, List.flatten_cons]
        constructor
        · simp only [wfIn]
          exact ⟨c', crest, rfl, hk0lo, hk0hi, hres, hrest⟩
        · rw [insEntry_append_right hfree, hent]
      · intro l sep r hsplit
        rw [hfci] at hsplit ⊢
        simp only [List.getD_cons_zero] at hsplit
        rw [hsplit] at hres hent
        obtain ⟨hl, hr, hsl, hsh⟩ := hres
        simp only [entriesRes] at hent
        have hsk : sep < k0 := hsh
        have hfip : findInsertPosition (k0 :: ks) sep = 0 := by
          simp [findInsertPosition, findChildIndex, hsk]
        rw [hfip]
        simp only [List.set_cons_zero, List.insertIdx_zero,
          List.insertIdx_succ_cons, List.map_cons, List.flatten_cons]
        have hsephi : okHi hi sep := okHi_mono hk0hi (le_of_lt hsh)
        refine ⟨hsl, hsephi, ?_, ?_⟩
        · simp only [wfIn]
          exact ⟨l, r :: crest, rfl, hsl, hsephi, hl, r, crest, rfl, hsh, hk0hi,
            hr, hrest⟩
        · rw [insEntry_append_right hfree, ← hent, ← List.append_assoc]
    · have hk0k : k0 ≤ k := le_of_not_lt hk
      have hfci : findChildIndex (k0 :: ks) k = findChildIndex ks k + 1 := by
        simp [findChildIndex, hk]
      obtain ⟨ihone, ihsplit⟩ := ih hrest k v hk0k hkhi
      have hfree0 : ∀ e ∈ entriesB h c0, e.1 < k := by
        intro e he
        exact lt_of_lt_of_le (entriesB_bounds h _ _ _ hc0 e he).2 hk0k
      constructor
      · intro c' hone
        rw [hfci] at hone ⊢
        simp only [List.getD_cons_succ] at hone
        obtain ⟨hw', hent'⟩ := ihone c' hone
        simp only [List.set_cons_succ, List.map_cons, List.flatten_cons]
        constructor
        · simp only [wfIn]
          exact ⟨c0, _, rfl, hk0lo, hk0hi, hc0, hw'⟩
        · rw [insEntry_append_left hfree0, hent']
      · intro l sep r hsplit
        rw [hfci] at hsplit ⊢
        simp only [List.getD_cons_succ] at hsplit
        obtain ⟨hsl, hsh, hw', hent'⟩ := ihsplit l sep r hsplit
        have hk0sep : k0 < sep := hsl
        have hfip : findInsertPosition (k0 :: ks) sep
            = findInsertPosition ks sep + 1 := by
          simp [findInsertPosition, findChildIndex, not_lt.mpr (le_of_lt hk0sep)]
        rw [hfip]
        simp only [List.set_cons_succ, List.insertIdx_succ_cons, List.map_cons,
          List.flatten_cons]
        refine ⟨okLoS_mono hk0lo (le_of_lt hk0sep), hsh, ?_, ?_⟩
        · simp only [wfIn]
          exact ⟨c0, _, rfl, hk0lo, hk0hi, hc0, hw'⟩
        · rw [insEntry_append_left hfree0, hent']

/-- In a strictly sorted list, every element of a prefix is below every
element of the matching suffix. -/
theorem pairwise_take_drop {l : List K} {m : Nat}
    (hs : List.Pairwise (· < ·) l) :
    ∀ a ∈ l.take m, ∀ b ∈ l.drop m, a < b := by
  have : List.Pairwise (· < ·) (l.take m ++ l.drop m) := by
    rwa [List.take_append_drop]
  exact (List.pairwise_append.mp this).2.2

/-- `BPlusTree.insert` at any node: the result is well-formed and its entry
list is the canonical association insertion. -/
theorem insertB_ok : ∀ (h : Nat) (lo hi : Option K) (t : BTree K V h),
    wfB h lo hi t → ∀ (k : K) (v : V), okLo lo k → okHi hi k →
    wfRes h lo hi (insertB h t k v) ∧
    entriesRes h (insertB h t k v) = insEntry (entriesB h t) k v := by
  intro h
  induction h with
  | zero =>
    intro lo hi t hwf k v hklo hkhi
    simp only [wfB] at hwf
    obtain ⟨hsort, hbnd⟩ := hwf
    by_cases hmem : k ∈ t.map Prod.fst
    · have hcont : (t.map Prod.fst).contains k = true := by simpa using hmem
      simp only [insertB, hcont, if_true]
      rw [appendAtKey_eq_insEntry hsort hmem]
      simp only [wfRes, wfB, entriesRes, entriesB]
      exact ⟨insEntry_wf hsort hbnd hklo hkhi, trivial⟩
    · have hcont : (t.map Prod.fst).contains k = false := by simpa using hmem
      simp only [insertB, hcont, Bool.false_eq_true, if_false,
        insertIdx_eq_insEntry hmem]
      obtain ⟨hsort', hbnd'⟩ := insEntry_wf (v := v) hsort hbnd hklo hkhi
      by_cases hov : btOrder ≤ (insEntry t k v).length
      · rw [if_pos hov]
        have hlen : 4 ≤ (insEntry t k v).length := hov
        have hmid2 : 2 ≤ (insEntry t k v).length / 2 := by omega
        have hmidlt : (insEntry t k v).length / 2 < (insEntry t k v).length := by
          omega
        have hcross := pairwise_take_drop
          (m := (insEntry t k v).length / 2) hsort'
        obtain ⟨e0, rest', hdrop⟩ : ∃ e0 rest',
            (insEntry t k v).drop ((insEntry t k v).length / 2) = e0 :: rest' := by
          cases hd : (insEntry t k v).drop ((insEntry t k v).length / 2) with
          | nil =>
            have := congrArg List.length hd
            simp only [List.length_drop, List.length_nil] at this
            omega
          | cons x xs => exact ⟨x, xs, rfl⟩
        obtain ⟨a0, ta, htake⟩ : ∃ a0 ta,
            (insEntry t k v).take ((insEntry t k v).length / 2) = a0 :: ta := by
          cases ht : (insEntry t k v).take ((insEntry t k v).length / 2) with
          | nil =>
            have := congrArg List.length ht
            simp only [List.length_take, List.length_nil] at this
            omega
          | cons x xs => exact ⟨x, xs, rfl⟩
        have he0mem : e0 ∈ insEntry t k v :=
          List.mem_of_mem_drop (by rw [hdrop]; simp)
        have he0key : e0.1 ∈ ((insEntry t k v).map Prod.fst).drop
            ((insEntry t k v).length / 2) := by
          rw [← List.map_drop, hdrop]
          simp
        have hsep_gt : ∀ e ∈ (insEntry t k v).take
            ((insEntry t k v).length / 2), e.1 < e0.1 := by
          intro e he
          refine hcross e.1 ?_ e0.1 he0key
          rw [← List.map_take]
          exact List.mem_map_of_mem _ he
        have hsepval : (((insEntry t k v).drop
            ((insEntry t k v).length / 2)).map Prod.fst).headD k = e0.1 := by
          rw [hdrop]
          simp
        rw [hsepval]
        simp only [wfRes, wfB, entriesRes, entriesB]
        refine ⟨⟨⟨?_, ?_⟩, ⟨?_, ?_⟩, ?_, ?_⟩, ?_⟩
        · rw [List.map_take]
          exact hsort'.sublist (List.take_sublist _ _)
        · intro e he
          exact ⟨(hbnd' e (List.mem_of_mem_take he)).1, hsep_gt e he⟩
        · rw [List.map_drop]
          exact hsort'.sublist (List.drop_sublist _ _)
        · intro e he
          refine ⟨?_, (hbnd' e (List.mem_of_mem_drop he)).2⟩
          rw [hdrop] at he
          rcases List.mem_cons.mp he with rfl | he'
          · exact le_refl _
          · have hd : List.Pairwise (· < ·)
                (((insEntry t k v).map Prod.fst).drop
                  ((insEntry t k v).length / 2)) :=
              hsort'.sublist (List.drop_sublist _ _)
            rw [← List.map_drop, hdrop, List.map_cons] at hd
            exact le_of_lt ((List.pairwise_cons.mp hd).1 e.1
              (List.mem_map_of_mem _ he'))
        · cases lo with
          | none => trivial
          | some lv =>
            have ha0 : a0 ∈ insEntry t k v :=
              List.mem_of_mem_take (a := a0) (by rw [htake]; simp)
            have h1 : lv ≤ a0.1 := (hbnd' a0 ha0).1
            have h2 : a0.1 < e0.1 := hsep_gt a0 (by rw [htake]; simp)
            exact lt_of_le_of_lt h1 h2
        · exact (hbnd' e0 he0mem).2
        · rw [List.take_append_drop]
      · rw [if_neg hov]
        simp only [wfRes, wfB, entriesRes, entriesB]
        exact ⟨⟨hsort', hbnd'⟩, trivial⟩
  | succ h ih =>
    intro lo hi t hwf k v hklo hkhi
    simp only [wfB] at hwf
    obtain ⟨hone, hsplit⟩ := insIn_ok ih hwf k v hklo hkhi
    cases hres : insertB h (t.2.getD (findChildIndex t.1 k) (nilTree K V h)) k v with
    | one c =>
      obtain ⟨hw, he⟩ := hone c hres
      simp only [insertB, hres, wfRes, wfB, entriesRes, entriesB]
      exact ⟨hw, he⟩
    | split l sep r =>
      obtain ⟨hsl, hsh, hw, he⟩ := hsplit l sep r hres
      simp only [insertB, hres]
      by_cases hov : btOrder ≤
          (List.insertIdx (findInsertPosition t.1 sep) sep t.1).length
      · rw [if_pos hov]
        have hmidlt : (List.insertIdx (findInsertPosition t.1 sep) sep t.1).length / 2
            < (List.insertIdx (findInsertPosition t.1 sep) sep t.1).length := by
          have : 4 ≤ (List.insertIdx (findInsertPosition t.1 sep) sep t.1).length :=
            hov
          omega
        obtain ⟨hs1, hs2, hs3, hs4, hs5⟩ := wfIn_split (d := sep) hw _ hmidlt
        simp only [wfRes, wfB, entriesRes, entriesB]
        refine ⟨⟨hs1, hs2, hs3, hs4⟩, ?_⟩
        rw [← he, hs5]
      · rw [if_neg hov]
        simp only [wfRes, wfB, entriesRes, entriesB]
        exact ⟨hw, he⟩

/-- A fresh tree is well-formed. -/
theorem wfT_empty : wfT (BPlusTree.empty K V) := by
  simp only [wfT, BPlusTree.empty, wfB]
  exact ⟨by simp, by simp⟩

/-- Root-level insertion: well-formedness and the canonical insertion on the
entry list (a root split grows a well-formed two-child root). -/
theorem tinsert_ok {t : BPlusTree K V} (hw : wfT t) (k : K) (v : V) :
    wfT (t.insert k v) ∧ entriesT (t.insert k v) = insEntry (entriesT t) k v := by
  obtain ⟨hres, hent⟩ := insertB_ok t.height none none t.root hw k v
    True.intro True.intro
  unfold wfT entriesT BPlusTree.insert
  cases hcase : insertB t.height t.root k v with
  | one r =>
    rw [hcase] at hres hent
    simp only [wfRes] at hres
    simp only [entriesRes] at hent
    exact ⟨hres, hent⟩
  | split l sep r =>
    rw [hcase] at hres hent
    obtain ⟨hl, hr, _, _⟩ := hres
    simp only [entriesRes] at hent
    constructor
    · simp only [wfB, wfIn]
      exact ⟨l, [r], rfl, True.intro, True.intro, hl, r, rfl, hr⟩
    · simp only [entriesB]
      simpa using hent

/-- Root-level deletion: well-formedness and entry-list effect. -/
theorem tdel_ok {t : BPlusTree K V} (hw : wfT t) (k : K) :
    wfT (t.del k) ∧ entriesT (t.del k) = (entriesT t).eraseP (fun e => e.1 = k) :=
  deleteB_ok t.height none none t.root hw k

/-- Tree search equals the association lookup on the in-order entries. -/
theorem tsearch_eq {t : BPlusTree K V} (hw : wfT t) (k : K) :
    t.search k = dictGetD (entriesT t) k :=
  searchB_eq t.height none none t.root hw k

/-- Tree key-membership test. -/
theorem tcontains_iff {t : BPlusTree K V} (hw : wfT t) (k : K) :
    containsB t.height t.root k = true ↔ k ∈ (entriesT t).map Prod.fst :=
  containsB_iff t.height none none t.root hw k

/-- Lookup in an entry list that misses the key. -/
theorem dictGetD_eq_nil_of_not_mem {d : List (K × List V)} {k : K}
    (hmem : k ∉ d.map Prod.fst) : dictGetD d k = [] := by
  have hnone : d.find? (fun e => e.1 = k) = none := by
    rw [List.find?_eq_none]
    intro e he heq
    exact hmem ((by simpa using heq : e.1 = k) ▸ List.mem_map_of_mem Prod.fst he)
  simp [dictGetD, hnone]

/-- Folding `BPlusTree.insert` over a value list: well-formedness, the value
lists at the inserted key accumulate, other keys are untouched, and no key
outside the original set plus `k` appears. -/
theorem tfoldl_ins (vs : List V) :
    ∀ (t : BPlusTree K V), wfT t → ∀ (k : K),
    wfT (vs.foldl (fun acc v => acc.insert k v) t) ∧
    dictGetD (entriesT (vs.foldl (fun acc v => acc.insert k v) t)) k
      = dictGetD (entriesT t) k ++ vs ∧
    (∀ k', k' ≠ k →
      dictGetD (entriesT (vs.foldl (fun acc v => acc.insert k v) t)) k'
        = dictGetD (entriesT t) k') ∧
    (∀ k', k' ∈ (entriesT (vs.foldl (fun acc v => acc.insert k v) t)).map Prod.fst
      → k' ∈ (entriesT t).map Prod.fst ∨ k' = k) := by
  induction vs with
  | nil =>
    intro t hw k
    exact ⟨hw, by simp, fun _ _ => rfl, fun k' h => Or.inl h⟩
  | cons v vs ih =>
    intro t hw k
    obtain ⟨hw1, he1⟩ := tinsert_ok hw k v
    obtain ⟨ihw, ihself, ihother, ihsub⟩ := ih (t.insert k v) hw1 k
    have hsort : List.Pairwise (· < ·) ((entriesT t).map Prod.fst) :=
      entriesB_sorted t.height none none t.root hw
    refine ⟨ihw, ?_, ?_, ?_⟩
    · rw [List.foldl_cons, ihself, he1, dictGetD_insEntry_self hsort,
        List.append_assoc, List.singleton_append]
    · intro k' hk'
      rw [List.foldl_cons, ihother k' hk', he1, dictGetD_insEntry_other hk']
    · intro k' hk'
      rw [List.foldl_cons] at hk'
      rcases ihsub k' hk' with h | h
      · rw [he1] at h
        exact insEntry_fst_subset h
      · exact Or.inr h

/-- The `any` test of `dictSet` is key membership. -/
theorem any_key_iff {d : List (K × List V)} {k : K} :
    d.any (fun e => e.1 = k) = true ↔ k ∈ d.map Prod.fst := by
  simp only [List.any_eq_true, decide_eq_true_eq, List.mem_map]

/-- In-place overwrite: lookup at the overwritten key. -/
theorem dictGetD_mapSet_self {d : List (K × List V)} {k : K} {vs : List V}
    (hmem : k ∈ d.map Prod.fst) :
    dictGetD (d.map (fun e => if e.1 = k then (k, vs) else e)) k = vs := by
  induction d with
  | nil => simp at hmem
  | cons e rest ih =>
    simp only [List.map_cons]
    by_cases he : e.1 = k
    · rw [if_pos he]
      exact dictGetD_cons_self rfl
    · rw [if_neg he, dictGetD_cons_other he]
      refine ih ?_
      rw [List.map_cons] at hmem
      rcases List.mem_cons.mp hmem with h | h
      · exact absurd h.symm he
      · exact h

/-- In-place overwrite: lookup at other keys. -/
theorem dictGetD_mapSet_other {d : List (K × List V)} {k k' : K} {vs : List V}
    (hne : k' ≠ k) :
    dictGetD (d.map (fun e => if e.1 = k then (k, vs) else e)) k'
      = dictGetD d k' := by
  induction d with
  | nil => rfl
  | cons e rest ih =>
    simp only [List.map_cons]
    by_cases he : e.1 = k
    · rw [if_pos he]
      have h1 : ¬ (k, vs).1 = k' := fun h => hne h.symm
      have h2 : ¬ e.1 = k' := fun h => hne (h.symm.trans he)
      rw [dictGetD_cons_other h1, dictGetD_cons_other h2]
      exact ih
    · rw [if_neg he]
      by_cases he' : e.1 = k'
      · rw [dictGetD_cons_self he', dictGetD_cons_self he']
      · rw [dictGetD_cons_other he', dictGetD_cons_other he']
        exact ih

/-- Python-dict lemma: `data[k] = vs` then `data.get(k, [])` yields `vs`. -/
theorem dictGetD_dictSet_self {d : List (K × List V)} {k : K} {vs : List V} :
    dictGetD (dictSet d k vs) k = vs := by
  unfold dictSet
  by_cases hany : d.any (fun e => e.1 = k)
  · rw [if_pos hany]
    exact dictGetD_mapSet_self (any_key_iff.mp hany)
  · rw [if_neg hany]
    have hfree : ∀ e ∈ d, e.1 ≠ k := by
      intro e he heq
      exact hany (any_key_iff.mpr (heq ▸ List.mem_map_of_mem Prod.fst he))
    rw [dictGetD_append_left hfree]
    exact dictGetD_cons_self rfl

/-- `data[k] = vs` leaves other keys' lookups unchanged. -/
theorem dictGetD_dictSet_other {d : List (K × List V)} {k k' : K} {vs : List V}
    (hne : k' ≠ k) : dictGetD (dictSet d k vs) k' = dictGetD d k' := by
  unfold dictSet
  by_cases hany : d.any (fun e => e.1 = k)
  · rw [if_pos hany]
    exact dictGetD_mapSet_other hne
  · rw [if_neg hany]
    rw [dictGetD_append_right (fun e he => by
      simp only [List.mem_singleton] at he
      rw [he]
      exact fun h => hne h.symm)]

/-- Keys are untouched by the in-place overwrite map. -/
theorem mapSet_fst {d : List (K × List V)} {k : K} {vs : List V} :
    (d.map (fun e => if e.1 = k then (k, vs) else e)).map Prod.fst
      = d.map Prod.fst := by
  induction d with
  | nil => rfl
  | cons e rest ih =>
    simp only [List.map_cons]
    by_cases he : e.1 = k
    · rw [if_pos he]
      simp only [List.map_cons, ih]
      rw [he]
    · rw [if_neg he]
      simp only [List.map_cons, ih]

/-- Key sequence of `data[k] = vs` when the key is present: unchanged. -/
theorem dictSet_fst_of_mem {d : List (K × List V)} {k : K} {vs : List V}
    (hmem : k ∈ d.map Prod.fst) :
    (dictSet d k vs).map Prod.fst = d.map Prod.fst := by
  unfold dictSet
  rw [if_pos (any_key_iff.mpr hmem)]
  exact mapSet_fst

/-- Key sequence of `data[k] = vs` when the key is absent: appended at the
end. -/
theorem dictSet_fst_of_not_mem {d : List (K × List V)} {k : K} {vs : List V}
    (hmem : k ∉ d.map Prod.fst) :
    (dictSet d k vs).map Prod.fst = d.map Prod.fst ++ [k] := by
  unfold dictSet
  rw [if_neg (fun h => hmem (any_key_iff.mp h))]
  simp

/-- `data[k] = vs` preserves distinctness of the keys. -/
theorem dictSet_nodup {d : List (K × List V)} {k : K} {vs : List V}
    (hnd : (d.map Prod.fst).Nodup) : ((dictSet d k vs).map Prod.fst).Nodup := by
  by_cases hmem : k ∈ d.map Prod.fst
  · rw [dictSet_fst_of_mem hmem]
    exact hnd
  · rw [dictSet_fst_of_not_mem hmem]
    refine List.Nodup.append hnd (by simp) ?_
    intro a ha hb
    rw [List.mem_singleton] at hb
    exact hmem (hb ▸ ha)

/-- After `data[k] = vs` the key is present. -/
theorem dictSet_mem_self {d : List (K × List V)} {k : K} {vs : List V} :
    k ∈ (dictSet d k vs).map Prod.fst := by
  by_cases hmem : k ∈ d.map Prod.fst
  · rw [dictSet_fst_of_mem hmem]
    exact hmem
  · rw [dictSet_fst_of_not_mem hmem]
    simp

/-- `data[k] = vs` keeps every previously present key. -/
theorem dictSet_mem_of_mem {d : List (K × List V)} {k k' : K} {vs : List V}
    (h : k' ∈ d.map Prod.fst) : k' ∈ (dictSet d k vs).map Prod.fst := by
  by_cases hmem : k ∈ d.map Prod.fst
  · rw [dictSet_fst_of_mem hmem]
    exact h
  · rw [dictSet_fst_of_not_mem hmem]
    exact List.mem_append_left _ h

/-- Deleting a key: its lookup becomes empty (distinct keys). -/
theorem dictGetD_dictDelete_self {d : List (K × List V)} {k : K}
    (hnd : (d.map Prod.fst).Nodup) : dictGetD (dictDelete d k) k = [] := by
  induction d with
  | nil => rfl
  | cons e rest ih =>
    by_cases he : e.1 = k
    · rw [dictDelete, List.eraseP_cons_of_pos (by simpa using he)]
      refine dictGetD_eq_nil_of_not_mem ?_
      rw [List.map_cons] at hnd
      have := (List.nodup_cons.mp hnd).1
      rwa [he] at this
    · rw [dictDelete, List.eraseP_cons_of_neg (by simpa using he)]
      rw [dictGetD_cons_other he]
      exact ih (by rw [List.map_cons] at hnd; exact (List.nodup_cons.mp hnd).2)

/-- Deleting a key leaves other keys' lookups unchanged. -/
theorem dictGetD_dictDelete_other {d : List (K × List V)} {k k' : K}
    (hne : k' ≠ k) : dictGetD (dictDelete d k) k' = dictGetD d k' := by
  induction d with
  | nil => rfl
  | cons e rest ih =>
    by_cases he : e.1 = k
    · rw [dictDelete, List.eraseP_cons_of_pos (by simpa using he)]
      rw [dictGetD_cons_other (fun h => hne (h.symm.trans he))]
    · rw [dictDelete, List.eraseP_cons_of_neg (by simpa using he)]
      by_cases he' : e.1 = k'
      · rw [dictGetD_cons_self he', dictGetD_cons_self he']
      · rw [dictGetD_cons_other he', dictGetD_cons_other he']
        exact ih

/-- Deletion keeps key distinctness. -/
theorem dictDelete_nodup {d : List (K × List V)} {k : K}
    (hnd : (d.map Prod.fst).Nodup) : ((dictDelete d k).map Prod.fst).Nodup :=
  hnd.sublist (List.Sublist.map _ (List.eraseP_sublist _))

/-- Deletion keeps every other key. -/
theorem dictDelete_mem_of_mem {d : List (K × List V)} {k k' : K}
    (hne : k' ≠ k) (h : k' ∈ d.map Prod.fst) :
    k' ∈ (dictDelete d k).map Prod.fst := by
  induction d with
  | nil => simp at h
  | cons e rest ih =>
    by_cases he : e.1 = k
    · rw [dictDelete, List.eraseP_cons_of_pos (by simpa using he)]
      rw [List.map_cons] at h
      rcases List.mem_cons.mp h with rfl | h
      · exact absurd he hne
      · exact h
    · rw [dictDelete, List.eraseP_cons_of_neg (by simpa using he)]
      rw [List.map_cons] at h ⊢
      rcases List.mem_cons.mp h with rfl | h
      · simp
      · exact List.mem_cons_of_mem _ (ih h)

/-- Erasing a key's entry removes that key entirely (distinct keys). -/
theorem eraseP_key_not_mem {es : List (K × List V)} {k : K}
    (hnd : (es.map Prod.fst).Nodup) :
    k ∉ ((es.eraseP (fun e => e.1 = k)).map Prod.fst) := by
  induction es with
  | nil => simp
  | cons e rest ih =>
    rw [List.map_cons] at hnd
    by_cases he : e.1 = k
    · rw [List.eraseP_cons_of_pos (by simpa using he)]
      intro hmem
      exact absurd (he ▸ hmem) (List.nodup_cons.mp hnd).1
    · rw [List.eraseP_cons_of_neg (by simpa using he), List.map_cons]
      intro hmem
      rcases List.mem_cons.mp hmem with h | h
      · exact he h.symm
      · exact ih (List.nodup_cons.mp hnd).2 h

/-- A fresh `LocalStorage` satisfies the dual-store invariant. -/
theorem sinv_empty : SInv (LocalStorage.empty K V) := by
  refine ⟨by simp [LocalStorage.empty], wfT_empty, fun k => rfl, ?_⟩
  intro k hk
  simp [LocalStorage.empty, entriesT, BPlusTree.empty, entriesB] at hk

/-- `put` preserves the dual-store invariant. -/
theorem sinv_put {s : LocalStorage K V} (hs : SInv s) (k : K) (v : V) :
    SInv (s.put k v) := by
  obtain ⟨hnd, hw, hpt, hsub⟩ := hs
  obtain ⟨hw', he'⟩ := tinsert_ok hw k v
  have hsort : List.Pairwise (· < ·) ((entriesT s.btree).map Prod.fst) :=
    entriesB_sorted s.btree.height none none s.btree.root hw
  refine ⟨dictSet_nodup hnd, hw', ?_, ?_⟩
  · intro k'
    show dictGetD (entriesT (s.btree.insert k v)) k'
      = dictGetD (dictSet s.data k (dictGetD s.data k ++ [v])) k'
    by_cases hk : k' = k
    · subst hk
      rw [he', dictGetD_insEntry_self hsort, hpt k', dictGetD_dictSet_self]
    · rw [he', dictGetD_insEntry_other hk, hpt k', dictGetD_dictSet_other hk]
  · intro k' hk'
    show k' ∈ (dictSet s.data k (dictGetD s.data k ++ [v])).map Prod.fst
    rw [show entriesT ((s.put k v).btree) = entriesT (s.btree.insert k v) from rfl,
      he'] at hk'
    rcases insEntry_fst_subset hk' with h | rfl
    · exact dictSet_mem_of_mem (hsub k' h)
    · exact dictSet_mem_self

/-- `delete` preserves the dual-store invariant. -/
theorem sinv_del {s : LocalStorage K V} (hs : SInv s) (k : K) :
    SInv (s.del k) := by
  obtain ⟨hnd, hw, hpt, hsub⟩ := hs
  obtain ⟨hw', he'⟩ := tdel_ok hw k
  have hsort : List.Pairwise (· < ·) ((entriesT s.btree).map Prod.fst) :=
    entriesB_sorted s.btree.height none none s.btree.root hw
  have hndT : ((entriesT s.btree).map Prod.fst).Nodup :=
    hsort.imp ne_of_lt
  have he2 : entriesT (s.btree.del k) = dictDelete (entriesT s.btree) k := he'
  refine ⟨dictDelete_nodup hnd, hw', ?_, ?_⟩
  · intro k'
    show dictGetD (entriesT (s.btree.del k)) k' = dictGetD (dictDelete s.data k) k'
    by_cases hk : k' = k
    · subst hk
      rw [he2, dictGetD_dictDelete_self hndT, dictGetD_dictDelete_self hnd]
    · rw [he2, dictGetD_dictDelete_other hk, hpt k', dictGetD_dictDelete_other hk]
  · intro k' hk'
    show k' ∈ (dictDelete s.data k).map Prod.fst
    rw [show entriesT ((s.del k).btree) = entriesT (s.btree.del k) from rfl,
      he'] at hk'
    have hne : k' ≠ k := by
      intro h
      subst h
      exact eraseP_key_not_mem hndT hk'
    obtain ⟨e, he3, rfl⟩ := List.mem_map.mp hk'
    have : e ∈ entriesT s.btree := List.mem_of_mem_eraseP he3
    exact dictDelete_mem_of_mem hne (hsub e.1 (List.mem_map_of_mem _ this))

/-- `update` preserves the dual-store invariant. -/
theorem sinv_upd {s : LocalStorage K V} (hs : SInv s) (k : K) (vs : List V) :
    SInv (s.update k vs) := by
  obtain ⟨hnd, hw, hpt, hsub⟩ := hs
  by_cases hc : containsB s.btree.height s.btree.root k = true
  · have hkmem : k ∈ (entriesT s.btree).map Prod.fst := (tcontains_iff hw k).mp hc
    have hupd : s.btree.update k vs
        = ⟨s.btree.height, setValuesB s.btree.height s.btree.root k vs⟩ := by
      simp [BPlusTree.update, hc]
    obtain ⟨hw', he'⟩ := setValuesB_ok s.btree.height none none s.btree.root hw k vs
    refine ⟨dictSet_nodup hnd, ?_, ?_, ?_⟩
    · show wfT (s.btree.update k vs)
      rw [hupd]
      exact hw'
    · intro k'
      have hkmem' : k ∈ (entriesB s.btree.height s.btree.root).map Prod.fst :=
        hkmem
      have hpt' : dictGetD (entriesB s.btree.height s.btree.root) k'
          = dictGetD s.data k' := hpt k'
      show dictGetD (entriesT (s.btree.update k vs)) k'
        = dictGetD (dictSet s.data k vs) k'
      rw [hupd]
      show dictGetD (entriesB s.btree.height
        (setValuesB s.btree.height s.btree.root k vs)) k' = _
      rw [he']
      by_cases hk : k' = k
      · subst hk
        rw [dictGetD_setValuesAtKey_self hkmem', dictGetD_dictSet_self]
      · rw [dictGetD_setValuesAtKey_other hk, hpt', dictGetD_dictSet_other hk]
    · intro k' hk'
      show k' ∈ (dictSet s.data k vs).map Prod.fst
      rw [show entriesT ((s.update k vs).btree) = entriesT (s.btree.update k vs)
        from rfl, hupd] at hk'
      have hk2 : k' ∈ (setValuesAtKey (entriesB s.btree.height s.btree.root)
          k vs).map Prod.fst := by
        rw [← he']
        exact hk'
      rw [setValuesAtKey_fst] at hk2
      exact dictSet_mem_of_mem (hsub k' hk2)
  · have hkmem : k ∉ (entriesT s.btree).map Prod.fst :=
      fun h => hc ((tcontains_iff hw k).mpr h)
    have hupd : s.btree.update k vs
        = vs.foldl (fun acc v => acc.insert k v) s.btree := by
      simp [BPlusTree.update, hc]
    obtain ⟨hw', hself, hother, hsubT⟩ := tfoldl_ins vs s.btree hw k
    refine ⟨dictSet_nodup hnd, ?_, ?_, ?_⟩
    · show wfT (s.btree.update k vs)
      rw [hupd]
      exact hw'
    · intro k'
      show dictGetD (entriesT (s.btree.update k vs)) k'
        = dictGetD (dictSet s.data k vs) k'
      rw [hupd]
      by_cases hk : k' = k
      · subst hk
        rw [hself, dictGetD_eq_nil_of_not_mem hkmem, dictGetD_dictSet_self,
          List.nil_append]
      · rw [hother k' hk, hpt k', dictGetD_dictSet_other hk]
    · intro k' hk'
      show k' ∈ (dictSet s.data k vs).map Prod.fst
      rw [show entriesT ((s.update k vs).btree) = entriesT (s.btree.update k vs)
        from rfl, hupd] at hk'
      rcases hsubT k' hk' with h | rfl
      · exact dictSet_mem_of_mem (hsub k' h)
      · exact dictSet_mem_self

/-- Every operation preserves the dual-store invariant. -/
theorem sinv_step {s : LocalStorage K V} (hs : SInv s) (op : StOp K V) :
    SInv (applyStOp s op) := by
  cases op with
  | put k v => exact sinv_put hs k v
  | del k => exact sinv_del hs k
  | upd k vs => exact sinv_upd hs k vs

/-- Any operation sequence from the fresh store keeps the invariant. -/
theorem sinv_applyStOps (ops : List (StOp K V)) :
    ∀ {s : LocalStorage K V}, SInv s → SInv (applyStOps s ops) := by
  induction ops with
  | nil => intro s hs; exact hs
  | cons op ops ih =>
    intro s hs
    exact ih (sinv_step hs op)

/-- C10: dual-store consistency of `LocalStorage` — after any sequence of
`put`, `delete` and `update` operations on a fresh store, the B+ tree and the
backing dictionary agree: for every key, `btree.search(k)` returns the same
value list as `data.get(k, [])`. -/
theorem localStorage_dual_store_agree {K V : Type} [LinearOrder K]
    (ops : List (StOp K V)) (k : K) :
    (applyStOps (LocalStorage.empty K V) ops).btree.search k
      = dictGetD (applyStOps (LocalStorage.empty K V) ops).data k := by
  obtain ⟨hnd, hw, hpt, hsub⟩ := sinv_applyStOps ops sinv_empty
  rw [tsearch_eq hw k]
  exact hpt k

/-- C9 counterexample: two `put`s in descending key order leave
`LocalStorage.get_all_keys` (the dict's keys, insertion-ordered) unsorted. -/
theorem getAllKeys_not_sorted_counterexample :
    (applyStOps (LocalStorage.empty Nat Nat)
        [.put 1 10, .put 0 20]).getAllKeys = [1, 0]
      ∧ ¬ List.Pairwise (· ≤ ·) ((applyStOps (LocalStorage.empty Nat Nat)
        [.put 1 10, .put 0 20]).getAllKeys) := by
  constructor
  · rfl
  · decide

/-- C9 (amended): after any sequence of `put`, `delete` and `update`
operations, `LocalStorage.get_all_keys` returns every stored key exactly once
— but in dictionary insertion order, not sorted; the B+ tree's own
`get_all_keys` (the leaf chain) is strictly ascending, and every tree key is
among the stored keys. -/
theorem getAllKeys_exactly_once {K V : Type} [LinearOrder K]
    (ops : List (StOp K V)) :
    (applyStOps (LocalStorage.empty K V) ops).getAllKeys.Nodup
      ∧ List.Pairwise (· < ·)
        (applyStOps (LocalStorage.empty K V) ops).btree.allKeys
      ∧ ∀ k ∈ (applyStOps (LocalStorage.empty K V) ops).btree.allKeys,
        k ∈ (applyStOps (LocalStorage.empty K V) ops).getAllKeys := by
  obtain ⟨hnd, hw, hpt, hsub⟩ := sinv_applyStOps ops sinv_empty
  exact ⟨hnd, entriesB_sorted _ none none _ hw, hsub⟩

end StorageProofs

/-- C6: `_in_range` agrees with clockwise-arc membership on all identifiers
below `2^m` (here: below any `maxVal`), for every combination of the two
inclusivity flags; for `lo = hi` it returns `incLo ∨ incHi` regardless of `v`. -/
theorem inRange_eq_arcMember (maxVal v lo hi : Nat) (incLo incHi : Bool)
    (hv : v < maxVal) (hlo : lo < maxVal) (hhi : hi < maxVal) :
    (inRange v lo hi incLo incHi = true ↔ arcMember maxVal v lo hi incLo incHi)
      ∧ (lo = hi → (inRange v lo hi incLo incHi = (incLo || incHi))) := by
  constructor
  · unfold inRange arcMember distanceClockwise
    rcases incLo <;> rcases incHi <;>
      split_ifs <;> simp_all <;> omega
  · intro h; subst h; simp [inRange]

/-- Witness for C6 at concrete identifiers. -/
theorem inRange_eq_arcMember_witness :
    (inRange 3 6 2 false true = true ↔ arcMember 8 3 6 2 false true)
      ∧ (6 = 2 → (inRange 3 6 2 false true = (false || true))) :=
  inRange_eq_arcMember 8 3 6 2 false true (by decide) (by decide) (by decide)

section ChordProofs

variable {A : Type}

theorem assocFind_cons_self {a : Nat × A} {d : List (Nat × A)} {k : Nat}
    (h : a.1 = k) : assocFind (a :: d) k = some a.2 := by
  unfold assocFind
  rw [List.find?_cons_of_pos _ (by simpa using h)]
  rfl

theorem assocFind_cons_other {a : Nat × A} {d : List (Nat × A)} {k : Nat}
    (h : a.1 ≠ k) : assocFind (a :: d) k = assocFind d k := by
  unfold assocFind
  rw [List.find?_cons_of_neg _ (by simpa using h)]

theorem assocFind_mem {d : List (Nat × A)} {k : Nat} {v : A}
    (h : assocFind d k = some v) : (k, v) ∈ d := by
  induction d with
  | nil => simp [assocFind] at h
  | cons a rest ih =>
    by_cases hak : a.1 = k
    · rw [assocFind_cons_self hak] at h
      have : a = (k, v) := by
        rcases a with ⟨a1, a2⟩; simp_all
      rw [← this]
      exact List.mem_cons_self a rest
    · rw [assocFind_cons_other hak] at h
      exact List.mem_cons_of_mem a (ih h)

theorem assocFind_eq_none {d : List (Nat × A)} {k : Nat} :
    assocFind d k = none ↔ k ∉ d.map Prod.fst := by
  induction d with
  | nil => simp [assocFind]
  | cons a rest ih =>
    by_cases hak : a.1 = k
    · rw [assocFind_cons_self hak]
      simp [← hak]
    · rw [assocFind_cons_other hak]
      simp only [List.map_cons, List.mem_cons]
      rw [ih]
      constructor
      · rintro h (h1 | h2)
        · exact hak h1.symm
        · exact h h2
      · intro h h2
        exact h (Or.inr h2)

theorem assocFind_of_mem_keys {d : List (Nat × A)} {k : Nat}
    (h : k ∈ d.map Prod.fst) : ∃ v, assocFind d k = some v := by
  rcases ho : assocFind d k with _ | v
  · exact absurd (assocFind_eq_none.mp ho) (by simpa using h)
  · exact ⟨v, rfl⟩

theorem assocHas_iff {d : List (Nat × A)} {k : Nat} :
    assocHas d k = true ↔ k ∈ d.map Prod.fst := by
  unfold assocHas
  simp only [List.any_eq_true, decide_eq_true_eq, List.mem_map]

theorem mem_assocSet {d : List (Nat × A)} {k : Nat} {v : A} {p : Nat × A}
    (h : p ∈ assocSet d k v) : p = (k, v) ∨ (p ∈ d ∧ p.1 ≠ k) := by
  unfold assocSet at h
  split at h
  · rcases List.mem_map.mp h with ⟨q, hq, he⟩
    by_cases hqk : q.1 = k
    · rw [if_pos hqk] at he; left; exact he.symm
    · rw [if_neg hqk] at he; right; rw [← he]; exact ⟨hq, hqk⟩
  · rcases List.mem_append.mp h with hmem | hmem
    · right
      refine ⟨hmem, fun hk => ?_⟩
      rename_i hhas
      exact hhas (assocHas_iff.mpr (List.mem_map.mpr ⟨p, hmem, hk⟩))
    · left; simpa using hmem

theorem assocSet_keys_of_mem {d : List (Nat × A)} {k : Nat} {v : A}
    (h : k ∈ d.map Prod.fst) :
    (assocSet d k v).map Prod.fst = d.map Prod.fst := by
  unfold assocSet
  rw [if_pos (assocHas_iff.mpr h), List.map_map]
  apply List.map_congr_left
  intro e _
  by_cases hek : e.1 = k <;> simp [hek]

theorem find_mapReplace_self {k : Nat} {v : A} :
    ∀ {d : List (Nat × A)}, k ∈ d.map Prod.fst →
    assocFind (d.map (fun e => if e.1 = k then (k, v) else e)) k = some v := by
  intro d
  induction d with
  | nil => intro h; simp at h
  | cons a rest ih =>
    intro h
    by_cases hak : a.1 = k
    · rw [List.map_cons, if_pos hak]
      exact assocFind_cons_self rfl
    · rw [List.map_cons, if_neg hak, assocFind_cons_other hak]
      apply ih
      simp only [List.map_cons, List.mem_cons] at h
      rcases h with h | h
      · exact absurd h.symm hak
      · exact h

theorem find_append_self {k : Nat} {v : A} :
    ∀ {d : List (Nat × A)}, k ∉ d.map Prod.fst →
    assocFind (d ++ [(k, v)]) k = some v := by
  intro d
  induction d with
  | nil => intro _; exact assocFind_cons_self rfl
  | cons a rest ih =>
    intro h
    simp only [List.map_cons, List.mem_cons] at h
    push_neg at h
    rw [List.cons_append, assocFind_cons_other (fun he => h.1 he.symm)]
    exact ih h.2

theorem assocFind_assocSet_self {d : List (Nat × A)} {k : Nat} {v : A} :
    assocFind (assocSet d k v) k = some v := by
  unfold assocSet
  split
  · rename_i hhas
    exact find_mapReplace_self (assocHas_iff.mp hhas)
  · rename_i hhas
    exact find_append_self (fun hm => hhas (assocHas_iff.mpr hm))

theorem find_mapReplace_other {k k' : Nat} {v : A} (hne : k' ≠ k) :
    ∀ {d : List (Nat × A)},
    assocFind (d.map (fun e => if e.1 = k then (k, v) else e)) k' =
      assocFind d k' := by
  intro d
  induction d with
  | nil => rfl
  | cons a rest ih =>
    by_cases hak : a.1 = k
    · rw [List.map_cons, if_pos hak]
      rw [assocFind_cons_other (fun he => hne he.symm)]
      rw [assocFind_cons_other (fun he => hne (hak ▸ he).symm)]
      exact ih
    · rw [List.map_cons, if_neg hak]
      by_cases hak' : a.1 = k'
      · rw [assocFind_cons_self hak', assocFind_cons_self hak']
      · rw [assocFind_cons_other hak', assocFind_cons_other hak']
        exact ih

theorem find_append_other {k k' : Nat} {v : A} (hne : k' ≠ k) :
    ∀ {d : List (Nat × A)},
    assocFind (d ++ [(k, v)]) k' = assocFind d k' := by
  intro d
  induction d with
  | nil =>
    rw [List.nil_append, assocFind_cons_other (fun he => hne he.symm)]
  | cons a rest ih =>
    by_cases hak' : a.1 = k'
    · rw [List.cons_append, assocFind_cons_self hak', assocFind_cons_self hak']
    · rw [List.cons_append, assocFind_cons_other hak', assocFind_cons_other hak']
      exact ih

theorem assocFind_assocSet_other {d : List (Nat × A)} {k k' : Nat} {v : A}
    (hne : k' ≠ k) : assocFind (assocSet d k v) k' = assocFind d k' := by
  unfold assocSet
  split
  · exact find_mapReplace_other hne
  · exact find_append_other hne

theorem assocSet_nodup {d : List (Nat × A)} {k : Nat} {v : A}
    (h : (d.map Prod.fst).Nodup) : ((assocSet d k v).map Prod.fst).Nodup := by
  by_cases hhas : k ∈ d.map Prod.fst
  · rw [assocSet_keys_of_mem hhas]; exact h
  · unfold assocSet
    rw [if_neg (fun hh => hhas (assocHas_iff.mp hh))]
    rw [List.map_append]
    simp only [List.map_cons, List.map_nil]
    rw [List.nodup_append]
    refine ⟨h, List.nodup_singleton k, ?_⟩
    intro a ha hb
    simp only [List.mem_singleton] at hb
    subst hb
    exact hhas ha


/-! ### Sorted id lists and the static successor -/

theorem sortedIds_perm {K V : Type} (st : ChordSt K V) :
    (sortedIds st).Perm (st.nodes.map Prod.fst) :=
  List.perm_insertionSort _ _

theorem sortedIds_sorted {K V : Type} (st : ChordSt K V) :
    (sortedIds st).Pairwise (· ≤ ·) :=
  List.sorted_insertionSort _ _

theorem mem_sortedIds {K V : Type} {st : ChordSt K V} {y : Nat} :
    y ∈ sortedIds st ↔ y ∈ st.nodes.map Prod.fst :=
  (sortedIds_perm st).mem_iff

theorem sortedIds_lt {K V : Type} {st : ChordSt K V}
    (hnd : (st.nodes.map Prod.fst).Nodup) :
    (sortedIds st).Pairwise (· < ·) := by
  have h1 := sortedIds_sorted st
  have h2 : (sortedIds st).Nodup := ((sortedIds_perm st).nodup_iff).mpr hnd
  exact (h1.and h2).imp (fun h => lt_of_le_of_ne h.1 h.2)

theorem sortedIds_ne_nil {K V : Type} {st : ChordSt K V}
    (h : st.nodes ≠ []) : sortedIds st ≠ [] := by
  intro he
  have hp := sortedIds_perm st
  rw [he] at hp
  have := List.perm_nil.mp hp.symm
  simp only [List.map_eq_nil] at this
  exact h this

theorem findSuccessorStatic_mem {l : List Nat} (h : l ≠ []) (t : Nat) :
    findSuccessorStatic t l ∈ l := by
  unfold findSuccessorStatic
  rcases hf : l.find? (fun nid => decide (t ≤ nid)) with _ | y
  · cases l with
    | nil => exact absurd rfl h
    | cons a rest => exact List.mem_cons_self a rest
  · exact List.mem_of_find?_eq_some hf

theorem find?_ge_bound {l : List Nat} {t s : Nat}
    (hf : l.find? (fun nid => decide (t ≤ nid)) = some s) : t ≤ s := by
  have := List.find?_some hf
  simpa using this

theorem find?_ge_min {l : List Nat} (hs : l.Pairwise (· ≤ ·)) {t s : Nat}
    (hf : l.find? (fun nid => decide (t ≤ nid)) = some s) :
    ∀ y ∈ l, t ≤ y → s ≤ y := by
  induction l with
  | nil => simp at hf
  | cons a rest ih =>
    intro y hy hty
    by_cases hta : t ≤ a
    · rw [List.find?_cons_of_pos _ (by simpa using hta)] at hf
      simp only [Option.some.injEq] at hf
      subst hf
      rcases List.mem_cons.mp hy with rfl | hy'
      · exact le_refl y
      · exact (List.pairwise_cons.mp hs).1 y hy'
    · rw [List.find?_cons_of_neg _ (by simpa using hta)] at hf
      rcases List.mem_cons.mp hy with rfl | hy'
      · exact absurd hty hta
      · exact ih (List.pairwise_cons.mp hs).2 hf y hy' hty

theorem find?_ge_none {l : List Nat} {t : Nat}
    (hf : l.find? (fun nid => decide (t ≤ nid)) = none) :
    ∀ y ∈ l, y < t := by
  intro y hy
  have := List.find?_eq_none.mp hf y hy
  simpa using this

theorem headD_min {l : List Nat} (hs : l.Pairwise (· ≤ ·)) :
    ∀ y ∈ l, l.headD 0 ≤ y := by
  cases l with
  | nil => simp
  | cons a rest =>
    intro y hy
    rcases List.mem_cons.mp hy with rfl | hy'
    · exact le_refl y
    · exact (List.pairwise_cons.mp hs).1 y hy'

/-- `_find_successor_static` returns the element at minimal clockwise
distance from the target. -/
theorem static_argmin {M : Nat} {l : List Nat} (hs : l.Pairwise (· ≤ ·))
    (hl : l ≠ []) (hbd : ∀ y ∈ l, y < M) {t : Nat} (ht : t < M) :
    ∀ y ∈ l, distanceClockwise t (findSuccessorStatic t l) M ≤
      distanceClockwise t y M := by
  intro y hy
  have hyM := hbd y hy
  rcases hf : l.find? (fun nid => decide (t ≤ nid)) with _ | s
  · have hstat : findSuccessorStatic t l = l.headD 0 := by
      unfold findSuccessorStatic; rw [hf]
    rw [hstat]
    have hytt := find?_ge_none hf y hy
    have hh := headD_min hs y hy
    have hhd : l.headD 0 ∈ l := by
      cases l with
      | nil => exact absurd rfl hl
      | cons a rest => exact List.mem_cons_self a rest
    have hhM := hbd _ hhd
    have hht := find?_ge_none hf _ hhd
    unfold distanceClockwise
    split_ifs <;> omega
  · have hstat : findSuccessorStatic t l = s := by
      unfold findSuccessorStatic; rw [hf]
    rw [hstat]
    have hts := find?_ge_bound hf
    have hsM := hbd s (List.mem_of_find?_eq_some hf)
    by_cases hty : t ≤ y
    · have := find?_ge_min hs hf y hy hty
      unfold distanceClockwise
      split_ifs <;> omega
    · unfold distanceClockwise
      split_ifs <;> omega

/-- Clockwise distance is injective on identifiers below the modulus. -/
theorem distanceClockwise_inj {M a x y : Nat} (hx : x < M) (hy : y < M)
    (h : distanceClockwise a x M = distanceClockwise a y M) : x = y := by
  unfold distanceClockwise at h
  split_ifs at h <;> omega


/-- `ring_succ` (the `sorted[(i+1) % n]` assignment of `Chord.build`) is the
live peer minimising the clockwise distance from `n`, with the full loop
ranking `n` itself last. -/
theorem ringSuccOf_spec {M : Nat} {l : List Nat} (hlt : l.Pairwise (· < ·))
    (hbd : ∀ y ∈ l, y < M) {n : Nat} (hn : n ∈ l) :
    ringSuccOf l n ∈ l ∧ ∀ y ∈ l, dPos M n (ringSuccOf l n) ≤ dPos M n y := by
  have hilt0 : l.indexOf n < l.length := List.indexOf_lt_length.mpr hn
  have hgi0 : l[l.indexOf n]? = some n := by
    rw [List.getElem?_eq_getElem hilt0, List.getElem_indexOf]
  have hpw := List.pairwise_iff_getElem.mp hlt
  obtain ⟨i, hidef⟩ : ∃ i, l.indexOf n = i := ⟨_, rfl⟩
  rw [hidef] at hilt0 hgi0
  have hgi : l[i] = n := by
    rw [List.getElem?_eq_getElem hilt0] at hgi0
    exact Option.some.inj hgi0
  have hnM := hbd n hn
  rcases Nat.lt_or_ge (i + 1) l.length with hlt2 | hge2
  · have hrs : ringSuccOf l n = l[i + 1] := by
      unfold ringSuccOf
      rw [hidef, Nat.mod_eq_of_lt hlt2]
      exact List.getD_eq_getElem l 0 hlt2
    have hns : n < l[i + 1] := by
      have := hpw i (i + 1) hilt0 hlt2 (Nat.lt_succ_self i)
      rwa [hgi] at this
    have hsM := hbd _ (l.getElem_mem hlt2)
    rw [hrs]
    refine ⟨l.getElem_mem hlt2, ?_⟩
    intro y hy
    obtain ⟨j, hj, rfl⟩ := List.mem_iff_getElem.mp hy
    have hyM := hbd _ (l.getElem_mem hj)
    rcases Nat.lt_trichotomy j i with hji | hji | hji
    · have hyn : l[j] < n := by
        have := hpw j i hj hilt0 hji
        rwa [hgi] at this
      unfold dPos distanceClockwise
      split_ifs <;> omega
    · have hyn : l[j] = n := by subst hji; exact hgi
      unfold dPos distanceClockwise
      split_ifs <;> omega
    · have hyge : l[i + 1] ≤ l[j] := by
        rcases eq_or_lt_of_le (Nat.succ_le_of_lt hji) with he | hlt3
        · subst he; exact le_refl _
        · exact le_of_lt (hpw _ _ hlt2 hj hlt3)
      have hyn : n < l[j] := lt_of_lt_of_le hns hyge
      unfold dPos distanceClockwise
      split_ifs <;> omega
  · have hi0 : (i + 1) % l.length = 0 := by
      have hle : i + 1 = l.length := le_antisymm (Nat.succ_le_of_lt hilt0) hge2
      rw [hle, Nat.mod_self]
    have hlen : 0 < l.length := Nat.lt_of_le_of_lt (Nat.zero_le i) hilt0
    have hrs : ringSuccOf l n = l[0] := by
      unfold ringSuccOf
      rw [hidef, hi0]
      exact List.getD_eq_getElem l 0 hlen
    have h0M := hbd _ (l.getElem_mem hlen)
    have h0n : l[0] ≤ n := by
      rcases Nat.eq_zero_or_pos i with hz | hpos
      · subst hz; exact le_of_eq hgi
      · have := hpw 0 i hlen hilt0 hpos
        rw [hgi] at this
        exact le_of_lt this
    rw [hrs]
    refine ⟨l.getElem_mem hlen, ?_⟩
    intro y hy
    obtain ⟨j, hj, rfl⟩ := List.mem_iff_getElem.mp hy
    have hyM := hbd _ (l.getElem_mem hj)
    have hji : j ≤ i := by omega
    rcases eq_or_lt_of_le hji with he | hjlt
    · have hyn : l[j] = n := by subst he; exact hgi
      unfold dPos distanceClockwise
      split_ifs <;> omega
    · have hyn : l[j] < n := by
        have := hpw j i hj hilt0 hjlt
        rwa [hgi] at this
      have h0y : l[0] ≤ l[j] := by
        rcases Nat.eq_zero_or_pos j with hz | hpos
        · subst hz; exact le_refl _
        · exact le_of_lt (hpw 0 j hlen hj hpos)
      unfold dPos distanceClockwise
      split_ifs <;> omega

/-- A ring successor equal to the node itself forces a one-peer ring. -/
theorem ringSuccOf_eq_self {M : Nat} {l : List Nat} (hlt : l.Pairwise (· < ·))
    (hbd : ∀ y ∈ l, y < M) {n : Nat} (hn : n ∈ l)
    (h : ringSuccOf l n = n) : l = [n] := by
  obtain ⟨hmem, hmin⟩ := ringSuccOf_spec hlt hbd hn
  have hall : ∀ y ∈ l, y = n := by
    intro y hy
    have h1 := hmin y hy
    rw [h] at h1
    by_contra hne
    have hyM := hbd y hy
    have hnM := hbd n hn
    unfold dPos distanceClockwise at h1
    split_ifs at h1 <;> omega
  cases l with
  | nil => simp at hn
  | cons a rest =>
    have ha := hall a (List.mem_cons_self a rest)
    cases rest with
    | nil => rw [ha]
    | cons c rest2 =>
      have hc := hall c (by simp)
      have hac := (List.pairwise_cons.mp hlt).1 c (by simp)
      omega

/-- `dPos` from `n` is the clockwise distance from `(n+1) mod M`, shifted. -/
theorem dPos_shift {M n y : Nat} (hn : n < M) (hy : y < M) :
    dPos M n y = distanceClockwise ((n + 1) % M) y M + 1 := by
  rcases Nat.lt_or_ge (n + 1) M with h | h
  · rw [Nat.mod_eq_of_lt h]
    unfold dPos distanceClockwise
    split_ifs <;> omega
  · have hM : n + 1 = M := by omega
    rw [hM, Nat.mod_self]
    unfold dPos distanceClockwise
    split_ifs <;> omega

/-- The `ring_succ` assignment of `build` agrees with
`_find_successor_static((n+1) mod 2^m)` — the bridge between the build-time
pointer and the finger characterisation. -/
theorem ringSucc_eq_static {M : Nat} (hM : 0 < M) {l : List Nat}
    (hlt : l.Pairwise (· < ·)) (hbd : ∀ y ∈ l, y < M) {n : Nat}
    (hn : n ∈ l) : ringSuccOf l n = findSuccessorStatic ((n + 1) % M) l := by
  obtain ⟨hmem, hmin⟩ := ringSuccOf_spec hlt hbd hn
  have hl : l ≠ [] := List.ne_nil_of_mem hn
  have ht' : (n + 1) % M < M := Nat.mod_lt _ hM
  have hsmem := findSuccessorStatic_mem hl ((n + 1) % M)
  have hsarg := static_argmin (hlt.imp le_of_lt) hl hbd ht' _ hmem
  have ha := hmin _ hsmem
  rw [dPos_shift (hbd n hn) (hbd _ hmem), dPos_shift (hbd n hn) (hbd _ hsmem)] at ha
  exact distanceClockwise_inj (hbd _ hmem) (hbd _ hsmem)
    (le_antisymm (by omega) hsarg)


/-! ### Arc arithmetic for the routing proofs -/

theorem inRange_incEnd_iff {M t n s : Nat} (ht : t < M) (hn : n < M)
    (hs : s < M) :
    (inRange t n s false true = true) ↔
      (n = s ∨ (0 < distanceClockwise n t M ∧
        distanceClockwise n t M ≤ distanceClockwise n s M)) := by
  unfold inRange distanceClockwise
  split_ifs <;> simp_all <;> omega

theorem inRange_open_iff {M v n t : Nat} (hv : v < M) (hn : n < M)
    (ht : t < M) (hnt : t ≠ n) :
    (inRange v n t false false = true) ↔
      (0 < distanceClockwise n v M ∧
        distanceClockwise n v M < distanceClockwise n t M) := by
  unfold inRange distanceClockwise
  split_ifs <;> simp_all <;> omega

theorem inRange_self_open (n t : Nat) : inRange n n t false false = false := by
  unfold inRange
  split_ifs <;> simp_all <;> omega

theorem arc_step {M n t c : Nat} (hn : n < M) (ht : t < M) (hc : c < M)
    (h1 : 0 < distanceClockwise n c M)
    (h2 : distanceClockwise n c M < distanceClockwise n t M) :
    c ≠ n ∧ c ≠ t ∧ distanceClockwise c t M < distanceClockwise n t M := by
  unfold distanceClockwise at *
  split_ifs at * <;> omega

theorem inRange_start_eq_end (v n : Nat) :
    inRange v n n false false = false := by
  unfold inRange
  rw [if_pos rfl]
  rfl

theorem cpnScan_self (n : Nat) : ∀ L, cpnScan n n L = n := by
  intro L
  induction L with
  | nil => rfl
  | cons f rest ih =>
    obtain ⟨fs, fo⟩ := f
    cases fo with
    | none => simpa [cpnScan] using ih
    | some fn =>
      have hstep : cpnScan n n (⟨fs, some fn⟩ :: rest) = cpnScan n n rest := by
        simp [cpnScan, inRange_start_eq_end]
      rw [hstep]
      exact ih

theorem cpnScan_cases (n t : Nat) : ∀ L : List FingerEntry,
    cpnScan n t L = n ∨ ∃ f ∈ L, f.node = some (cpnScan n t L) ∧
      inRange (cpnScan n t L) n t false false = true := by
  intro L
  induction L with
  | nil => left; rfl
  | cons f rest ih =>
    obtain ⟨fs, fo⟩ := f
    cases fo with
    | none =>
      simp only [cpnScan]
      rcases ih with h | ⟨g, hg, hgn, hgr⟩
      · left; exact h
      · right; exact ⟨g, List.mem_cons_of_mem _ hg, hgn, hgr⟩
    | some fn =>
      by_cases hir : inRange fn n t false false = true
      · right
        have hstep : cpnScan n t (⟨fs, some fn⟩ :: rest) = fn := by
          simp [cpnScan, hir]
        refine ⟨⟨fs, some fn⟩, List.mem_cons_self _ _, ?_, ?_⟩
        · rw [hstep]
        · rw [hstep]; exact hir
      · have hstep : cpnScan n t (⟨fs, some fn⟩ :: rest) = cpnScan n t rest := by
          simp [cpnScan, hir]
        rw [hstep]
        rcases ih with h | ⟨g, hg, hgn, hgr⟩
        · left; exact h
        · right; exact ⟨g, List.mem_cons_of_mem _ hg, hgn, hgr⟩

theorem cpnScan_none (n t : Nat) : ∀ L : List FingerEntry,
    cpnScan n t L = n →
    ∀ f ∈ L, ∀ v, f.node = some v → inRange v n t false false = false := by
  intro L
  induction L with
  | nil => intro _ f hf; simp at hf
  | cons f rest ih =>
    intro hscan g hg v hgv
    obtain ⟨fs, fo⟩ := f
    cases fo with
    | none =>
      simp only [cpnScan] at hscan
      rcases List.mem_cons.mp hg with rfl | hg'
      · simp at hgv
      · exact ih hscan g hg' v hgv
    | some fn =>
      by_cases hir : inRange fn n t false false = true
      · exfalso
        have hstep : cpnScan n t (⟨fs, some fn⟩ :: rest) = fn := by
          simp [cpnScan, hir]
        rw [hstep] at hscan
        rw [hscan] at hir
        rw [inRange_self_open n t] at hir
        exact Bool.false_ne_true hir
      · have hscan2 : cpnScan n t rest = n := by
          have hstep : cpnScan n t (⟨fs, some fn⟩ :: rest) = cpnScan n t rest := by
            simp [cpnScan, hir]
          rw [hstep] at hscan
          exact hscan
        rcases List.mem_cons.mp hg with rfl | hg'
        · have : fn = v := by simpa using hgv
          rw [← this]
          exact Bool.eq_false_iff.mpr hir
        · exact ih hscan2 g hg' v hgv


theorem static_single {t n : Nat} : findSuccessorStatic t [n] = n := by
  unfold findSuccessorStatic
  by_cases htn : t ≤ n
  · rw [List.find?_cons_of_pos _ (by simpa using htn)]
  · rw [List.find?_cons_of_neg _ (by simpa using htn)]
    rfl

theorem distanceClockwise_pos {M n x : Nat} (hn : n < M) (hx : x < M)
    (hne : x ≠ n) : 0 < distanceClockwise n x M := by
  unfold distanceClockwise
  split_ifs <;> omega

/-- If the target lies on `(n, ring_succ n]`, the ring successor is the
static successor of the target. -/
theorem owner_of_inRange {M : Nat} {l : List Nat} (hlt : l.Pairwise (· < ·))
    (hbd : ∀ y ∈ l, y < M) {n : Nat} (hn : n ∈ l) {t : Nat} (ht : t < M)
    (hir : inRange t n (ringSuccOf l n) false true = true) :
    findSuccessorStatic t l = ringSuccOf l n := by
  have hl : l ≠ [] := List.ne_nil_of_mem hn
  have hnM := hbd n hn
  obtain ⟨hmem, hmin⟩ := ringSuccOf_spec (M := M) hlt hbd hn
  have hsM := hbd _ hmem
  by_cases hsn : ringSuccOf l n = n
  · have hleq := ringSuccOf_eq_self hlt hbd hn hsn
    rw [hsn, hleq]
    exact static_single
  · rw [inRange_incEnd_iff ht hnM hsM] at hir
    rcases hir with heq | ⟨hpos, hle⟩
    · exact absurd heq.symm hsn
    · have hsmem2 := findSuccessorStatic_mem hl t
      have hyM := hbd _ hsmem2
      have hfa := static_argmin (hlt.imp (fun h => le_of_lt h)) hl hbd ht _ hmem
      have hrev : distanceClockwise t (ringSuccOf l n) M ≤
          distanceClockwise t (findSuccessorStatic t l) M := by
        by_contra hcon
        push_neg at hcon
        have hdp := hmin _ hsmem2
        have hyn : findSuccessorStatic t l ≠ n ∧
            distanceClockwise n (findSuccessorStatic t l) M <
              distanceClockwise n (ringSuccOf l n) M := by
          unfold distanceClockwise at hpos hle hcon ⊢
          split_ifs at * <;> omega
        unfold dPos at hdp
        rw [if_neg hsn, if_neg hyn.1] at hdp
        omega
      exact distanceClockwise_inj hyM hsM (le_antisymm hfa hrev)

theorem chordFingers_mem {m n : Nat} {sorted : List Nat} {f : FingerEntry}
    (hf : f ∈ chordFingers m n sorted) :
    ∃ k, k < m ∧ f = ⟨(n + 2 ^ k) % 2 ^ m,
      some (findSuccessorStatic ((n + 2 ^ k) % 2 ^ m) sorted)⟩ := by
  unfold chordFingers at hf
  rcases List.mem_map.mp hf with ⟨k, hk, rfl⟩
  exact ⟨k, List.mem_range.mp hk, rfl⟩

theorem finger0_mem {m n : Nat} (hm : 0 < m) (sorted : List Nat) :
    (⟨(n + 1) % 2 ^ m,
      some (findSuccessorStatic ((n + 1) % 2 ^ m) sorted)⟩ : FingerEntry) ∈
      chordFingers m n sorted := by
  unfold chordFingers
  refine List.mem_map.mpr ⟨0, List.mem_range.mpr hm, ?_⟩
  norm_num


/-- Routing correctness of the fuelled `_find_successor_handler` on a
consistent ring: for a target distinct from the handling node, the handler
resolves to the static successor of the target within fuel bounded by the
clockwise distance. -/
theorem handler_ok {K V : Type} [LinearOrder K] {st : ChordSt K V}
    (hrc : RC st) {t : Nat} (ht : t < 2 ^ st.m) :
    ∀ fuel n node, assocFind st.nodes n = some node → t ≠ n →
      distanceClockwise n t (2 ^ st.m) < fuel →
      ∃ h, findSuccessorHandler st fuel node t =
        some (findSuccessorStatic t (sortedIds st), h) := by
  obtain ⟨hne, hnd, hbd0, hnodes⟩ := hrc
  have hlt := sortedIds_lt hnd
  have hbd : ∀ y ∈ sortedIds st, y < 2 ^ st.m :=
    fun y hy => hbd0 y (mem_sortedIds.mp hy)
  have hlnn : sortedIds st ≠ [] := sortedIds_ne_nil hne
  intro fuel
  induction fuel with
  | zero => intro n node _ _ hd; omega
  | succ fuel ih =>
    intro n node hfind hnt hdist
    have hmemp := assocFind_mem hfind
    obtain ⟨hnid, hsucc, hfing, -⟩ := hnodes _ hmemp
    dsimp only at hnid hsucc hfing
    have hnmem : n ∈ sortedIds st :=
      mem_sortedIds.mpr (List.mem_map.mpr ⟨_, hmemp, rfl⟩)
    have hnM := hbd n hnmem
    obtain ⟨hsmem, hsmin⟩ := ringSuccOf_spec (M := 2 ^ st.m) hlt hbd hnmem
    have hsM := hbd _ hsmem
    simp only [findSuccessorHandler, hsucc, hnid]
    by_cases hir :
        inRange t n (ringSuccOf (sortedIds st) n) false true = true
    · rw [if_pos hir]
      exact ⟨0, by rw [owner_of_inRange hlt hbd hnmem ht hir]⟩
    · rw [if_neg hir]
      have hm : 0 < st.m := by
        by_contra h0
        have hm0 : st.m = 0 := by omega
        rw [hm0, pow_zero] at ht hnM
        omega
      have hangle : ¬ (n = ringSuccOf (sortedIds st) n ∨
          (0 < distanceClockwise n t (2 ^ st.m) ∧
            distanceClockwise n t (2 ^ st.m) ≤
              distanceClockwise n (ringSuccOf (sortedIds st) n) (2 ^ st.m))) := by
        intro hcontra
        exact hir ((inRange_incEnd_iff ht hnM hsM).mpr hcontra)
      push_neg at hangle
      obtain ⟨hns, hangle2⟩ := hangle
      have hpos : 0 < distanceClockwise n t (2 ^ st.m) :=
        distanceClockwise_pos hnM ht hnt
      have hSlt := hangle2 hpos
      have hcpn : closestPrecedingNode node t ≠ n := by
        intro hself
        unfold closestPrecedingNode at hself
        rw [hnid, hfing] at hself
        have hall := cpnScan_none n t _ hself
        have hf0r : (⟨(n + 1) % 2 ^ st.m,
            some (findSuccessorStatic ((n + 1) % 2 ^ st.m) (sortedIds st))⟩ :
              FingerEntry) ∈ (chordFingers st.m n (sortedIds st)).reverse :=
          List.mem_reverse.mpr (finger0_mem hm (sortedIds st))
        have hq := hall _ hf0r _ rfl
        have hs0 : findSuccessorStatic ((n + 1) % 2 ^ st.m) (sortedIds st) =
            ringSuccOf (sortedIds st) n :=
          (ringSucc_eq_static (pow_pos (by norm_num) st.m) hlt hbd hnmem).symm
        rw [hs0] at hq
        have hopen : inRange (ringSuccOf (sortedIds st) n) n t false false
            = true := by
          rw [inRange_open_iff hsM hnM ht hnt]
          exact ⟨distanceClockwise_pos hnM hsM (Ne.symm hns), hSlt⟩
        rw [hopen] at hq
        simp at hq
      obtain ⟨c, hcdef⟩ : ∃ c, closestPrecedingNode node t = c := ⟨_, rfl⟩
      rw [hcdef] at hcpn ⊢
      have hcpneq : cpnScan n t node.fingerTable.reverse = c := by
        rw [← hcdef]
        unfold closestPrecedingNode
        rw [hnid]
      rcases cpnScan_cases n t node.fingerTable.reverse with hx |
        ⟨f, hfmem, hfnode, hfr⟩
      · rw [hcpneq] at hx; exact absurd hx hcpn
      · rw [hcpneq] at hfnode hfr
        rw [hfing] at hfmem
        have hfmem2 := List.mem_reverse.mp hfmem
        obtain ⟨k, hk, rfl⟩ := chordFingers_mem hfmem2
        have hceq : c =
            findSuccessorStatic ((n + 2 ^ k) % 2 ^ st.m) (sortedIds st) :=
          (Option.some.inj hfnode).symm
        have hcmem : c ∈ sortedIds st := by
          rw [hceq]; exact findSuccessorStatic_mem hlnn _
        obtain ⟨nodeC, hfindC⟩ :=
          assocFind_of_mem_keys (mem_sortedIds.mp hcmem)
        have hcM := hbd c hcmem
        rw [inRange_open_iff hcM hnM ht hnt] at hfr
        obtain ⟨hc1, hc2⟩ := hfr
        obtain ⟨hcn, hct, hdlt⟩ := arc_step hnM ht hcM hc1 hc2
        obtain ⟨h2, hrec⟩ := ih c nodeC hfindC (Ne.symm hct) (by omega)
        refine ⟨h2 + 1, ?_⟩
        rw [if_neg hcpn, hfindC]
        simp only [hrec]


/-- Client-level routing correctness: `Chord._find_successor` from a live
source resolves every target below `2^m` to `chordOwnerOf`. -/
theorem client_ok {K V : Type} [LinearOrder K] {st : ChordSt K V}
    (hrc : RC st) {src : Nat} (hsrc : src ∈ st.nodes.map Prod.fst)
    {t : Nat} (ht : t < 2 ^ st.m) :
    ∃ h, chordFindSuccessor st (chordFuel st) src t =
      some (chordOwnerOf (sortedIds st) src t, h) := by
  obtain ⟨node, hfind⟩ := assocFind_of_mem_keys hsrc
  obtain ⟨hne, hnd, hbd0, hnodes⟩ := id hrc
  have hlt := sortedIds_lt hnd
  have hbd : ∀ y ∈ sortedIds st, y < 2 ^ st.m :=
    fun y hy => hbd0 y (mem_sortedIds.mp hy)
  obtain ⟨hnid, hsucc, hfing, -⟩ := hnodes _ (assocFind_mem hfind)
  dsimp only at hnid hsucc hfing
  have hsrcmem : src ∈ sortedIds st := mem_sortedIds.mpr hsrc
  have hsrcM := hbd _ hsrcmem
  have hhandler : ∃ h0, findSuccessorHandler st (chordFuel st) node t =
      some (chordOwnerOf (sortedIds st) src t, h0) := by
    by_cases hts : t = src
    · subst hts
      refine ⟨0, ?_⟩
      unfold chordFuel
      simp only [findSuccessorHandler, hsucc, hnid]
      by_cases hss : ringSuccOf (sortedIds st) t = t
      · have hirt : inRange t t (ringSuccOf (sortedIds st) t) false true
            = true := by
          rw [hss]
          unfold inRange
          rw [if_pos rfl]
          rfl
        rw [if_pos hirt]
        unfold chordOwnerOf
        rw [if_pos rfl]
      · have hirt : inRange t t (ringSuccOf (sortedIds st) t) false true
            = false := by
          unfold inRange
          rw [if_neg (fun h => hss h.symm)]
          split_ifs <;> simp_all <;> omega
        rw [if_neg (by simp [hirt])]
        have hcpn : closestPrecedingNode node t = t := by
          unfold closestPrecedingNode
          rw [hnid]
          exact cpnScan_self t _
        rw [hcpn, if_pos rfl]
        unfold chordOwnerOf
        rw [if_pos rfl]
    · have hdist : distanceClockwise src t (2 ^ st.m) < chordFuel st := by
        unfold chordFuel distanceClockwise
        split_ifs <;> omega
      obtain ⟨h0, hh⟩ :=
        handler_ok hrc ht (chordFuel st) src node hfind hts hdist
      refine ⟨h0, ?_⟩
      rw [hh]
      unfold chordOwnerOf
      rw [if_neg hts]
  obtain ⟨h0, hh⟩ := hhandler
  refine ⟨h0 + 1, ?_⟩
  unfold chordFindSuccessor
  rw [hfind]
  simp only [hh]


/-! ### Storage corollaries and consistency preservation -/

theorem sget_eq_dict {K V : Type} [LinearOrder K] {s : LocalStorage K V}
    (hs : SInv s) (k : K) : s.get k = dictGetD s.data k := by
  unfold LocalStorage.get
  rw [tsearch_eq hs.2.1 k]
  exact hs.2.2.1 k

theorem sget_put_self {K V : Type} [LinearOrder K] {s : LocalStorage K V}
    (hs : SInv s) (k : K) (v : V) :
    (s.put k v).get k = s.get k ++ [v] := by
  rw [sget_eq_dict (sinv_put hs k v), sget_eq_dict hs]
  unfold LocalStorage.put
  dsimp only
  rw [dictGetD_dictSet_self]

theorem sget_put_other {K V : Type} [LinearOrder K] {s : LocalStorage K V}
    (hs : SInv s) {k k' : K} (hne : k' ≠ k) (v : V) :
    (s.put k v).get k' = s.get k' := by
  rw [sget_eq_dict (sinv_put hs k v), sget_eq_dict hs]
  unfold LocalStorage.put
  dsimp only
  rw [dictGetD_dictSet_other hne]

theorem sget_del_self {K V : Type} [LinearOrder K] {s : LocalStorage K V}
    (hs : SInv s) (k : K) : (s.del k).get k = [] := by
  rw [sget_eq_dict (sinv_del hs k)]
  unfold LocalStorage.del
  dsimp only
  rw [dictGetD_dictDelete_self hs.1]

theorem sget_upd_self {K V : Type} [LinearOrder K] {s : LocalStorage K V}
    (hs : SInv s) (k : K) (vs : List V) :
    (s.update k vs).get k = vs := by
  rw [sget_eq_dict (sinv_upd hs k vs)]
  unfold LocalStorage.update
  dsimp only
  rw [dictGetD_dictSet_self]

theorem firstKey_mem {B : Type} {d : List (Nat × B)} (h : d ≠ []) :
    firstKey d ∈ d.map Prod.fst := by
  cases d with
  | nil => exact absurd rfl h
  | cons a rest =>
    unfold firstKey
    exact List.mem_cons_self _ _

theorem chordOwnerOf_mem {M : Nat} {l : List Nat} (hlt : l.Pairwise (· < ·))
    (hbd : ∀ y ∈ l, y < M) {src : Nat} (hsrc : src ∈ l) (t : Nat) :
    chordOwnerOf l src t ∈ l := by
  unfold chordOwnerOf
  split_ifs
  · exact (ringSuccOf_spec hlt hbd hsrc).1
  · exact findSuccessorStatic_mem (List.ne_nil_of_mem hsrc) t

/-- Replacing one node's storage by another internally consistent storage
preserves ring consistency. -/
theorem RC_storage_update {K V : Type} [LinearOrder K] {st : ChordSt K V}
    (hrc : RC st) {w : Nat} {onode : ChordNodeSt K V}
    (hfind : assocFind st.nodes w = some onode) {s2 : LocalStorage K V}
    (hsinv : SInv s2) :
    RC (⟨st.m, assocSet st.nodes w { onode with storage := s2 }⟩ :
      ChordSt K V) := by
  obtain ⟨hne, hnd, hbd0, hnodes⟩ := hrc
  have hwmem : w ∈ st.nodes.map Prod.fst :=
    List.mem_map.mpr ⟨_, assocFind_mem hfind, rfl⟩
  have hkeys : (assocSet st.nodes w { onode with storage := s2 }).map Prod.fst
      = st.nodes.map Prod.fst := assocSet_keys_of_mem hwmem
  have hsorted : sortedIds (⟨st.m,
      assocSet st.nodes w { onode with storage := s2 }⟩ : ChordSt K V)
      = sortedIds st := by
    unfold sortedIds
    dsimp only
    rw [hkeys]
  refine ⟨?_, ?_, ?_, ?_⟩
  · intro h0
    apply hne
    dsimp only at h0
    rw [h0] at hkeys
    simpa using hkeys.symm
  · dsimp only
    rw [hkeys]
    exact hnd
  · dsimp only
    rw [hkeys]
    exact hbd0
  · intro p hp
    dsimp only at hp
    rw [hsorted]
    rcases mem_assocSet hp with rfl | ⟨hpd, -⟩
    · obtain ⟨h1, h2, h3, -⟩ := hnodes _ (assocFind_mem hfind)
      dsimp only at h1 h2 h3 ⊢
      exact ⟨h1, h2, h3, hsinv⟩
    · exact hnodes _ hpd



theorem chordInsert_ok {K V : Type} [LinearOrder K] {st : ChordSt K V}
    (hrc : RC st) (hashK : K → Nat) (key : K) (v : V) {w : Nat}
    (hw : w = chordOwnerOf (sortedIds st) (firstKey st.nodes)
      (hashId hashK st.m key)) :
    ∃ hops onode, assocFind st.nodes w = some onode ∧
      chordInsert hashK st key v none =
        some (⟨st.m, assocSet st.nodes w
          { onode with storage := onode.storage.put key v }⟩, hops) := by
  obtain ⟨hne, hnd, hbd0, hnodes⟩ := id hrc
  have hlt := sortedIds_lt hnd
  have hbd : ∀ y ∈ sortedIds st, y < 2 ^ st.m :=
    fun y hy => hbd0 y (mem_sortedIds.mp hy)
  have hsrc : firstKey st.nodes ∈ st.nodes.map Prod.fst := firstKey_mem hne
  have ht : hashId hashK st.m key < 2 ^ st.m :=
    Nat.mod_lt _ (pow_pos (by norm_num) _)
  obtain ⟨h0, hcf⟩ := client_ok hrc hsrc ht
  have hwmem : w ∈ st.nodes.map Prod.fst := by
    rw [hw]
    exact mem_sortedIds.mp
      (chordOwnerOf_mem hlt hbd (mem_sortedIds.mpr hsrc) _)
  obtain ⟨onode, hfind⟩ := assocFind_of_mem_keys hwmem
  refine ⟨h0, onode, hfind, ?_⟩
  rw [← hw] at hcf
  unfold chordInsert
  rw [if_neg (by simpa using hne)]
  simp only [Option.getD_none, hcf, hfind]

theorem chordDelete_ok {K V : Type} [LinearOrder K] {st : ChordSt K V}
    (hrc : RC st) (hashK : K → Nat) (key : K) {w : Nat}
    (hw : w = chordOwnerOf (sortedIds st) (firstKey st.nodes)
      (hashId hashK st.m key)) :
    ∃ hops onode, assocFind st.nodes w = some onode ∧
      chordDelete hashK st key none =
        some (⟨st.m, assocSet st.nodes w
          { onode with storage := onode.storage.del key }⟩, hops) := by
  obtain ⟨hne, hnd, hbd0, hnodes⟩ := id hrc
  have hlt := sortedIds_lt hnd
  have hbd : ∀ y ∈ sortedIds st, y < 2 ^ st.m :=
    fun y hy => hbd0 y (mem_sortedIds.mp hy)
  have hsrc : firstKey st.nodes ∈ st.nodes.map Prod.fst := firstKey_mem hne
  have ht : hashId hashK st.m key < 2 ^ st.m :=
    Nat.mod_lt _ (pow_pos (by norm_num) _)
  obtain ⟨h0, hcf⟩ := client_ok hrc hsrc ht
  have hwmem : w ∈ st.nodes.map Prod.fst := by
    rw [hw]
    exact mem_sortedIds.mp
      (chordOwnerOf_mem hlt hbd (mem_sortedIds.mpr hsrc) _)
  obtain ⟨onode, hfind⟩ := assocFind_of_mem_keys hwmem
  refine ⟨h0, onode, hfind, ?_⟩
  rw [← hw] at hcf
  unfold chordDelete
  rw [if_neg (by simpa using hne)]
  simp only [Option.getD_none, hcf, hfind]

theorem chordUpdate_ok {K V : Type} [LinearOrder K] {st : ChordSt K V}
    (hrc : RC st) (hashK : K → Nat) (key : K) (vs : List V) {w : Nat}
    (hw : w = chordOwnerOf (sortedIds st) (firstKey st.nodes)
      (hashId hashK st.m key)) :
    ∃ hops onode, assocFind st.nodes w = some onode ∧
      chordUpdate hashK st key vs none =
        some (⟨st.m, assocSet st.nodes w
          { onode with storage := onode.storage.update key vs }⟩, hops) := by
  obtain ⟨hne, hnd, hbd0, hnodes⟩ := id hrc
  have hlt := sortedIds_lt hnd
  have hbd : ∀ y ∈ sortedIds st, y < 2 ^ st.m :=
    fun y hy => hbd0 y (mem_sortedIds.mp hy)
  have hsrc : firstKey st.nodes ∈ st.nodes.map Prod.fst := firstKey_mem hne
  have ht : hashId hashK st.m key < 2 ^ st.m :=
    Nat.mod_lt _ (pow_pos (by norm_num) _)
  obtain ⟨h0, hcf⟩ := client_ok hrc hsrc ht
  have hwmem : w ∈ st.nodes.map Prod.fst := by
    rw [hw]
    exact mem_sortedIds.mp
      (chordOwnerOf_mem hlt hbd (mem_sortedIds.mpr hsrc) _)
  obtain ⟨onode, hfind⟩ := assocFind_of_mem_keys hwmem
  refine ⟨h0, onode, hfind, ?_⟩
  rw [← hw] at hcf
  unfold chordUpdate
  rw [if_neg (by simpa using hne)]
  simp only [Option.getD_none, hcf, hfind]

theorem chordLookup_ok {K V : Type} [LinearOrder K] {st : ChordSt K V}
    (hrc : RC st) (hashK : K → Nat) (key : K) {w : Nat}
    (hw : w = chordOwnerOf (sortedIds st) (firstKey st.nodes)
      (hashId hashK st.m key)) :
    ∃ hops onode, assocFind st.nodes w = some onode ∧
      chordLookup hashK st key none =
        some (some (onode.storage.get key), hops) := by
  obtain ⟨hne, hnd, hbd0, hnodes⟩ := id hrc
  have hlt := sortedIds_lt hnd
  have hbd : ∀ y ∈ sortedIds st, y < 2 ^ st.m :=
    fun y hy => hbd0 y (mem_sortedIds.mp hy)
  have hsrc : firstKey st.nodes ∈ st.nodes.map Prod.fst := firstKey_mem hne
  have ht : hashId hashK st.m key < 2 ^ st.m :=
    Nat.mod_lt _ (pow_pos (by norm_num) _)
  obtain ⟨h0, hcf⟩ := client_ok hrc hsrc ht
  have hwmem : w ∈ st.nodes.map Prod.fst := by
    rw [hw]
    exact mem_sortedIds.mp
      (chordOwnerOf_mem hlt hbd (mem_sortedIds.mpr hsrc) _)
  obtain ⟨onode, hfind⟩ := assocFind_of_mem_keys hwmem
  refine ⟨h0, onode, hfind, ?_⟩
  rw [← hw] at hcf
  unfold chordLookup
  rw [if_neg (by simpa using hne)]
  simp only [Option.getD_none, hcf, hfind]


theorem chordKeyOwner_congr {K V : Type} [LinearOrder K]
    {st st2 : ChordSt K V} (hm : st2.m = st.m)
    (hk : st2.nodes.map Prod.fst = st.nodes.map Prod.fst)
    (hashK : K → Nat) (k : K) :
    chordKeyOwner hashK st2 k = chordKeyOwner hashK st k := by
  unfold chordKeyOwner sortedIds firstKey hashId
  rw [hm, hk]

/-- The item-insertion fold of `Chord.build` succeeds on a consistent ring,
preserves consistency, keys and `m`, and leaves every inserted key with a
nonempty value list at its owner. -/
theorem insert_fold_ok {K V : Type} [LinearOrder K] (hashK : K → Nat) :
    ∀ (items : List (K × V)) (st : ChordSt K V), RC st →
    ∃ st2, items.foldlM (fun s kv =>
        (chordInsert hashK s kv.1 kv.2 none).map Prod.fst) st = some st2 ∧
      RC st2 ∧ st2.m = st.m ∧
      st2.nodes.map Prod.fst = st.nodes.map Prod.fst ∧
      (∀ kv ∈ items, ∃ onode,
        assocFind st2.nodes (chordKeyOwner hashK st2 kv.1) = some onode ∧
        onode.storage.get kv.1 ≠ []) ∧
      (∀ (k : K) (j : Nat) (o1 o2 : ChordNodeSt K V),
        assocFind st.nodes j = some o1 → assocFind st2.nodes j = some o2 →
        o1.storage.get k ≠ [] → o2.storage.get k ≠ []) := by
  intro items
  induction items with
  | nil =>
    intro st hrc
    refine ⟨st, rfl, hrc, rfl, rfl, by simp, ?_⟩
    intro k j o1 o2 h1 h2 hne2
    rw [h1] at h2
    obtain rfl := Option.some.inj h2
    exact hne2
  | cons kv rest ih =>
    intro st hrc
    obtain ⟨hne0, hnd0, hbd0, hnodes0⟩ := id hrc
    obtain ⟨hops, onode, hfind, hins⟩ :=
      chordInsert_ok (w := chordKeyOwner hashK st kv.1) hrc hashK kv.1 kv.2 rfl
    have hsinv : SInv onode.storage := (hnodes0 _ (assocFind_mem hfind)).2.2.2
    set st1 : ChordSt K V := ⟨st.m,
      assocSet st.nodes (chordKeyOwner hashK st kv.1)
        { onode with storage := onode.storage.put kv.1 kv.2 }⟩ with hst1
    have hrc1 : RC st1 := by
      rw [hst1]
      exact RC_storage_update hrc hfind (sinv_put hsinv kv.1 kv.2)
    have hkeys1 : st1.nodes.map Prod.fst = st.nodes.map Prod.fst := by
      rw [hst1]
      exact assocSet_keys_of_mem
        (List.mem_map.mpr ⟨_, assocFind_mem hfind, rfl⟩)
    have hm1 : st1.m = st.m := by rw [hst1]
    have hfind1 : assocFind st1.nodes (chordKeyOwner hashK st kv.1) =
        some { onode with storage := onode.storage.put kv.1 kv.2 } := by
      rw [hst1]
      exact assocFind_assocSet_self
    obtain ⟨st2, hfold, hrc2, hm2, hkeys2, hitems2, hpers2⟩ := ih st1 hrc1
    have hmm : st2.m = st.m := hm2.trans hm1
    have hkk : st2.nodes.map Prod.fst = st.nodes.map Prod.fst :=
      hkeys2.trans hkeys1
    refine ⟨st2, ?_, hrc2, hmm, hkk, ?_, ?_⟩
    · simpa [List.foldlM_cons, hins] using hfold
    · intro kv2 hkv2
      rcases List.mem_cons.mp hkv2 with rfl | hkv2r
      · have how : chordKeyOwner hashK st2 kv2.1 =
            chordKeyOwner hashK st kv2.1 := chordKeyOwner_congr hmm hkk hashK _
        have hwmem2 : chordKeyOwner hashK st kv2.1 ∈ st2.nodes.map Prod.fst := by
          rw [hkk]
          exact List.mem_map.mpr ⟨_, assocFind_mem hfind, rfl⟩
        obtain ⟨o2, hfind2⟩ := assocFind_of_mem_keys hwmem2
        refine ⟨o2, by rw [how]; exact hfind2, ?_⟩
        refine hpers2 kv2.1 _ _ _ hfind1 hfind2 ?_
        dsimp only
        rw [sget_put_self hsinv]
        simp
      · exact hitems2 kv2 hkv2r
    · intro k j o1 o2 h1 h2 hne2
      by_cases hjw : j = chordKeyOwner hashK st kv.1
      · subst hjw
        rw [h1] at hfind
        obtain rfl := Option.some.inj hfind
        refine hpers2 k _ _ _ hfind1 h2 ?_
        dsimp only
        by_cases hkk2 : k = kv.1
        · subst hkk2
          rw [sget_put_self hsinv]
          simp
        · rw [sget_put_other hsinv hkk2]
          exact hne2
      · have hfind1' : assocFind st1.nodes j = some o1 := by
          rw [hst1]
          rw [assocFind_assocSet_other hjw]
          exact h1
        exact hpers2 k _ _ _ hfind1' h2 hne2


theorem assocSet_ne_nil {A : Type} (d : List (Nat × A)) (k : Nat) (v : A) :
    assocSet d k v ≠ [] := by
  unfold assocSet
  split
  · rename_i hhas
    intro h0
    rw [List.map_eq_nil] at h0
    subst h0
    simp [assocHas] at hhas
  · intro h0
    simpa using congrArg List.length h0

theorem chordBuildNodes_ne_nil {K V : Type} (m : Nat) :
    ∀ (ids : List Nat) (acc : List (Nat × ChordNodeSt K V)),
    (acc ≠ [] ∨ ids ≠ []) →
    ids.foldl (fun a nid =>
      assocSet a (nid % 2 ^ m) (mkChordNode K V (nid % 2 ^ m) m)) acc ≠ [] := by
  intro ids
  induction ids with
  | nil =>
    intro acc h
    rcases h with h | h
    · exact h
    · exact absurd rfl h
  | cons a rest ih =>
    intro acc _
    exact ih _ (Or.inl (assocSet_ne_nil _ _ _))

theorem chordBuildNodes_spec {K V : Type} (m : Nat) (ids : List Nat) :
    ((chordBuildNodes K V m ids).map Prod.fst).Nodup ∧
    (∀ p ∈ chordBuildNodes K V m ids,
      p.2 = mkChordNode K V p.1 m ∧ p.1 < 2 ^ m) ∧
    (ids ≠ [] → chordBuildNodes K V m ids ≠ []) := by
  have go : ∀ (l : List Nat) (acc : List (Nat × ChordNodeSt K V)),
      ((acc.map Prod.fst).Nodup ∧
        ∀ p ∈ acc, p.2 = mkChordNode K V p.1 m ∧ p.1 < 2 ^ m) →
      (((l.foldl (fun a nid =>
          assocSet a (nid % 2 ^ m) (mkChordNode K V (nid % 2 ^ m) m))
            acc).map Prod.fst).Nodup ∧
        ∀ p ∈ l.foldl (fun a nid =>
          assocSet a (nid % 2 ^ m) (mkChordNode K V (nid % 2 ^ m) m)) acc,
          p.2 = mkChordNode K V p.1 m ∧ p.1 < 2 ^ m) := by
    intro l
    induction l with
    | nil => intro acc h; exact h
    | cons a rest ih =>
      intro acc h
      apply ih
      constructor
      · exact assocSet_nodup h.1
      · intro p hp
        rcases mem_assocSet hp with rfl | ⟨hpd, -⟩
        · exact ⟨rfl, Nat.mod_lt _ (pow_pos (by norm_num) _)⟩
        · exact h.2 p hpd
  have hg := go ids [] ⟨List.nodup_nil, by simp⟩
  exact ⟨hg.1, hg.2, fun h =>
    chordBuildNodes_ne_nil m ids [] (Or.inr h)⟩

theorem setRingPointersTo_keys {K V : Type} (sorted : List Nat)
    (nodes : List (Nat × ChordNodeSt K V)) :
    (setRingPointersTo sorted nodes).map Prod.fst = nodes.map Prod.fst := by
  unfold setRingPointersTo
  rw [List.map_map]
  rfl

theorem setFingersTo_keys {K V : Type} (sorted : List Nat)
    (nodes : List (Nat × ChordNodeSt K V)) :
    (setFingersTo sorted nodes).map Prod.fst = nodes.map Prod.fst := by
  unfold setFingersTo
  rw [List.map_map]
  rfl

/-- `Chord.build` produces a consistent ring and leaves every initial item
with a nonempty value list at its owner. -/
theorem chordBuild_ok {K V : Type} [LinearOrder K] (hashK : K → Nat)
    (m : Nat) {ids : List Nat} (hids : ids ≠ []) (items : List (K × V)) :
    ∃ st, chordBuild hashK m ids items = some st ∧ RC st ∧ st.m = m ∧
      (∀ kv ∈ items, ∃ onode,
        assocFind st.nodes (chordKeyOwner hashK st kv.1) = some onode ∧
        onode.storage.get kv.1 ≠ []) := by
  obtain ⟨hnd0, hspec0, hnn0⟩ := chordBuildNodes_spec (K := K) (V := V) m ids
  have hl0 : chordBuildNodes K V m ids ≠ [] := hnn0 hids
  set l0 := chordBuildNodes K V m ids with hl0def
  set sorted := sortedIds (⟨m, l0⟩ : ChordSt K V) with hsorted0
  set st1 : ChordSt K V := ⟨m, setRingPointersTo sorted l0⟩ with hst1
  have hkR : st1.nodes.map Prod.fst = l0.map Prod.fst := by
    rw [hst1]
    exact setRingPointersTo_keys sorted l0
  have hsorted1 : sortedIds st1 = sorted := by
    rw [hsorted0]
    unfold sortedIds
    rw [hkR]
  set st2 : ChordSt K V := rebuildFingers st1 with hst2
  have hst2e : st2 = ⟨m, setFingersTo sorted st1.nodes⟩ := by
    rw [hst2]
    unfold rebuildFingers
    rw [hsorted1, hst1]
  have hkF : st2.nodes.map Prod.fst = l0.map Prod.fst := by
    rw [hst2e]
    dsimp only
    rw [setFingersTo_keys]
    exact hkR
  have hsorted2 : sortedIds st2 = sorted := by
    rw [hsorted0]
    unfold sortedIds
    rw [hkF]
  have hm2 : st2.m = m := by rw [hst2e]
  have hrc2 : RC st2 := by
    refine ⟨?_, ?_, ?_, ?_⟩
    · intro h0
      apply hl0
      rw [h0] at hkF
      simp only [List.map_nil] at hkF
      rw [eq_comm, List.map_eq_nil] at hkF
      exact hkF
    · rw [hkF]; exact hnd0
    · rw [hkF, hm2]
      intro i hi
      rcases List.mem_map.mp hi with ⟨p, hp, rfl⟩
      exact (hspec0 p hp).2
    · intro p hp
      rw [hst2e] at hp
      dsimp only at hp
      unfold setFingersTo at hp
      rcases List.mem_map.mp hp with ⟨q, hq, rfl⟩
      unfold setRingPointersTo at hq
      rcases List.mem_map.mp hq with ⟨r, hr, rfl⟩
      obtain ⟨hrmk, hrlt⟩ := hspec0 r hr
      dsimp only
      rw [hsorted2, hm2, hrmk]
      refine ⟨rfl, rfl, ?_, sinv_empty⟩
      unfold mkChordNode chordFingers
      dsimp only
      rw [List.map_map]
      rfl
  obtain ⟨st, hfold, hrc, hm, hkeys, hitems, -⟩ :=
    insert_fold_ok hashK items st2 hrc2
  refine ⟨st, ?_, hrc, hm.trans hm2, hitems⟩
  unfold chordBuild
  rw [if_neg (by simpa using hids)]
  dsimp only
  rw [← hl0def, ← hsorted0, ← hst1, ← hst2]
  exact hfold


/-- Refinement bridge: `_find_successor_static` over the sorted id list
computes the spec-side successor-in-sorted-set. -/
theorem static_eq_succInSorted (t : Nat) (ids : List Nat) :
    findSuccessorStatic t (List.insertionSort (· ≤ ·) ids) =
      succInSorted t ids := by
  have hperm := List.perm_insertionSort (· ≤ ·) ids
  have hsort := List.sorted_insertionSort (· ≤ ·) ids
  unfold succInSorted
  by_cases hids0 : ids = []
  · subst hids0
    rfl
  · have hsne : List.insertionSort (· ≤ ·) ids ≠ [] := by
      intro h0
      apply hids0
      have hp := hperm
      rw [h0] at hp
      exact List.perm_nil.mp hp.symm
    rcases hf : (List.insertionSort (· ≤ ·) ids).find?
        (fun nid => decide (t ≤ nid)) with _ | sv
    · have hstat : findSuccessorStatic t (List.insertionSort (· ≤ ·) ids) =
          (List.insertionSort (· ≤ ·) ids).headD 0 := by
        unfold findSuccessorStatic
        rw [hf]
      rw [hstat]
      have hall := find?_ge_none hf
      have hfe : ids.filter (fun nid => decide (t ≤ nid)) = [] := by
        rw [List.filter_eq_nil]
        intro a ha
        simp only [decide_eq_true_eq]
        have := hall a (hperm.mem_iff.mpr ha)
        omega
      rw [hfe]
      have hhd : (List.insertionSort (· ≤ ·) ids).headD 0 ∈
          List.insertionSort (· ≤ ·) ids := by
        rcases hsl : List.insertionSort (· ≤ ·) ids with _ | ⟨x, xs⟩
        · exact absurd hsl hsne
        · rw [← hsl]
          rw [hsl]
          exact List.mem_cons_self x xs
      have hmin : ids.min? =
          some ((List.insertionSort (· ≤ ·) ids).headD 0) := by
        rw [List.min?_eq_some_iff']
        constructor
        · exact hperm.mem_iff.mp hhd
        · intro b hb
          exact headD_min hsort b (hperm.mem_iff.mpr hb)
      rw [hmin]
      simp
    · have hstat : findSuccessorStatic t (List.insertionSort (· ≤ ·) ids)
          = sv := by
        unfold findSuccessorStatic
        rw [hf]
      rw [hstat]
      have hmin : (ids.filter (fun nid => decide (t ≤ nid))).min? = some sv := by
        rw [List.min?_eq_some_iff']
        constructor
        · rw [List.mem_filter]
          refine ⟨hperm.mem_iff.mp (List.mem_of_find?_eq_some hf), ?_⟩
          simpa using find?_ge_bound hf
        · intro b hb
          rw [List.mem_filter] at hb
          exact find?_ge_min hsort hf b (hperm.mem_iff.mpr hb.1)
            (by simpa using hb.2)
      rw [hmin]


/-- C1 (amended): after `build(N, I)` every initial key yields a non-empty
lookup, and for every key whose hashed id differs from the default source
peer's id the peer that `_find_successor` resolves equals the spec-side
successor-in-sorted-set of the hashed id over the live ids.  (When the
hashed id equals the source's own id the routing instead returns the
source's ring successor — see the counterexample.) -/
theorem chord_build_ownership {K V : Type} [LinearOrder K] (hashK : K → Nat)
    (m : Nat) (ids : List Nat) (items : List (K × V)) (st : ChordSt K V)
    (hb : chordBuild hashK m ids items = some st) :
    (∀ kv ∈ items, ∃ vs h,
      chordLookup hashK st kv.1 none = some (some vs, h) ∧ vs ≠ []) ∧
    (∀ key : K, hashId hashK st.m key ≠ firstKey st.nodes →
      ∃ h, chordFindSuccessor st (chordFuel st) (firstKey st.nodes)
        (hashId hashK st.m key) =
        some (succInSorted (hashId hashK st.m key)
          (st.nodes.map Prod.fst), h)) := by
  have hids : ids ≠ [] := by
    intro h0
    subst h0
    unfold chordBuild at hb
    simp at hb
  obtain ⟨st2, heq, hrc, hm, hitems⟩ := chordBuild_ok hashK m hids items
  rw [hb] at heq
  obtain rfl := Option.some.inj heq
  constructor
  · intro kv hkv
    obtain ⟨onode, hfind, hne⟩ := hitems kv hkv
    obtain ⟨hops, onode2, hfind2, hlk⟩ :=
      chordLookup_ok (w := chordKeyOwner hashK st kv.1) hrc hashK kv.1 rfl
    rw [hfind] at hfind2
    obtain rfl := Option.some.inj hfind2
    exact ⟨onode.storage.get kv.1, hops, hlk, hne⟩
  · intro key hnefirst
    obtain ⟨hne0, hnd0, hbd0, -⟩ := id hrc
    have hsrc : firstKey st.nodes ∈ st.nodes.map Prod.fst := firstKey_mem hne0
    have ht : hashId hashK st.m key < 2 ^ st.m :=
      Nat.mod_lt _ (pow_pos (by norm_num) _)
    obtain ⟨h, hcf⟩ := client_ok hrc hsrc ht
    refine ⟨h, ?_⟩
    rw [hcf]
    have howner : chordOwnerOf (sortedIds st) (firstKey st.nodes)
        (hashId hashK st.m key) =
        succInSorted (hashId hashK st.m key) (st.nodes.map Prod.fst) := by
      unfold chordOwnerOf
      rw [if_neg hnefirst]
      unfold sortedIds
      exact static_eq_succInSorted _ _
    rw [howner]

/-- C1, refuted corner: on the ring `{1, 5}` with `m = 3`, a key hashing to
`1` — the id of the default source peer — is routed by `_find_successor` to
peer `5`, not to the successor-in-sorted-set of `1`, which is `1` itself. -/
theorem chord_ownership_counterexample :
    (chordBuild (K := Nat) (V := Nat) (fun _ => 1) 3 [1, 5] []).bind
        (fun st => chordFindSuccessor st (chordFuel st) (firstKey st.nodes) 1)
      = some (5, 1) ∧
    (chordBuild (K := Nat) (V := Nat) (fun _ => 1) 3 [1, 5] []).map
        (fun st => st.nodes.map Prod.fst) = some [1, 5] ∧
    succInSorted 1 [1, 5] = 1 ∧ (5 : Nat) ≠ 1 := by
  exact ⟨by decide, by decide, by decide, by decide⟩


/-- C7: on a built Chord DHT, insert-then-lookup contains the value,
insert-update-lookup yields exactly the new list, and insert-delete-lookup
yields the empty list. -/
theorem chord_round_trip {K V : Type} [LinearOrder K] (hashK : K → Nat)
    (m : Nat) (ids : List Nat) (items : List (K × V)) (st : ChordSt K V)
    (hb : chordBuild hashK m ids items = some st) (k : K) (v : V)
    (vs2 : List V) :
    ∃ st1 h1, chordInsert hashK st k v none = some (st1, h1) ∧
      (∃ l h2, chordLookup hashK st1 k none = some (some l, h2) ∧ v ∈ l) ∧
      (∃ st2 h3, chordUpdate hashK st1 k vs2 none = some (st2, h3) ∧
        ∃ h4, chordLookup hashK st2 k none = some (some vs2, h4)) ∧
      (∃ st3 h5, chordDelete hashK st1 k none = some (st3, h5) ∧
        ∃ h6, chordLookup hashK st3 k none = some (some [], h6)) := by
  have hids : ids ≠ [] := by
    intro h0
    subst h0
    unfold chordBuild at hb
    simp at hb
  obtain ⟨st0, heq, hrc, -, -⟩ := chordBuild_ok hashK m hids items
  rw [hb] at heq
  obtain rfl := Option.some.inj heq
  obtain ⟨hops1, onode, hfind, hins⟩ :=
    chordInsert_ok (w := chordKeyOwner hashK st k) hrc hashK k v rfl
  have hsinv0 : SInv onode.storage :=
    (hrc.2.2.2 _ (assocFind_mem hfind)).2.2.2
  set node1 : ChordNodeSt K V :=
    { onode with storage := onode.storage.put k v } with hnode1
  have hsinv1 : SInv node1.storage := by
    rw [hnode1]
    exact sinv_put hsinv0 k v
  set st1 : ChordSt K V :=
    ⟨st.m, assocSet st.nodes (chordKeyOwner hashK st k) node1⟩ with hst1
  have hrc1 : RC st1 := by
    rw [hst1, hnode1]
    exact RC_storage_update hrc hfind (sinv_put hsinv0 k v)
  have hm1 : st1.m = st.m := by rw [hst1]
  have hk1 : st1.nodes.map Prod.fst = st.nodes.map Prod.fst := by
    rw [hst1]
    exact assocSet_keys_of_mem (List.mem_map.mpr ⟨_, assocFind_mem hfind, rfl⟩)
  have how1 : chordKeyOwner hashK st1 k = chordKeyOwner hashK st k :=
    chordKeyOwner_congr hm1 hk1 hashK k
  have hfind1 : assocFind st1.nodes (chordKeyOwner hashK st1 k)
      = some node1 := by
    rw [how1, hst1]
    exact assocFind_assocSet_self
  refine ⟨st1, hops1, hins, ?_, ?_, ?_⟩
  · obtain ⟨h2, o2, hfind2, hlk2⟩ :=
      chordLookup_ok (w := chordKeyOwner hashK st1 k) hrc1 hashK k rfl
    rw [hfind1] at hfind2
    obtain rfl := Option.some.inj hfind2
    refine ⟨node1.storage.get k, h2, hlk2, ?_⟩
    rw [hnode1]
    dsimp only
    rw [sget_put_self hsinv0]
    simp
  · obtain ⟨h3, o3, hfind3, hupd⟩ :=
      chordUpdate_ok (w := chordKeyOwner hashK st1 k) hrc1 hashK k vs2 rfl
    rw [hfind1] at hfind3
    obtain rfl := Option.some.inj hfind3
    set node2 : ChordNodeSt K V :=
      { node1 with storage := node1.storage.update k vs2 } with hnode2
    set st2 : ChordSt K V :=
      ⟨st1.m, assocSet st1.nodes (chordKeyOwner hashK st1 k) node2⟩ with hst2
    have hrc2 : RC st2 := by
      rw [hst2, hnode2]
      exact RC_storage_update hrc1 hfind1 (sinv_upd hsinv1 k vs2)
    have hm2 : st2.m = st1.m := by rw [hst2]
    have hk2 : st2.nodes.map Prod.fst = st1.nodes.map Prod.fst := by
      rw [hst2]
      exact assocSet_keys_of_mem
        (List.mem_map.mpr ⟨_, assocFind_mem hfind1, rfl⟩)
    have how2 : chordKeyOwner hashK st2 k = chordKeyOwner hashK st1 k :=
      chordKeyOwner_congr hm2 hk2 hashK k
    have hfind2b : assocFind st2.nodes (chordKeyOwner hashK st2 k)
        = some node2 := by
      rw [how2, hst2]
      exact assocFind_assocSet_self
    obtain ⟨h4, o4, hfind4, hlk4⟩ :=
      chordLookup_ok (w := chordKeyOwner hashK st2 k) hrc2 hashK k rfl
    rw [hfind2b] at hfind4
    obtain rfl := Option.some.inj hfind4
    refine ⟨st2, h3, hupd, h4, ?_⟩
    have hgv : node2.storage.get k = vs2 := by
      rw [hnode2]
      dsimp only
      exact sget_upd_self hsinv1 k vs2
    rw [← hgv]
    exact hlk4
  · obtain ⟨h5, o5, hfind5, hdel⟩ :=
      chordDelete_ok (w := chordKeyOwner hashK st1 k) hrc1 hashK k rfl
    rw [hfind1] at hfind5
    obtain rfl := Option.some.inj hfind5
    set node3 : ChordNodeSt K V :=
      { node1 with storage := node1.storage.del k } with hnode3
    set st3 : ChordSt K V :=
      ⟨st1.m, assocSet st1.nodes (chordKeyOwner hashK st1 k) node3⟩ with hst3
    have hrc3 : RC st3 := by
      rw [hst3, hnode3]
      exact RC_storage_update hrc1 hfind1 (sinv_del hsinv1 k)
    have hm3 : st3.m = st1.m := by rw [hst3]
    have hk3 : st3.nodes.map Prod.fst = st1.nodes.map Prod.fst := by
      rw [hst3]
      exact assocSet_keys_of_mem
        (List.mem_map.mpr ⟨_, assocFind_mem hfind1, rfl⟩)
    have how3 : chordKeyOwner hashK st3 k = chordKeyOwner hashK st1 k :=
      chordKeyOwner_congr hm3 hk3 hashK k
    have hfind3b : assocFind st3.nodes (chordKeyOwner hashK st3 k)
        = some node3 := by
      rw [how3, hst3]
      exact assocFind_assocSet_self
    obtain ⟨h6, o6, hfind6, hlk6⟩ :=
      chordLookup_ok (w := chordKeyOwner hashK st3 k) hrc3 hashK k rfl
    rw [hfind3b] at hfind6
    obtain rfl := Option.some.inj hfind6
    refine ⟨st3, h5, hdel, h6, ?_⟩
    have hgv : node3.storage.get k = [] := by
      rw [hnode3]
      dsimp only
      exact sget_del_self hsinv1 k
    rw [← hgv]
    exact hlk6


/-- The handler's hop count is the length of its forward chain. -/
theorem handler_path {K V : Type} [LinearOrder K] (st : ChordSt K V) :
    ∀ fuel (node : ChordNodeSt K V) (t r h : Nat),
      findSuccessorHandler st fuel node t = some (r, h) →
      ∃ p, chordRoutePath st fuel node t = some p ∧ h = p.length := by
  intro fuel
  induction fuel with
  | zero =>
    intro node t r h hh
    simp [findSuccessorHandler] at hh
  | succ fuel ih =>
    intro node t r h hh
    simp only [findSuccessorHandler] at hh
    rcases hs : node.successor with _ | succ
    · simp only [hs] at hh
      cases hh
    · simp only [hs] at hh
      by_cases hir : inRange t node.nodeId succ false true = true
      · rw [if_pos hir] at hh
        simp only [Option.some.injEq, Prod.mk.injEq] at hh
        refine ⟨[], ?_, ?_⟩
        · simp only [chordRoutePath, hs]
          rw [if_pos hir]
        · simp only [List.length_nil]
          omega
      · rw [if_neg hir] at hh
        by_cases hcp : closestPrecedingNode node t = node.nodeId
        · rw [if_pos hcp] at hh
          simp only [Option.some.injEq, Prod.mk.injEq] at hh
          refine ⟨[], ?_, ?_⟩
          · simp only [chordRoutePath, hs]
            rw [if_neg hir, if_pos hcp]
          · simp only [List.length_nil]
            omega
        · rw [if_neg hcp] at hh
          rcases hf : assocFind st.nodes (closestPrecedingNode node t)
            with _ | nx
          · simp only [hf] at hh
            cases hh
          · simp only [hf] at hh
            rcases hrec : findSuccessorHandler st fuel nx t with _ | ⟨r0, h0⟩
            · simp only [hrec] at hh
              cases hh
            · simp only [hrec, Option.some.injEq, Prod.mk.injEq] at hh
              obtain ⟨p, hp, hlen⟩ := ih nx t r0 h0 hrec
              refine ⟨closestPrecedingNode node t :: p, ?_, ?_⟩
              · simp only [chordRoutePath, hs]
                rw [if_neg hir, if_neg hcp]
                simp only [hf, hp]
              · simp only [List.length_cons]
                omega

/-- `Chord._find_successor`'s hop count is one more than the forward-chain
length (the initial counted delivery to the source). -/
theorem chordFindSuccessor_path {K V : Type} [LinearOrder K]
    (st : ChordSt K V) (fuel src t r h : Nat)
    (hc : chordFindSuccessor st fuel src t = some (r, h)) :
    ∃ node p, assocFind st.nodes src = some node ∧
      chordRoutePath st fuel node t = some p ∧ h = p.length + 1 := by
  unfold chordFindSuccessor at hc
  rcases hf : assocFind st.nodes src with _ | node
  · simp only [hf] at hc
    cases hc
  · simp only [hf] at hc
    rcases hh : findSuccessorHandler st fuel node t with _ | ⟨r0, h0⟩
    · simp only [hh] at hc
      cases hc
    · simp only [hh, Option.some.injEq, Prod.mk.injEq] at hc
      obtain ⟨p, hp, hlen⟩ := handler_path st fuel node t r0 h0 hh
      exact ⟨node, p, rfl, hp, by omega⟩


theorem chordLookup_hops {K V : Type} [LinearOrder K] (hashK : K → Nat)
    (st : ChordSt K V) (key : K) (srcOpt : Option Nat)
    (res : Option (List V)) (h : Nat) (hne : st.nodes ≠ [])
    (hl : chordLookup hashK st key srcOpt = some (res, h)) :
    ∃ node p,
      assocFind st.nodes (srcOpt.getD (firstKey st.nodes)) = some node ∧
      chordRoutePath st (chordFuel st) node (hashId hashK st.m key) = some p ∧
      h = p.length + 1 := by
  unfold chordLookup at hl
  rw [if_neg (by simpa using hne)] at hl
  rcases hcf : chordFindSuccessor st (chordFuel st)
      (srcOpt.getD (firstKey st.nodes)) (hashId hashK st.m key)
    with _ | ⟨owner, hops⟩
  · simp only [hcf] at hl
    cases hl
  · simp only [hcf] at hl
    rcases hfo : assocFind st.nodes owner with _ | onode
    · simp only [hfo] at hl
      cases hl
    · simp only [hfo, Option.some.injEq, Prod.mk.injEq] at hl
      obtain ⟨-, hh2⟩ := hl
      subst hh2
      obtain ⟨node, p, hfind, hpath, hlen⟩ :=
        chordFindSuccessor_path st _ _ _ _ _ hcf
      exact ⟨node, p, hfind, hpath, hlen⟩

theorem chordInsert_hops {K V : Type} [LinearOrder K] (hashK : K → Nat)
    (st : ChordSt K V) (key : K) (v : V) (srcOpt : Option Nat)
    (st2 : ChordSt K V) (h : Nat) (hne : st.nodes ≠ [])
    (hl : chordInsert hashK st key v srcOpt = some (st2, h)) :
    ∃ node p,
      assocFind st.nodes (srcOpt.getD (firstKey st.nodes)) = some node ∧
      chordRoutePath st (chordFuel st) node (hashId hashK st.m key) = some p ∧
      h = p.length + 1 := by
  unfold chordInsert at hl
  rw [if_neg (by simpa using hne)] at hl
  rcases hcf : chordFindSuccessor st (chordFuel st)
      (srcOpt.getD (firstKey st.nodes)) (hashId hashK st.m key)
    with _ | ⟨owner, hops⟩
  · simp only [hcf] at hl
    cases hl
  · simp only [hcf] at hl
    rcases hfo : assocFind st.nodes owner with _ | onode
    · simp only [hfo] at hl
      cases hl
    · simp only [hfo, Option.some.injEq, Prod.mk.injEq] at hl
      obtain ⟨-, hh2⟩ := hl
      subst hh2
      obtain ⟨node, p, hfind, hpath, hlen⟩ :=
        chordFindSuccessor_path st _ _ _ _ _ hcf
      exact ⟨node, p, hfind, hpath, hlen⟩

theorem chordDelete_hops {K V : Type} [LinearOrder K] (hashK : K → Nat)
    (st : ChordSt K V) (key : K) (srcOpt : Option Nat)
    (st2 : ChordSt K V) (h : Nat) (hne : st.nodes ≠ [])
    (hl : chordDelete hashK st key srcOpt = some (st2, h)) :
    ∃ node p,
      assocFind st.nodes (srcOpt.getD (firstKey st.nodes)) = some node ∧
      chordRoutePath st (chordFuel st) node (hashId hashK st.m key) = some p ∧
      h = p.length + 1 := by
  unfold chordDelete at hl
  rw [if_neg (by simpa using hne)] at hl
  rcases hcf : chordFindSuccessor st (chordFuel st)
      (srcOpt.getD (firstKey st.nodes)) (hashId hashK st.m key)
    with _ | ⟨owner, hops⟩
  · simp only [hcf] at hl
    cases hl
  · simp only [hcf] at hl
    rcases hfo : assocFind st.nodes owner with _ | onode
    · simp only [hfo] at hl
      cases hl
    · simp only [hfo, Option.some.injEq, Prod.mk.injEq] at hl
      obtain ⟨-, hh2⟩ := hl
      subst hh2
      obtain ⟨node, p, hfind, hpath, hlen⟩ :=
        chordFindSuccessor_path st _ _ _ _ _ hcf
      exact ⟨node, p, hfind, hpath, hlen⟩

theorem chordUpdate_hops {K V : Type} [LinearOrder K] (hashK : K → Nat)
    (st : ChordSt K V) (key : K) (vs2 : List V) (srcOpt : Option Nat)
    (st2 : ChordSt K V) (h : Nat) (hne : st.nodes ≠ [])
    (hl : chordUpdate hashK st key vs2 srcOpt = some (st2, h)) :
    ∃ node p,
      assocFind st.nodes (srcOpt.getD (firstKey st.nodes)) = some node ∧
      chordRoutePath st (chordFuel st) node (hashId hashK st.m key) = some p ∧
      h = p.length + 1 := by
  unfold chordUpdate at hl
  rw [if_neg (by simpa using hne)] at hl
  rcases hcf : chordFindSuccessor st (chordFuel st)
      (srcOpt.getD (firstKey st.nodes)) (hashId hashK st.m key)
    with _ | ⟨owner, hops⟩
  · simp only [hcf] at hl
    cases hl
  · simp only [hcf] at hl
    rcases hfo : assocFind st.nodes owner with _ | onode
    · simp only [hfo] at hl
      cases hl
    · simp only [hfo, Option.some.injEq, Prod.mk.injEq] at hl
      obtain ⟨-, hh2⟩ := hl
      subst hh2
      obtain ⟨node, p, hfind, hpath, hlen⟩ :=
        chordFindSuccessor_path st _ _ _ _ _ hcf
      exact ⟨node, p, hfind, hpath, hlen⟩


/-- `_route`'s hop count is the length of its forward chain. -/
theorem pastryRoute_path {K V : Type} [LinearOrder K] (st : PastrySt K V) :
    ∀ fuel (node : PastryNodeSt K V) (key : Nat) (visited : List Nat)
      (o f : Nat),
      pastryRoute st fuel node key visited = some (RouteRes.ok o f) →
      ∃ p, pastryRoutePath st fuel node key visited = some p ∧
        f = p.length := by
  intro fuel
  induction fuel with
  | zero =>
    intro node key visited o f hh
    simp [pastryRoute] at hh
  | succ fuel ih =>
    intro node key visited o f hh
    simp only [pastryRoute] at hh
    simp only [pastryRoutePath]
    by_cases hv : node.nodeId ∈ visited
    · rw [if_pos hv] at hh ⊢
      simp only [Option.some.injEq, RouteRes.ok.injEq] at hh
      refine ⟨[], rfl, ?_⟩
      simp only [List.length_nil]
      omega
    · rw [if_neg hv] at hh ⊢
      by_cases hleaf : isInLeafSetRange node key = true
      · rw [if_pos hleaf] at hh ⊢
        rcases hfc : findClosestIn (2 ^ st.m) key
            (leafSet node ++ [node.nodeId]) with _ | c
        · simp only [hfc, Option.some.injEq, RouteRes.ok.injEq] at hh
          refine ⟨[], rfl, ?_⟩
          simp only [List.length_nil]
          omega
        · simp only [hfc, Option.some.injEq, RouteRes.ok.injEq] at hh
          refine ⟨[], rfl, ?_⟩
          simp only [List.length_nil]
          omega
      · rw [if_neg hleaf] at hh ⊢
        split at hh
        · rename_i entry hrt
          split at hh
          · rename_i hfa
            simp at hh
          · rename_i nx hfa
            split at hh
            · rename_i hrec
              cases hh
            · rename_i o2 f2 hrec
              simp only [Option.some.injEq, RouteRes.ok.injEq] at hh
              obtain ⟨p, hp, hlen⟩ := ih nx key (node.nodeId :: visited)
                o2 f2 hrec
              rw [hp]
              refine ⟨entry :: p, rfl, ?_⟩
              simp only [List.length_cons]
              omega
            · rename_i f2 hrec
              simp at hh
        · rename_i hrt
          split at hh
          · rename_i bn hrare
            split at hh
            · rename_i hbn
              rw [if_pos hbn]
              split at hh
              · rename_i hfa
                simp at hh
              · rename_i nx hfa
                split at hh
                · rename_i hrec
                  cases hh
                · rename_i o2 f2 hrec
                  simp only [Option.some.injEq, RouteRes.ok.injEq] at hh
                  obtain ⟨p, hp, hlen⟩ := ih nx key (node.nodeId :: visited)
                    o2 f2 hrec
                  rw [hp]
                  refine ⟨bn :: p, rfl, ?_⟩
                  simp only [List.length_cons]
                  omega
                · rename_i f2 hrec
                  simp at hh
            · rename_i hbn
              rw [if_neg hbn]
              simp only [Option.some.injEq, RouteRes.ok.injEq] at hh
              refine ⟨[], rfl, ?_⟩
              simp only [List.length_nil]
              omega
          · rename_i hrare
            simp only [Option.some.injEq, RouteRes.ok.injEq] at hh
            refine ⟨[], rfl, ?_⟩
            simp only [List.length_nil]
            omega


theorem pastryOpCore_hops {K V : Type} [LinearOrder K] (hashK : K → Nat)
    (st : PastrySt K V) (key : K) (srcOpt : Option Nat)
    (owner hops : Nat) (onode : PastryNodeSt K V)
    (hc : pastryOpCore hashK st key srcOpt = some (owner, hops, onode)) :
    ∃ node p,
      assocFind st.nodes (srcOpt.getD (firstKey st.nodes)) = some node ∧
      pastryRoutePath st (pastryFuel st) node (hashId hashK st.m key) []
        = some p ∧
      hops = p.length := by
  unfold pastryOpCore at hc
  split at hc
  · cases hc
  · dsimp only at hc
    split at hc
    · cases hc
    · rename_i node hfind
      split at hc
      · rename_i owner2 hops2 hroute
        split at hc
        · cases hc
        · rename_i onode2 hfo
          simp only [Option.some.injEq, Prod.mk.injEq] at hc
          obtain ⟨rfl, rfl, rfl⟩ := hc
          obtain ⟨p, hp, hlen⟩ := pastryRoute_path st _ _ _ _ _ _ hroute
          exact ⟨node, p, hfind, hp, hlen⟩
      · cases hc

theorem pastryLookup_hops {K V : Type} [LinearOrder K] (hashK : K → Nat)
    (st : PastrySt K V) (key : K) (srcOpt : Option Nat)
    (res : List V) (h : Nat)
    (hl : pastryLookup hashK st key srcOpt = some (res, h)) :
    ∃ node p,
      assocFind st.nodes (srcOpt.getD (firstKey st.nodes)) = some node ∧
      pastryRoutePath st (pastryFuel st) node (hashId hashK st.m key) []
        = some p ∧
      h = p.length := by
  unfold pastryLookup at hl
  rcases hc : pastryOpCore hashK st key srcOpt with _ | ⟨owner, hops, onode⟩
  · rw [hc] at hl
    cases hl
  · rw [hc] at hl
    simp only [Option.map_some', Option.some.injEq, Prod.mk.injEq] at hl
    obtain ⟨-, rfl⟩ := hl
    exact pastryOpCore_hops hashK st key srcOpt owner _ onode hc

theorem pastryInsert_hops {K V : Type} [LinearOrder K] (hashK : K → Nat)
    (st : PastrySt K V) (key : K) (v : V) (srcOpt : Option Nat)
    (st2 : PastrySt K V) (h : Nat)
    (hl : pastryInsert hashK st key v srcOpt = some (st2, h)) :
    ∃ node p,
      assocFind st.nodes (srcOpt.getD (firstKey st.nodes)) = some node ∧
      pastryRoutePath st (pastryFuel st) node (hashId hashK st.m key) []
        = some p ∧
      h = p.length := by
  unfold pastryInsert at hl
  rcases hc : pastryOpCore hashK st key srcOpt with _ | ⟨owner, hops, onode⟩
  · rw [hc] at hl
    cases hl
  · rw [hc] at hl
    simp only [Option.map_some', Option.some.injEq, Prod.mk.injEq] at hl
    obtain ⟨-, rfl⟩ := hl
    exact pastryOpCore_hops hashK st key srcOpt owner _ onode hc

theorem pastryDelete_hops {K V : Type} [LinearOrder K] (hashK : K → Nat)
    (st : PastrySt K V) (key : K) (srcOpt : Option Nat)
    (st2 : PastrySt K V) (h : Nat)
    (hl : pastryDelete hashK st key srcOpt = some (st2, h)) :
    ∃ node p,
      assocFind st.nodes (srcOpt.getD (firstKey st.nodes)) = some node ∧
      pastryRoutePath st (pastryFuel st) node (hashId hashK st.m key) []
        = some p ∧
      h = p.length := by
  unfold pastryDelete at hl
  rcases hc : pastryOpCore hashK st key srcOpt with _ | ⟨owner, hops, onode⟩
  · rw [hc] at hl
    cases hl
  · rw [hc] at hl
    simp only [Option.map_some', Option.some.injEq, Prod.mk.injEq] at hl
    obtain ⟨-, rfl⟩ := hl
    exact pastryOpCore_hops hashK st key srcOpt owner _ onode hc

theorem pastryUpdate_hops {K V : Type} [LinearOrder K] (hashK : K → Nat)
    (st : PastrySt K V) (key : K) (vs2 : List V) (srcOpt : Option Nat)
    (st2 : PastrySt K V) (h : Nat)
    (hl : pastryUpdate hashK st key vs2 srcOpt = some (st2, h)) :
    ∃ node p,
      assocFind st.nodes (srcOpt.getD (firstKey st.nodes)) = some node ∧
      pastryRoutePath st (pastryFuel st) node (hashId hashK st.m key) []
        = some p ∧
      h = p.length := by
  unfold pastryUpdate at hl
  rcases hc : pastryOpCore hashK st key srcOpt with _ | ⟨owner, hops, onode⟩
  · rw [hc] at hl
    cases hl
  · rw [hc] at hl
    simp only [Option.map_some', Option.some.injEq, Prod.mk.injEq] at hl
    obtain ⟨-, rfl⟩ := hl
    exact pastryOpCore_hops hashK st key srcOpt owner _ onode hc


/-- C3 (amended): for every client operation the reported hop count equals
the number of forwarded routing messages — plus one for Chord, whose
`_find_successor` delivers the request to the source itself with a counted
send, so a Chord operation never reports `0` even when the source owns the
key; Pastry operations report exactly the number of forwards (`0` when the
source serves the key itself).  Terminal store-op messages are uncounted in
both protocols. -/
theorem hop_counter_contract {K V : Type} [LinearOrder K] (hashK : K → Nat) :
    ((∀ (st : ChordSt K V) (key : K) (srcOpt : Option Nat)
        (res : Option (List V)) (h : Nat), st.nodes ≠ [] →
      chordLookup hashK st key srcOpt = some (res, h) →
      ∃ node p,
        assocFind st.nodes (srcOpt.getD (firstKey st.nodes)) = some node ∧
        chordRoutePath st (chordFuel st) node (hashId hashK st.m key)
          = some p ∧ h = p.length + 1) ∧
    (∀ (st : ChordSt K V) (key : K) (v : V) (srcOpt : Option Nat)
        (st2 : ChordSt K V) (h : Nat), st.nodes ≠ [] →
      chordInsert hashK st key v srcOpt = some (st2, h) →
      ∃ node p,
        assocFind st.nodes (srcOpt.getD (firstKey st.nodes)) = some node ∧
        chordRoutePath st (chordFuel st) node (hashId hashK st.m key)
          = some p ∧ h = p.length + 1) ∧
    (∀ (st : ChordSt K V) (key : K) (srcOpt : Option Nat)
        (st2 : ChordSt K V) (h : Nat), st.nodes ≠ [] →
      chordDelete hashK st key srcOpt = some (st2, h) →
      ∃ node p,
        assocFind st.nodes (srcOpt.getD (firstKey st.nodes)) = some node ∧
        chordRoutePath st (chordFuel st) node (hashId hashK st.m key)
          = some p ∧ h = p.length + 1) ∧
    (∀ (st : ChordSt K V) (key : K) (vs2 : List V) (srcOpt : Option Nat)
        (st2 : ChordSt K V) (h : Nat), st.nodes ≠ [] →
      chordUpdate hashK st key vs2 srcOpt = some (st2, h) →
      ∃ node p,
        assocFind st.nodes (srcOpt.getD (firstKey st.nodes)) = some node ∧
        chordRoutePath st (chordFuel st) node (hashId hashK st.m key)
          = some p ∧ h = p.length + 1)) ∧
    ((∀ (st : PastrySt K V) (key : K) (srcOpt : Option Nat)
        (res : List V) (h : Nat),
      pastryLookup hashK st key srcOpt = some (res, h) →
      ∃ node p,
        assocFind st.nodes (srcOpt.getD (firstKey st.nodes)) = some node ∧
        pastryRoutePath st (pastryFuel st) node (hashId hashK st.m key) []
          = some p ∧ h = p.length) ∧
    (∀ (st : PastrySt K V) (key : K) (v : V) (srcOpt : Option Nat)
        (st2 : PastrySt K V) (h : Nat),
      pastryInsert hashK st key v srcOpt = some (st2, h) →
      ∃ node p,
        assocFind st.nodes (srcOpt.getD (firstKey st.nodes)) = some node ∧
        pastryRoutePath st (pastryFuel st) node (hashId hashK st.m key) []
          = some p ∧ h = p.length) ∧
    (∀ (st : PastrySt K V) (key : K) (srcOpt : Option Nat)
        (st2 : PastrySt K V) (h : Nat),
      pastryDelete hashK st key srcOpt = some (st2, h) →
      ∃ node p,
        assocFind st.nodes (srcOpt.getD (firstKey st.nodes)) = some node ∧
        pastryRoutePath st (pastryFuel st) node (hashId hashK st.m key) []
          = some p ∧ h = p.length) ∧
    (∀ (st : PastrySt K V) (key : K) (vs2 : List V) (srcOpt : Option Nat)
        (st2 : PastrySt K V) (h : Nat),
      pastryUpdate hashK st key vs2 srcOpt = some (st2, h) →
      ∃ node p,
        assocFind st.nodes (srcOpt.getD (firstKey st.nodes)) = some node ∧
        pastryRoutePath st (pastryFuel st) node (hashId hashK st.m key) []
          = some p ∧ h = p.length)) := by
  refine ⟨⟨?_, ?_, ?_, ?_⟩, ?_, ?_, ?_, ?_⟩
  · exact fun st key srcOpt res h hne hl =>
      chordLookup_hops hashK st key srcOpt res h hne hl
  · exact fun st key v srcOpt st2 h hne hl =>
      chordInsert_hops hashK st key v srcOpt st2 h hne hl
  · exact fun st key srcOpt st2 h hne hl =>
      chordDelete_hops hashK st key srcOpt st2 h hne hl
  · exact fun st key vs2 srcOpt st2 h hne hl =>
      chordUpdate_hops hashK st key vs2 srcOpt st2 h hne hl
  · exact fun st key srcOpt res h hl =>
      pastryLookup_hops hashK st key srcOpt res h hl
  · exact fun st key v srcOpt st2 h hl =>
      pastryInsert_hops hashK st key v srcOpt st2 h hl
  · exact fun st key srcOpt st2 h hl =>
      pastryDelete_hops hashK st key srcOpt st2 h hl
  · exact fun st key vs2 srcOpt st2 h hl =>
      pastryUpdate_hops hashK st key vs2 srcOpt st2 h hl

/-- C3, refuted corner: on a one-peer Chord ring the default-source lookup
is served by the source itself, yet reports `1` hop (the counted initial
delivery of the `find_successor` request), not `0` as claimed. -/
theorem hop_counter_counterexample :
    (chordBuild (K := Nat) (V := Nat) (fun q => q) 2 [0] []).bind
      (fun st => chordLookup (fun q => q) st 3 none) = some (some [], 1) ∧
    (chordBuild (K := Nat) (V := Nat) (fun q => q) 2 [0] []).map
      (fun st => st.nodes.map Prod.fst) = some [0] := by
  exact ⟨by decide, by decide⟩

/-- Witness for the hop-counter contract: concrete one-peer instances of the
Chord conjunct (1 hop) and the Pastry conjunct (0 hops). -/
theorem hop_counter_contract_witness :
    ∃ (stc : ChordSt Nat Nat) (stp : PastrySt Nat Nat)
      (nodec : ChordNodeSt Nat Nat) (pc : List Nat)
      (nodep : PastryNodeSt Nat Nat) (pp : List Nat),
      chordBuild (fun q => q) 2 [0] [] = some stc ∧
      chordLookup (fun q => q) stc 3 none = some (some [], 1) ∧
      assocFind stc.nodes ((none : Option Nat).getD (firstKey stc.nodes))
        = some nodec ∧
      chordRoutePath stc (chordFuel stc) nodec
        (hashId (fun q => q) stc.m 3) = some pc ∧
      1 = pc.length + 1 ∧
      pastryBuild (fun q => q) 2 1 [0] [] = some stp ∧
      pastryLookup (fun q => q) stp 3 none = some ([], 0) ∧
      assocFind stp.nodes ((none : Option Nat).getD (firstKey stp.nodes))
        = some nodep ∧
      pastryRoutePath stp (pastryFuel stp) nodep
        (hashId (fun q => q) stp.m 3) [] = some pp ∧
      0 = pp.length := by
  have hsc : (chordBuild (K := Nat) (V := Nat)
      (fun q => q) 2 [0] []).isSome = true := by decide
  obtain ⟨stc, hbc⟩ := Option.isSome_iff_exists.mp hsc
  have hsp : (pastryBuild (K := Nat) (V := Nat)
      (fun q => q) 2 1 [0] []).isSome = true := by decide
  obtain ⟨stp, hbp⟩ := Option.isSome_iff_exists.mp hsp
  have hlkc : chordLookup (fun q => q) stc 3 none = some (some [], 1) := by
    have hq : (chordBuild (K := Nat) (V := Nat) (fun q => q) 2 [0] []).bind
        (fun st => chordLookup (fun q => q) st 3 none)
        = some (some [], 1) := by decide
    rw [hbc] at hq
    simpa using hq
  have hnec : stc.nodes ≠ [] := by
    have hq : (chordBuild (K := Nat) (V := Nat) (fun q => q) 2 [0] []).map
        (fun st => st.nodes.isEmpty) = some false := by decide
    rw [hbc] at hq
    simp only [Option.map_some', Option.some.injEq] at hq
    intro h0
    rw [h0] at hq
    simp at hq
  have hlkp : pastryLookup (fun q => q) stp 3 none = some ([], 0) := by
    have hq : (pastryBuild (K := Nat) (V := Nat) (fun q => q) 2 1 [0] []).bind
        (fun st => pastryLookup (fun q => q) st 3 none)
        = some ([], 0) := by decide
    rw [hbp] at hq
    simpa using hq
  obtain ⟨nodec, pc, hfc, hpc, hlc⟩ :=
    (hop_counter_contract (K := Nat) (V := Nat) (fun q => q)).1.1
      stc 3 none (some []) 1 hnec hlkc
  obtain ⟨nodep, pp, hfp, hpp, hlp⟩ :=
    (hop_counter_contract (K := Nat) (V := Nat) (fun q => q)).2.1
      stp 3 none [] 0 hlkp
  exact ⟨stc, stp, nodec, pc, nodep, pp, hbc, hlkc, hfc, hpc, hlc,
    hbp, hlkp, hfp, hpp, hlp⟩


/-- Witness for the Chord ownership theorem at a concrete build. -/
theorem chord_build_ownership_witness :
    ∃ st : ChordSt Nat Nat,
      chordBuild (fun q => q) 3 [1, 5] [(2, 7)] = some st ∧
      (∀ kv ∈ [((2 : Nat), (7 : Nat))], ∃ vs h,
        chordLookup (fun q => q) st kv.1 none = some (some vs, h) ∧
        vs ≠ []) ∧
      (∀ key : Nat, hashId (fun q => q) st.m key ≠ firstKey st.nodes →
        ∃ h, chordFindSuccessor st (chordFuel st) (firstKey st.nodes)
          (hashId (fun q => q) st.m key) =
          some (succInSorted (hashId (fun q => q) st.m key)
            (st.nodes.map Prod.fst), h)) := by
  have hs : (chordBuild (K := Nat) (V := Nat)
      (fun q => q) 3 [1, 5] [(2, 7)]).isSome = true := by decide
  obtain ⟨st, hb⟩ := Option.isSome_iff_exists.mp hs
  obtain ⟨h1, h2⟩ := chord_build_ownership (fun q => q) 3 [1, 5] [(2, 7)] st hb
  exact ⟨st, hb, h1, h2⟩

/-- Witness for the round-trip theorem at a concrete build. -/
theorem chord_round_trip_witness :
    ∃ st : ChordSt Nat Nat, chordBuild (fun q => q) 3 [1, 5] [] = some st ∧
      ∃ st1 h1, chordInsert (fun q => q) st 2 7 none = some (st1, h1) ∧
        (∃ l h2, chordLookup (fun q => q) st1 2 none = some (some l, h2) ∧
          7 ∈ l) ∧
        (∃ st2 h3, chordUpdate (fun q => q) st1 2 [9] none
            = some (st2, h3) ∧
          ∃ h4, chordLookup (fun q => q) st2 2 none = some (some [9], h4)) ∧
        (∃ st3 h5, chordDelete (fun q => q) st1 2 none = some (st3, h5) ∧
          ∃ h6, chordLookup (fun q => q) st3 2 none = some (some [], h6)) := by
  have hs : (chordBuild (K := Nat) (V := Nat)
      (fun q => q) 3 [1, 5] []).isSome = true := by decide
  obtain ⟨st, hb⟩ := Option.isSome_iff_exists.mp hs
  exact ⟨st, hb, chord_round_trip (fun q => q) 3 [1, 5] [] st hb 2 7 [9]⟩


/-! ### Finger maintenance through churn (claim C5) -/

theorem mkChordNode_starts {K V : Type} (nid m : Nat) :
    (mkChordNode K V nid m).fingerTable.map FingerEntry.start =
      (List.range m).map (fun k => (nid + 2 ^ k) % 2 ^ m) := by
  unfold mkChordNode
  dsimp only
  rw [List.map_map]
  rfl

theorem chordFingers_starts {m n : Nat} {sorted : List Nat} :
    (chordFingers m n sorted).map FingerEntry.start =
      (List.range m).map (fun k => (n + 2 ^ k) % 2 ^ m) := by
  unfold chordFingers
  rw [List.map_map]
  rfl

theorem chordFingers_getD {m n i : Nat} {sorted : List Nat} (hi : i < m) :
    (chordFingers m n sorted).getD i ⟨0, none⟩ =
      ⟨(n + 2 ^ i) % 2 ^ m,
        some (findSuccessorStatic ((n + 2 ^ i) % 2 ^ m) sorted)⟩ := by
  unfold chordFingers
  have hlen : i < ((List.range m).map (fun k =>
      (⟨(n + 2 ^ k) % 2 ^ m,
        some (findSuccessorStatic ((n + 2 ^ k) % 2 ^ m) sorted)⟩ :
          FingerEntry))).length := by
    simpa using hi
  rw [List.getD_eq_getElem _ _ hlen]
  simp

theorem rebuildFingers_spec {K V : Type} (st : ChordSt K V)
    (hstarts : startsOk st) :
    fingersRebuilt (rebuildFingers st) ∧ startsOk (rebuildFingers st) ∧
      (rebuildFingers st).m = st.m ∧
      (rebuildFingers st).nodes.map Prod.fst = st.nodes.map Prod.fst := by
  have hkeys : (rebuildFingers st).nodes.map Prod.fst
      = st.nodes.map Prod.fst := by
    unfold rebuildFingers
    dsimp only
    exact setFingersTo_keys _ _
  have hsorted : sortedIds (rebuildFingers st) = sortedIds st := by
    unfold sortedIds
    rw [hkeys]
  refine ⟨?_, ?_, rfl, hkeys⟩
  · intro p hp
    unfold rebuildFingers setFingersTo at hp
    dsimp only at hp
    rcases List.mem_map.mp hp with ⟨q, hq, rfl⟩
    have hst := hstarts q hq
    dsimp only
    rw [hsorted]
    show q.2.fingerTable.map (fun f =>
        (⟨f.start, some (findSuccessorStatic f.start (sortedIds st))⟩ :
          FingerEntry)) = chordFingers (rebuildFingers st).m q.1 (sortedIds st)
    have hc1 : q.2.fingerTable.map (fun f =>
        (⟨f.start, some (findSuccessorStatic f.start (sortedIds st))⟩ :
          FingerEntry)) =
        (q.2.fingerTable.map FingerEntry.start).map (fun s =>
          (⟨s, some (findSuccessorStatic s (sortedIds st))⟩ : FingerEntry)) := by
      rw [List.map_map]
      rfl
    rw [hc1, hst]
    unfold chordFingers
    rw [List.map_map]
    rfl
  · intro p hp
    unfold rebuildFingers setFingersTo at hp
    dsimp only at hp
    rcases List.mem_map.mp hp with ⟨q, hq, rfl⟩
    have hst := hstarts q hq
    dsimp only
    rw [List.map_map]
    exact hst

theorem startsOk_set {K V : Type} {m : Nat}
    {d : List (Nat × ChordNodeSt K V)}
    (hso : startsOk (⟨m, d⟩ : ChordSt K V)) (w : Nat) (o : ChordNodeSt K V)
    (hft : o.fingerTable.map FingerEntry.start =
      (List.range m).map (fun k => (w + 2 ^ k) % 2 ^ m)) :
    startsOk (⟨m, assocSet d w o⟩ : ChordSt K V) := by
  intro p hp
  dsimp only at hp ⊢
  rcases mem_assocSet hp with rfl | ⟨hpd, -⟩
  · exact hft
  · exact hso p hpd

theorem fingersRebuilt_set {K V : Type} {m : Nat}
    {d : List (Nat × ChordNodeSt K V)}
    (hfr : fingersRebuilt (⟨m, d⟩ : ChordSt K V)) (w : Nat)
    (o q : ChordNodeSt K V) (hfind : assocFind d w = some o)
    (hft : q.fingerTable = o.fingerTable) :
    fingersRebuilt (⟨m, assocSet d w q⟩ : ChordSt K V) := by
  have hkeys : (assocSet d w q).map Prod.fst = d.map Prod.fst :=
    assocSet_keys_of_mem (List.mem_map.mpr ⟨_, assocFind_mem hfind, rfl⟩)
  have hsorted : sortedIds (⟨m, assocSet d w q⟩ : ChordSt K V)
      = sortedIds (⟨m, d⟩ : ChordSt K V) := by
    unfold sortedIds
    dsimp only
    rw [hkeys]
  intro p hp
  dsimp only at hp ⊢
  rw [hsorted]
  rcases mem_assocSet hp with rfl | ⟨hpd, -⟩
  · dsimp only
    rw [hft]
    exact hfr _ (assocFind_mem hfind)
  · exact hfr p hpd

theorem startsOk_erase {K V : Type} {m : Nat}
    {d : List (Nat × ChordNodeSt K V)}
    (hso : startsOk (⟨m, d⟩ : ChordSt K V)) (k : Nat) :
    startsOk (⟨m, assocErase d k⟩ : ChordSt K V) := by
  intro p hp
  dsimp only at hp ⊢
  exact hso p (List.mem_of_mem_eraseP hp)


theorem chordJoin_inv {K V : Type} [LinearOrder K] (hashK : K → Nat)
    {st st2 : ChordSt K V} {nid hops : Nat}
    (h : chordJoin hashK st nid = some (st2, hops))
    (hso : startsOk st) (hfr : fingersRebuilt st) (hne : st.nodes ≠ []) :
    startsOk st2 ∧ fingersRebuilt st2 ∧ st2.m = st.m := by
  unfold chordJoin at h
  dsimp only at h
  split at h
  case isTrue =>
    obtain ⟨rfl, rfl⟩ : st = st2 ∧ 0 = hops := by
      have := Option.some.inj h
      exact ⟨congrArg Prod.fst this, congrArg Prod.snd this⟩
    exact ⟨hso, hfr, rfl⟩
  case isFalse hhas =>
    split at h
    case isTrue hemp => exact absurd (List.isEmpty_iff.mp hemp) hne
    case isFalse hemp =>
    split at h
    · cases h
    · rename_i succId hops0 hfs
      split at h
      · cases h
      · rename_i succNode hfsucc
        split at h
        · cases h
        · rename_i predId hpredeq
          split at h
          · cases h
          · rename_i hneq
            split at h
            · cases h
            · rename_i predN hfp
              split at h
              · cases h
              · rename_i succN2 hfs2
                split at h
                · cases h
                · rename_i succN3 hfs3
                  split at h
                  · cases h
                  · rename_i newN4 hfn4
                    injection h with h2
                    injection h2 with hT hh
                    subst hT
                    have hsoReg : startsOk (⟨st.m,
                        st.nodes ++ [(nid % 2 ^ st.m,
                          mkChordNode K V (nid % 2 ^ st.m) st.m)]⟩ :
                        ChordSt K V) := by
                      intro p hp
                      dsimp only at hp ⊢
                      rcases List.mem_append.mp hp with hp1 | hp2
                      · exact hso p hp1
                      · obtain rfl := List.mem_singleton.mp hp2
                        exact mkChordNode_starts (K := K) (V := V) _ _
                    have hso1 := startsOk_set hsoReg (nid % 2 ^ st.m)
                      { (mkChordNode K V (nid % 2 ^ st.m) st.m) with
                          successor := some succId,
                          predecessor := some predId }
                      (mkChordNode_starts (K := K) (V := V) _ _)
                    have hso2 := startsOk_set hso1 predId
                      { predN with successor := some (nid % 2 ^ st.m) }
                      (hso1 _ (assocFind_mem hfp))
                    have hso3 := startsOk_set hso2 succId
                      { succN2 with predecessor := some (nid % 2 ^ st.m) }
                      (hso2 _ (assocFind_mem hfs2))
                    obtain ⟨hfr3, hso3R, -, -⟩ := rebuildFingers_spec _ hso3
                    have hso4 := startsOk_set hso3R succId
                      { succN3 with storage :=
                          (transferKeys hashK st.m succN3.storage predId
                            (nid % 2 ^ st.m)).2 }
                      (hso3R _ (assocFind_mem hfs3))
                    have hfr4 := fingersRebuilt_set hfr3 succId succN3
                      { succN3 with storage :=
                          (transferKeys hashK st.m succN3.storage predId
                            (nid % 2 ^ st.m)).2 }
                      hfs3 rfl
                    have hso5 := startsOk_set hso4 (nid % 2 ^ st.m)
                      { newN4 with storage :=
                          (storePutItems newN4.storage
                            (transferKeys hashK st.m succN3.storage predId
                              (nid % 2 ^ st.m)).1) }
                      (hso4 _ (assocFind_mem hfn4))
                    have hfr5 := fingersRebuilt_set hfr4 (nid % 2 ^ st.m)
                      newN4
                      { newN4 with storage :=
                          (storePutItems newN4.storage
                            (transferKeys hashK st.m succN3.storage predId
                              (nid % 2 ^ st.m)).1) }
                      hfn4 rfl
                    exact ⟨hso5, hfr5, rfl⟩


theorem startsOk_succUpd {K V : Type} {m : Nat}
    {d : List (Nat × ChordNodeSt K V)}
    (hso : startsOk (⟨m, d⟩ : ChordSt K V)) (x y : Option Nat) :
    startsOk (⟨m, (match x with
      | some p =>
        match assocFind d p with
        | some pN => assocSet d p { pN with successor := y }
        | none => d
      | none => d)⟩ : ChordSt K V) := by
  rcases x with _ | p
  · exact hso
  · dsimp only
    rcases hf : assocFind d p with _ | pN
    · exact hso
    · exact startsOk_set hso p { pN with successor := y }
        (hso _ (assocFind_mem hf))

theorem startsOk_predUpd {K V : Type} {m : Nat}
    {d : List (Nat × ChordNodeSt K V)}
    (hso : startsOk (⟨m, d⟩ : ChordSt K V)) (x y : Option Nat) :
    startsOk (⟨m, (match x with
      | some s2 =>
        match assocFind d s2 with
        | some sN => assocSet d s2 { sN with predecessor := y }
        | none => d
      | none => d)⟩ : ChordSt K V) := by
  rcases x with _ | s2
  · exact hso
  · dsimp only
    rcases hf : assocFind d s2 with _ | sN
    · exact hso
    · exact startsOk_set hso s2 { sN with predecessor := y }
        (hso _ (assocFind_mem hf))

theorem chordLeave_inv {K V : Type} [LinearOrder K]
    {st st2 : ChordSt K V} {nid hops : Nat} {graceful : Bool}
    (h : chordLeave st nid graceful = some (st2, hops))
    (hso : startsOk st) (hfr : st.nodes = [] ∨ fingersRebuilt st) :
    startsOk st2 ∧ (st2.nodes = [] ∨ fingersRebuilt st2) ∧ st2.m = st.m := by
  unfold chordLeave at h
  dsimp only at h
  split at h
  case h_1 =>
    obtain ⟨rfl, rfl⟩ : st = st2 ∧ 0 = hops := by
      have h2 := Option.some.inj h
      exact ⟨congrArg Prod.fst h2, congrArg Prod.snd h2⟩
    exact ⟨hso, hfr, rfl⟩
  case h_2 node hfind =>
    split at h
    · cases h
    · rename_i ns1 hns1
      have hso1 : startsOk (⟨st.m, ns1⟩ : ChordSt K V) := by
        cases graceful
        · simp only [Bool.false_eq_true, if_false] at hns1
          obtain rfl := Option.some.inj hns1
          exact hso
        · simp only [if_true] at hns1
          split at hns1
          · cases hns1
          · rename_i succId hsucc
            split at hns1
            · cases hns1
            · rename_i succNode hfind2
              obtain rfl := Option.some.inj hns1
              exact startsOk_set hso succId
                { succNode with storage :=
                    (storePutItems succNode.storage
                      node.storage.getAllItems) }
                (hso _ (assocFind_mem hfind2))
      have hso3 := startsOk_predUpd
        (startsOk_succUpd hso1 node.predecessor node.successor)
        node.successor node.predecessor
      have hso4 := startsOk_erase hso3 (nid % 2 ^ st.m)
      split at h
      case isTrue hempv =>
        obtain ⟨rfl, rfl⟩ : (⟨st.m, _⟩ : ChordSt K V) = st2 ∧ 0 = hops := by
          have h2 := Option.some.inj h
          exact ⟨congrArg Prod.fst h2, congrArg Prod.snd h2⟩
        exact ⟨hso4, Or.inl (List.isEmpty_iff.mp hempv), rfl⟩
      case isFalse hempv =>
        obtain ⟨rfl, rfl⟩ : rebuildFingers (⟨st.m, _⟩ : ChordSt K V) = st2 ∧
            0 = hops := by
          have h2 := Option.some.inj h
          exact ⟨congrArg Prod.fst h2, congrArg Prod.snd h2⟩
        obtain ⟨hfrR, hsoR, hmR, -⟩ := rebuildFingers_spec _ hso4
        exact ⟨hsoR, Or.inr hfrR, hmR⟩


theorem chordApplyOp_inv {K V : Type} [LinearOrder K] (hashK : K → Nat)
    {st st2 : ChordSt K V} {op : ChordOp}
    (h : chordApplyOp hashK st op = some st2)
    (hso : startsOk st) (hfr : st.nodes = [] ∨ fingersRebuilt st)
    (hg : ∀ nid, op = ChordOp.join nid → st.nodes ≠ []) :
    startsOk st2 ∧ (st2.nodes = [] ∨ fingersRebuilt st2) ∧ st2.m = st.m := by
  cases op with
  | join nid =>
    have hne : st.nodes ≠ [] := hg nid rfl
    have hfr2 : fingersRebuilt st := by
      rcases hfr with hfr | hfr
      · exact absurd hfr hne
      · exact hfr
    unfold chordApplyOp at h
    dsimp only at h
    rcases hj : chordJoin hashK st nid with _ | pr
    · rw [hj] at h
      cases h
    · rw [hj] at h
      obtain rfl := Option.some.inj h
      obtain ⟨hso2, hfr3, hm⟩ := chordJoin_inv hashK hj hso hfr2 hne
      exact ⟨hso2, Or.inr hfr3, hm⟩
  | leave nid g =>
    unfold chordApplyOp at h
    dsimp only at h
    rcases hl : chordLeave st nid g with _ | pr
    · rw [hl] at h
      cases h
    · rw [hl] at h
      obtain rfl := Option.some.inj h
      exact chordLeave_inv hl hso hfr

theorem chordApplyOps_inv {K V : Type} [LinearOrder K] (hashK : K → Nat) :
    ∀ (ops : List ChordOp) (st st2 : ChordSt K V),
    chordApplyOps hashK st ops = some st2 →
    joinsOnNonemptyB hashK st ops = true →
    startsOk st →
    (st.nodes = [] ∨ fingersRebuilt st) →
    startsOk st2 ∧ (st2.nodes = [] ∨ fingersRebuilt st2)
  | [], st, st2, h, _, hso, hfr => by
    obtain rfl : st = st2 := Option.some.inj h
    exact ⟨hso, hfr⟩
  | op :: rest, st, st2, h, hg, hso, hfr => by
    unfold chordApplyOps at h
    unfold joinsOnNonemptyB at hg
    rw [Bool.and_eq_true] at hg
    obtain ⟨hg1, hg2⟩ := hg
    split at h
    · cases h
    · rename_i st3 heq
      rw [heq] at hg2
      have hgp : ∀ nid, op = ChordOp.join nid → st.nodes ≠ [] := by
        intro nid hop
        subst hop
        simp only [Bool.not_eq_true'] at hg1
        exact fun hempv => by
          rw [hempv] at hg1
          simp at hg1
      obtain ⟨hso3, hfr3, -⟩ := chordApplyOp_inv hashK heq hso hfr hgp
      exact chordApplyOps_inv hashK rest st3 st2 h hg2 hso3 hfr3


theorem fingersRebuilt_startsOk {K V : Type} {st : ChordSt K V}
    (hfr : fingersRebuilt st) : startsOk st := by
  intro p hp
  rw [hfr p hp]
  exact chordFingers_starts

theorem fingersRebuilt_fingerInvariant {K V : Type} {st : ChordSt K V}
    (hfr : fingersRebuilt st) : fingerInvariant st := by
  intro p hp i hi
  rw [hfr p hp, chordFingers_getD hi]
  exact ⟨rfl, congrArg some (static_eq_succInSorted _ _)⟩


/-- Claim C5 (amended): after `build` on a nonempty id list and any sequence
of `join`/`leave` operations in which every `join` happens while at least one
peer is live, every live peer's finger `i` has start `(n + 2^i) mod 2^m` and
node the successor of that start in the live id set.  (Without the
side condition the claim fails: a `join` onto an emptied ring creates a
single node whose finger nodes are all `None`, since `join` only rebuilds
fingers on the non-first-node path.) -/
theorem chord_finger_invariant {K V : Type} [LinearOrder K] (hashK : K → Nat)
    (m : Nat) {ids : List Nat} (hids : ids ≠ []) (items : List (K × V))
    {st0 st2 : ChordSt K V} (hb : chordBuild hashK m ids items = some st0)
    {ops : List ChordOp} (happly : chordApplyOps hashK st0 ops = some st2)
    (hguard : joinsOnNonemptyB hashK st0 ops = true) :
    fingerInvariant st2 := by
  obtain ⟨st0x, hbx, hrc, -, -⟩ := chordBuild_ok (K := K) (V := V) hashK m hids items
  rw [hb] at hbx
  obtain rfl := Option.some.inj hbx
  have hfr0 : fingersRebuilt st0 := fun p hp => (hrc.2.2.2 p hp).2.2.1
  have hso0 : startsOk st0 := fingersRebuilt_startsOk hfr0
  obtain ⟨hso2, hfr2⟩ :=
    chordApplyOps_inv hashK ops st0 st2 happly hguard hso0 (Or.inr hfr0)
  rcases hfr2 with hfe | hfr2
  · intro p hp
    rw [hfe] at hp
    cases hp
  · exact fingersRebuilt_fingerInvariant hfr2

/-- The unamended claim C5 is false: build a one-node ring on `m = 2`, let
the only node leave gracefully, then join a node onto the emptied ring.  The
joining node takes the first-node path of `Chord.join`, which never calls
`_rebuild_fingers`, so all its finger nodes stay `None` and the finger
invariant fails; the guard of the amended claim indeed rejects this
sequence. -/
theorem chord_finger_invariant_counterexample :
    ((chordBuild (fun _ : Nat => 0) 2 [0] ([] : List (Nat × Nat))).bind
      (fun st0 => (chordApplyOps (fun _ : Nat => 0) st0
        [ChordOp.leave 0 true, ChordOp.join 1]).map
        (fun st2 => decide (fingerInvariant st2)))) = some false ∧
    ((chordBuild (fun _ : Nat => 0) 2 [0] ([] : List (Nat × Nat))).map
      (fun st0 => joinsOnNonemptyB (fun _ : Nat => 0) st0
        [ChordOp.leave 0 true, ChordOp.join 1])) = some false := by
  exact ⟨by decide, by decide⟩

theorem chord_finger_invariant_witness :
    ∃ st0 st2 : ChordSt Nat Nat,
      chordBuild (fun q : Nat => q) 2 [0] ([] : List (Nat × Nat)) = some st0 ∧
      chordApplyOps (fun q : Nat => q) st0
        [ChordOp.join 1, ChordOp.leave 0 true] = some st2 ∧
      fingerInvariant st2 := by
  have hs : (chordBuild (fun q : Nat => q) 2 [0]
      ([] : List (Nat × Nat))).isSome = true := by decide
  obtain ⟨st0, hb⟩ := Option.isSome_iff_exists.mp hs
  have hs2 : ((chordBuild (fun q : Nat => q) 2 [0]
      ([] : List (Nat × Nat))).bind
      (fun s => chordApplyOps (fun q : Nat => q) s
        [ChordOp.join 1, ChordOp.leave 0 true])).isSome = true := by decide
  rw [hb] at hs2
  have hs2x : (chordApplyOps (fun q : Nat => q) st0
      [ChordOp.join 1, ChordOp.leave 0 true]).isSome = true := hs2
  obtain ⟨st2, happ⟩ := Option.isSome_iff_exists.mp hs2x
  have hgm : ((chordBuild (fun q : Nat => q) 2 [0]
      ([] : List (Nat × Nat))).map
      (fun s => joinsOnNonemptyB (fun q : Nat => q) s
        [ChordOp.join 1, ChordOp.leave 0 true])) = some true := by decide
  rw [hb] at hgm
  have hg : joinsOnNonemptyB (fun q : Nat => q) st0
      [ChordOp.join 1, ChordOp.leave 0 true] = true := Option.some.inj hgm
  exact ⟨st0, st2, hb, happ,
    chord_finger_invariant (fun q : Nat => q) 2 (by decide) [] hb happ hg⟩

end ChordProofs

section PastryTermination

theorem unvisitedFilter_lt (n : Nat) (visited : List Nat) (hnv : n ∉ visited) :
    ∀ l : List Nat, n ∈ l →
      ((l.filter fun i => decide (i ∉ n :: visited)).length <
        (l.filter fun i => decide (i ∉ visited)).length) := by
  intro l
  induction l with
  | nil => intro hmem; cases hmem
  | cons a t ih =>
    intro hmem
    by_cases han : a = n
    · subst han
      have h1 : ¬ (decide (a ∉ a :: visited) = true) := by simp
      have h2 : decide (a ∉ visited) = true := by simpa using hnv
      rw [List.filter_cons_of_neg (p := fun i => decide (i ∉ a :: visited)) h1,
        List.filter_cons_of_pos (p := fun i => decide (i ∉ visited)) h2,
        List.length_cons]
      have hmono : List.Sublist
          (t.filter fun i => decide (i ∉ a :: visited))
          (t.filter fun i => decide (i ∉ visited)) := by
        apply List.monotone_filter_right
        intro x hx
        simp only [decide_eq_true_eq, List.mem_cons, not_or] at hx ⊢
        exact hx.2
      exact Nat.lt_succ_of_le hmono.length_le
    · have hmem2 : n ∈ t := by
        rcases List.mem_cons.mp hmem with h | h
        · exact absurd h.symm han
        · exact h
      by_cases hav : a ∈ visited
      · have h1 : ¬ (decide (a ∉ n :: visited) = true) := by simp [hav]
        have h2 : ¬ (decide (a ∉ visited) = true) := by simp [hav]
        rw [List.filter_cons_of_neg (p := fun i => decide (i ∉ n :: visited)) h1,
          List.filter_cons_of_neg (p := fun i => decide (i ∉ visited)) h2]
        exact ih hmem2
      · have h1 : decide (a ∉ n :: visited) = true := by simp [hav, han]
        have h2 : decide (a ∉ visited) = true := by simp [hav]
        rw [List.filter_cons_of_pos (p := fun i => decide (i ∉ n :: visited)) h1,
          List.filter_cons_of_pos (p := fun i => decide (i ∉ visited)) h2,
          List.length_cons, List.length_cons]
        exact Nat.succ_lt_succ (ih hmem2)

theorem pastryRoute_total {K V : Type} (st : PastrySt K V)
    (hids : ∀ p ∈ st.nodes, p.2.nodeId = p.1) :
    ∀ (fuel : Nat) (visited : List Nat) (node : PastryNodeSt K V) (key : Nat),
      node.nodeId ∈ st.nodes.map Prod.fst →
      unvisitedCount st visited < fuel →
      ∃ r, pastryRoute st fuel node key visited = some r ∧
        RouteRes.forwards r ≤ unvisitedCount st visited := by
  intro fuel
  induction fuel with
  | zero => intro visited node key hmem hlt; omega
  | succ fuel ih =>
    intro visited node key hmem hlt
    by_cases hv : node.nodeId ∈ visited
    · refine ⟨RouteRes.ok node.nodeId 0, ?_, Nat.zero_le _⟩
      unfold pastryRoute
      rw [if_pos hv]
    · have hdec : unvisitedCount st (node.nodeId :: visited) <
          unvisitedCount st visited :=
        unvisitedFilter_lt node.nodeId visited hv _ hmem
      have hlt2 : unvisitedCount st (node.nodeId :: visited) < fuel := by
        omega
      unfold pastryRoute
      rw [if_neg hv]
      dsimp only
      split
      · split
        · exact ⟨_, rfl, Nat.zero_le _⟩
        · exact ⟨_, rfl, Nat.zero_le _⟩
      · split
        · rename_i entry hrt
          rcases hfind : assocFind st.nodes entry with _ | nx
          · exact ⟨_, rfl, Nat.zero_le _⟩
          · have hmem2 : nx.nodeId ∈ st.nodes.map Prod.fst := by
              have hpm := assocFind_mem hfind
              rw [hids _ hpm]
              exact List.mem_map.mpr ⟨_, hpm, rfl⟩
            obtain ⟨r2, hr2, hb2⟩ :=
              ih (node.nodeId :: visited) nx key hmem2 hlt2
            dsimp only
            rw [hr2]
            rcases r2 with ⟨o, f⟩ | f
            · refine ⟨_, rfl, ?_⟩
              have hf : RouteRes.forwards (RouteRes.ok o f) = f := rfl
              rw [hf] at hb2
              show f + 1 ≤ unvisitedCount st visited
              omega
            · refine ⟨_, rfl, ?_⟩
              have hf : RouteRes.forwards (RouteRes.crashed f) = f := rfl
              rw [hf] at hb2
              show f + 1 ≤ unvisitedCount st visited
              omega
        · split
          · rename_i bn hbest
            split
            · rcases hfind : assocFind st.nodes bn with _ | nx
              · exact ⟨_, rfl, Nat.zero_le _⟩
              · have hmem2 : nx.nodeId ∈ st.nodes.map Prod.fst := by
                  have hpm := assocFind_mem hfind
                  rw [hids _ hpm]
                  exact List.mem_map.mpr ⟨_, hpm, rfl⟩
                obtain ⟨r2, hr2, hb2⟩ :=
                  ih (node.nodeId :: visited) nx key hmem2 hlt2
                dsimp only
                rw [hr2]
                rcases r2 with ⟨o, f⟩ | f
                · refine ⟨_, rfl, ?_⟩
                  have hf : RouteRes.forwards (RouteRes.ok o f) = f := rfl
                  rw [hf] at hb2
                  show f + 1 ≤ unvisitedCount st visited
                  omega
                · refine ⟨_, rfl, ?_⟩
                  have hf : RouteRes.forwards (RouteRes.crashed f) = f := rfl
                  rw [hf] at hb2
                  show f + 1 ≤ unvisitedCount st visited
                  omega
            · exact ⟨_, rfl, Nat.zero_le _⟩
          · exact ⟨_, rfl, Nat.zero_le _⟩


/-- Claim C8: on any Pastry state whose registry keys each node under its own
id, a route launched from a registered source peer with fuel
`pastryFuel st = |nodes| + 1` terminates (returns a result rather than
running out of fuel), and the number of forwarded route messages is at most
the number of live peers: the visited list grows by the current node's id on
every forward, and a node already in it answers immediately. -/
theorem pastry_routing_termination {K V : Type} (st : PastrySt K V)
    (hids : ∀ p ∈ st.nodes, p.2.nodeId = p.1)
    {src : Nat} {node : PastryNodeSt K V}
    (hfind : assocFind st.nodes src = some node) (key : Nat) :
    ∃ r, pastryRoute st (pastryFuel st) node key [] = some r ∧
      RouteRes.forwards r ≤ st.nodes.length := by
  have hmem : node.nodeId ∈ st.nodes.map Prod.fst := by
    have hpm := assocFind_mem hfind
    rw [hids _ hpm]
    exact List.mem_map.mpr ⟨_, hpm, rfl⟩
  have hcount : unvisitedCount st [] ≤ st.nodes.length := by
    unfold unvisitedCount
    calc ((st.nodes.map Prod.fst).filter
          (fun i => decide (i ∉ ([] : List Nat)))).length
        ≤ (st.nodes.map Prod.fst).length := List.length_filter_le _ _
      _ = st.nodes.length := List.length_map _ _
  obtain ⟨r, hr, hb⟩ := pastryRoute_total st hids (pastryFuel st) [] node key
    hmem (by unfold pastryFuel; omega)
  exact ⟨r, hr, le_trans hb hcount⟩

theorem pastry_routing_termination_witness :
    ∃ (st : PastrySt Nat Nat) (node : PastryNodeSt Nat Nat) (r : RouteRes),
      pastryBuild (fun q : Nat => q) 4 2 [1, 5, 9] ([] : List (Nat × Nat)) =
        some st ∧
      assocFind st.nodes 1 = some node ∧
      pastryRoute st (pastryFuel st) node 11 [] = some r ∧
      RouteRes.forwards r ≤ st.nodes.length := by
  have hs : (pastryBuild (fun q : Nat => q) 4 2 [1, 5, 9]
      ([] : List (Nat × Nat))).isSome = true := by decide
  obtain ⟨st, hb⟩ := Option.isSome_iff_exists.mp hs
  have hs2 : ((pastryBuild (fun q : Nat => q) 4 2 [1, 5, 9]
      ([] : List (Nat × Nat))).bind
      (fun s => assocFind s.nodes 1)).isSome = true := by decide
  rw [hb] at hs2
  have hs2x : (assocFind st.nodes 1).isSome = true := hs2
  obtain ⟨node, hfind⟩ := Option.isSome_iff_exists.mp hs2x
  have hidm : ((pastryBuild (fun q : Nat => q) 4 2 [1, 5, 9]
      ([] : List (Nat × Nat))).map
      (fun s => decide (∀ p ∈ s.nodes, p.2.nodeId = p.1))) = some true := by
    decide
  rw [hb] at hidm
  have hids : ∀ p ∈ st.nodes, p.2.nodeId = p.1 :=
    of_decide_eq_true (Option.some.inj hidm)
  obtain ⟨r, hr, hle⟩ := pastry_routing_termination st hids hfind 11
  exact ⟨st, node, r, hb, hfind, hr, hle⟩

end PastryTermination

section PastryBugs

/-- Claim C2 is refuted by the code: on the ring `m = 8`, `b = 4` with peers
`{0, 128}`, the peer numerically closest to key 60 is 0 (circular distance
60 against 68), yet `_route` launched at peer 128 returns 128 itself with no
forward: `_rare_case_routing` selects best node 0, but the Python guard
`if best_node:` treats the integer id 0 as falsy and falls through to
returning the current node. -/
theorem pastry_ownership_bug :
    ((pastryBuild (fun q : Nat => q) 8 4 [0, 128]
        ([] : List (Nat × Nat))).bind
      (fun st => (assocFind st.nodes 128).map
        (fun node => pastryRoute st (pastryFuel st) node 60 []))) =
      some (some (RouteRes.ok 128 0)) ∧
    ((pastryBuild (fun q : Nat => q) 8 4 [0, 128]
        ([] : List (Nat × Nat))).map
      (fun st => st.nodes.map Prod.fst)) = some [0, 128] ∧
    numericallyClosest 256 60 [0, 128] = some 0 := by
  exact ⟨by decide, by decide, by decide⟩

/-- Claim C4 is refuted by the code: with peers `{0, 1}` (`m = 2`, `b = 1`)
and the single binding `(1, 7)` stored at peer 1, a graceful `leave(1)`
loses the binding even though peer 0 stays live — `leave`'s hand-off guard
`if best_node and best_node in self.nodes:` is falsy for the receiving id 0.
With peers `{1, 2}` instead, the same operation conserves the binding, which
isolates the node-0 truthiness bug. -/
theorem pastry_leave_key_loss :
    ((pastryBuild (fun q : Nat => q) 2 1 [0, 1] [(1, 7)]).bind
      (fun st => (pastryLeave (fun q : Nat => q) st 1 true).map
        (fun r => (liveBindings st.nodes, liveBindings r.1.nodes,
          r.1.nodes.map Prod.fst)))) = some ([(1, 7)], [], [0]) ∧
    ((pastryBuild (fun q : Nat => q) 2 1 [1, 2] [(1, 7)]).bind
      (fun st => (pastryLeave (fun q : Nat => q) st 1 true).map
        (fun r => (liveBindings st.nodes, liveBindings r.1.nodes,
          r.1.nodes.map Prod.fst)))) = some ([(1, 7)], [(1, 7)], [2]) := by
  exact ⟨by decide, by decide⟩

end PastryBugs

end DHTLab
